import Mathlib

/-!
Reversi engine: a shallow embedding of the Go sources and its verified properties

The definitions below transcribe `constants.go`, `board.go`, `game.go`,
`zobrist.go` and `ai.go`.  Conventions of the embedding:

* Go `int` values are `Int`; the board `[8][8]int` is a function on `Fin 8 × Fin 8`.
* An index outside an array is a run-time panic in Go; operations that index
  with data-dependent values return `Except Fault _`.
* Recursion that Go performs on the call stack is driven by a `fuel : Nat`
  argument; running out of it is the fault `Fault.outOfFuel`, and the
  theorems that promise a result exhibit enough fuel.
* `float64` scores are values of `Score`, the rationals extended by `-Inf`
  and `+Inf` (every finite `float64` is a rational, and the search only
  compares scores and takes `math.Max`/`math.Min` of them).
-/

namespace Reversi

/-! ## constants.go -/

def Blank : Int := 0
def Black : Int := 1
def White : Int := 2
def BoardSize : Int := 8

/-- Directions for checking valid moves, in source order. -/
def directions : List (Int × Int) :=
  [(-1, -1), (-1, 0), (-1, 1), (0, -1), (0, 1), (1, -1), (1, 0), (1, 1)]

/-! ## board.go, game.go: data model -/

/-- The Go type `Board [BoardSize][BoardSize]int`. -/
abbrev Board := Fin 8 → Fin 8 → Int

/-- The index values `0 .. BoardSize-1` in loop order. -/
def indices : List (Fin 8) := [0, 1, 2, 3, 4, 5, 6, 7]

/-- The guarded read `nx >= 0 && nx < BoardSize && ny >= 0 && ny < BoardSize`
followed by `board[nx][ny]`: `none` when the guard fails. -/
def Board.cell? (b : Board) (x y : Int) : Option Int :=
  if h : 0 ≤ x ∧ x < 8 ∧ 0 ≤ y ∧ y < 8 then
    some (b ⟨x.toNat, by omega⟩ ⟨y.toNat, by omega⟩)
  else none

/-- The assignment `board[x][y] = v` for in-range indices. -/
def Board.set (b : Board) (x y : Fin 8) (v : Int) : Board :=
  fun i j => if i = x ∧ j = y then v else b i j

/-- The ways a run of the model can fail: the fuel of a recursion is used up
(an artefact of the model), or Go panics on an index, on a division by zero,
on a negative length given to `make` or on the dereference of a nil pointer. -/
inductive Fault where
  | outOfFuel
  | indexOutOfRange
  | divideByZero
  | makeSliceLen
  | nilDereference
  deriving DecidableEq, Repr

/-- The assignment `board[x][y] = v` on `int` indices: a panic when out of range. -/
def Board.set? (b : Board) (x y : Int) (v : Int) : Except Fault Board :=
  if h : 0 ≤ x ∧ x < 8 ∧ 0 ≤ y ∧ y < 8 then
    .ok (b.set ⟨x.toNat, by omega⟩ ⟨y.toNat, by omega⟩ v)
  else .error Fault.indexOutOfRange

/-- The Go struct `Move`. -/
structure Move where
  X : Int
  Y : Int
  Flips : List (Int × Int)
  deriving DecidableEq, Repr

/-- The zero value `var m Move`. -/
def Move.zero : Move := ⟨0, 0, []⟩

/-- The Go struct `Game`. -/
structure Game where
  board : Board
  current : Int
  blackAI : Bool
  whiteAI : Bool
  moveCount : Int
  difficulty : Int

/-- `NewBoard`: the four centre discs. -/
def NewBoard : Board :=
  fun i j =>
    if (i = 3 ∧ j = 3) ∨ (i = 4 ∧ j = 4) then White
    else if (i = 3 ∧ j = 4) ∨ (i = 4 ∧ j = 3) then Black
    else Blank

/-- `NewGame`. -/
def NewGame : Game :=
  { board := NewBoard, current := Black, blackAI := false, whiteAI := false,
    moveCount := 4, difficulty := 5 }

/-- `SwitchTurn`. -/
def SwitchTurn (g : Game) : Game :=
  if g.current = Black then { g with current := White } else { g with current := Black }

/-- `Opponent`. -/
def Opponent (player : Int) : Int :=
  if player = Black then White else Black

/-- The inner `for` loop of `Flips`: starting at `(nx, ny)` it appends cells
while they are on the board and hold `opponent`, and yields the collected
cells with the position at which the loop stopped.  `fuel` bounds the number
of iterations (`flipRun_stops` shows that `8` never cuts the loop short). -/
def flipRun (b : Board) (opponent dx dy : Int) :
    Nat → Int → Int → List (Int × Int) → List (Int × Int) × Int × Int
  | 0, nx, ny, flips => (flips, nx, ny)
  | fuel + 1, nx, ny, flips =>
    if b.cell? nx ny = some opponent then
      flipRun b opponent dx dy fuel (nx + dx) (ny + dy) (flips ++ [(nx, ny)])
    else (flips, nx, ny)

/-- One iteration of the `for _, dir := range directions` loop of `Flips`:
the cells this direction contributes to `totalFlips`. -/
def dirFlips (g : Game) (x y player : Int) (dir : Int × Int) : List (Int × Int) :=
  let r := flipRun g.board (Opponent player) dir.1 dir.2 8 (x + dir.1) (y + dir.2) []
  if g.board.cell? r.2.1 r.2.2 = some player ∧ r.1.length > 0 then r.1 else []

/-- `Flips`. -/
def Flips (g : Game) (x y player : Int) : List (Int × Int) :=
  directions.flatMap (dirFlips g x y player)

/-- The body of the two nested loops of `ValidMoves` at cell `(x, y)`. -/
def validMoveAt (g : Game) (player : Int) (x y : Fin 8) : Option Move :=
  if g.board x y = Blank then
    let flips := Flips g x y player
    if flips.length > 0 then some ⟨x, y, flips⟩ else none
  else none

/-- `ValidMoves`. -/
def ValidMoves (g : Game) (player : Int) : List Move :=
  indices.flatMap fun x => indices.filterMap fun y => validMoveAt g player x y

/-! ## Specification vocabulary for `Flips` -/

/-- The cells visited by the inner loop: `m` steps from `(nx, ny)`. -/
def runCells (nx ny dx dy : Int) (m : Nat) : List (Int × Int) :=
  (List.range m).map fun (j : Nat) => (nx + (j : Int) * dx, ny + (j : Int) * dy)

/-- The specification of a flipped cell: `c` lies on the ray from `(x, y)` in
a direction `d`, inside a run of `n ≥ 1` cells that all hold the opponent's
disc, starts next to `(x, y)` and is followed at once by a cell on the board
holding `player`. -/
def Bracketed (b : Board) (x y player : Int) (c : Int × Int) : Prop :=
  ∃ d ∈ directions, ∃ n k : Nat, 1 ≤ k ∧ k ≤ n ∧
    c = (x + (k : Int) * d.1, y + (k : Int) * d.2) ∧
    (∀ j : Nat, 1 ≤ j → j ≤ n →
      b.cell? (x + (j : Int) * d.1) (y + (j : Int) * d.2) = some (Opponent player)) ∧
    b.cell? (x + ((n + 1 : Nat) : Int) * d.1) (y + ((n + 1 : Nat) : Int) * d.2) = some player

/-! ## game.go: applying moves -/

/-- `Board.Copy` and `Game.Copy`: the board array is copied by value, and the
two AI flags are not carried over. -/
def Game.Copy (g : Game) : Game :=
  { board := g.board, current := g.current, blackAI := false, whiteAI := false,
    moveCount := g.moveCount, difficulty := g.difficulty }

/-- `MakeMove`: place the disc, recolour the flipped cells, count the move and
optionally hand over the turn.  An index off the board is a panic. -/
def MakeMove (g : Game) (move : Move) (switchTurn : Bool) : Except Fault Game := do
  let b ← g.board.set? move.X move.Y g.current
  let b ← move.Flips.foldlM (fun b flip => b.set? flip.1 flip.2 g.current) b
  let g1 := { g with board := b, moveCount := g.moveCount + 1 }
  pure (if switchTurn then SwitchTurn g1 else g1)

/-- `SimulateMove`: the move applied to a copy; the receiver is not changed. -/
def SimulateMove (g : Game) (move : Move) (switchTurn : Bool) : Except Fault Game :=
  MakeMove g.Copy move switchTurn

/-- All cells in the order of the nested loops `for x { for y { .. } }`. -/
def allCells : List (Fin 8 × Fin 8) :=
  indices.flatMap fun x => indices.map fun y => (x, y)

/-- The counting loop shared by `GetWinner` and `GetScore`:
`(blackCount, whiteCount)`. -/
def discCounts (b : Board) : Int × Int :=
  allCells.foldl
    (fun acc c =>
      if b c.1 c.2 = Black then (acc.1 + 1, acc.2)
      else if b c.1 c.2 = White then (acc.1, acc.2 + 1)
      else acc)
    (0, 0)

/-- `GetScore`. -/
def GetScore (g : Game) : Int × Int := discCounts g.board

/-- `GetWinner`. -/
def GetWinner (g : Game) : Int :=
  let c := discCounts g.board
  if c.1 > c.2 then Black else if c.2 > c.1 then White else Blank

/-- `CountEmptySquares`. -/
def CountEmptySquares (g : Game) : Int :=
  allCells.foldl (fun count c => if g.board c.1 c.2 = Blank then count + 1 else count) 0

/-- `IsGameOver`. -/
def IsGameOver (g : Game) : Bool :=
  (ValidMoves g Black).length = 0 && (ValidMoves g White).length = 0

/-! ## ai.go: scores -/

/-- A `float64` score: a rational number, `math.Inf(-1)` (`⊥`) or `math.Inf(1)` (`⊤`). -/
abbrev Score := WithBot (WithTop ℚ)

/-- A finite score. -/
def Score.ofRat (q : ℚ) : Score := ((q : WithTop ℚ) : WithBot (WithTop ℚ))

/-- `EvaluateEndgame`. -/
def EvaluateEndgame (g : Game) (aiPlayer : Int) : Score :=
  let winner := GetWinner g
  if winner = aiPlayer then Score.ofRat 100
  else if winner = Opponent aiPlayer then Score.ofRat (-100)
  else Score.ofRat 0

/-! ## ai.go: the exact endgame search -/

/-- The `for _, move := range moves` loop of the maximizing branch of
`minimaxEndgame`; `search` is the recursive call on the simulated position. -/
def endgameMaxLoop (search : Game → Score → Score → Except Fault Score) (game : Game)
    (beta : Score) : List Move → Score → Score → Except Fault Score
  | [], value, _ => pure value
  | move :: rest, value, alpha => do
    let newGame ← SimulateMove game move true
    let eval ← search newGame alpha beta
    let value := max value eval
    let alpha := max alpha value
    if alpha ≥ beta then pure value
    else endgameMaxLoop search game beta rest value alpha

/-- The loop of the minimizing branch of `minimaxEndgame`. -/
def endgameMinLoop (search : Game → Score → Score → Except Fault Score) (game : Game)
    (alpha : Score) : List Move → Score → Score → Except Fault Score
  | [], value, _ => pure value
  | move :: rest, value, beta => do
    let newGame ← SimulateMove game move true
    let eval ← search newGame alpha beta
    let value := min value eval
    let beta := min beta value
    if alpha ≥ beta then pure value
    else endgameMinLoop search game alpha rest value beta

/-- `minimaxEndgame`.  The result carries the score and the state in which the
call leaves the game it was handed (the pass branch calls `SwitchTurn` on it
before and after the recursive call). -/
def minimaxEndgame : Nat → Game → Score → Score → Bool → Int → Except Fault (Score × Game)
  | 0, _, _, _, _, _ => .error Fault.outOfFuel
  | fuel + 1, game, alpha, beta, maximizing, aiPlayer =>
    if IsGameOver game then pure (EvaluateEndgame game aiPlayer, game)
    else
      let moves := ValidMoves game game.current
      if moves.length = 0 then do
        let r ← minimaxEndgame fuel (SwitchTurn game) alpha beta (!maximizing) aiPlayer
        pure (r.1, SwitchTurn r.2)
      else if maximizing then do
        let value ← endgameMaxLoop
          (fun newGame a b => do
            let r ← minimaxEndgame fuel newGame a b false aiPlayer
            pure r.1)
          game beta moves ⊥ alpha
        pure (value, game)
      else do
        let value ← endgameMinLoop
          (fun newGame a b => do
            let r ← minimaxEndgame fuel newGame a b true aiPlayer
            pure r.1)
          game alpha moves ⊤ beta
        pure (value, game)

/-- The `for _, move := range moves` loop of `EndgameSolver`, carrying
`(bestMove, bestScore)`. -/
def solverLoop (search : Game → Except Fault Score) (g : Game) :
    List Move → Move → Score → Except Fault (Move × Score)
  | [], bestMove, bestScore => pure (bestMove, bestScore)
  | move :: rest, bestMove, bestScore => do
    let newGame ← SimulateMove g move true
    let score ← search newGame
    if score > bestScore then solverLoop search g rest move score
    else solverLoop search g rest bestMove bestScore

/-- `EndgameSolver`: the chosen move together with the state in which the
receiver is left (the no-move branch switches the turn and does not switch back). -/
def EndgameSolver : Nat → Game → Int → Except Fault (Move × Game)
  | 0, _, _ => .error Fault.outOfFuel
  | fuel + 1, g, aiPlayer =>
    let moves := ValidMoves g g.current
    if moves.length = 0 then EndgameSolver fuel (SwitchTurn g) aiPlayer
    else do
      let r ← solverLoop
        (fun newGame => do
          let r ← minimaxEndgame fuel newGame ⊥ ⊤ false aiPlayer
          pure r.1)
        g moves Move.zero ⊥
      pure (r.1, g)

/-! ## Reference semantics: unpruned minimax to the end of the game -/

/-- The exact game value of a position for `aiPlayer`: plain minimax over
`ValidMoves` and `SimulateMove`, a side without a move passes, and a position
in which neither side can move is worth `EvaluateEndgame`.  No window, no
pruning. -/
def exactValue : Nat → Game → Bool → Int → Except Fault Score
  | 0, _, _, _ => .error Fault.outOfFuel
  | fuel + 1, game, maximizing, aiPlayer =>
    if IsGameOver game then pure (EvaluateEndgame game aiPlayer)
    else
      let moves := ValidMoves game game.current
      if moves.length = 0 then exactValue fuel (SwitchTurn game) (!maximizing) aiPlayer
      else do
        let vals ← moves.mapM fun move => do
          let newGame ← SimulateMove game move true
          exactValue fuel newGame (!maximizing) aiPlayer
        pure (if maximizing then vals.foldl max ⊥ else vals.foldl min ⊤)

/-! ## game.go: the heuristic evaluator

`Evaluate` computes with `float64`; the transcription below carries out the
same operations in exact rational arithmetic.  The searches are parametric in
the evaluator (`evaluate : Game → Int → ℚ`), so the theorems about them do not
depend on how `float64` rounds; `Evaluate` is used for concrete positions. -/

inductive GamePhase where
  | EarlyGame
  | MidGame
  | LateGame
  deriving DecidableEq, Repr

/-- `CellHeuristics`. -/
def CellHeuristics : List (List Int) :=
  [[100, -20, 10, 5, 5, 10, -20, 100],
   [-20, -50, -2, -2, -2, -2, -50, -20],
   [10, -2, 5, 1, 1, 5, -2, 10],
   [5, -2, 1, 1, 1, 1, -2, 5],
   [5, -2, 1, 1, 1, 1, -2, 5],
   [10, -2, 5, 1, 1, 5, -2, 10],
   [-20, -50, -2, -2, -2, -2, -50, -20],
   [100, -20, 10, 5, 5, 10, -20, 100]]

/-- `GetGamePhase`. -/
def GetGamePhase (g : Game) : GamePhase :=
  if g.moveCount ≤ 20 then GamePhase.EarlyGame
  else if g.moveCount > 20 ∧ g.moveCount ≤ 44 then GamePhase.MidGame
  else GamePhase.LateGame

/-- The Go struct `ScoreComponents`. -/
structure ScoreComponents where
  TotalScore : ℚ := 0
  Heuristic : ℚ := 0
  DiscDiff : ℚ := 0
  Mobility : ℚ := 0
  Frontier : ℚ := 0
  PotentialMobility : ℚ := 0
  CornerOwnership : ℚ := 0
  EdgeStability : ℚ := 0
  WeightHeuristic : ℚ := 0
  WeightDiscDifference : ℚ := 0
  WeightMobility : ℚ := 0
  WeightFrontier : ℚ := 0
  WeightPotentialMob : ℚ := 0
  WeightCorner : ℚ := 0
  WeightEdge : ℚ := 0

/-- `isXSquare`. -/
def isXSquare (x y : Int) : Bool :=
  (x = 1 ∧ y = 1) ∨ (x = 1 ∧ y = 6) ∨ (x = 6 ∧ y = 1) ∨ (x = 6 ∧ y = 6)

/-- `isCSquare`. -/
def isCSquare (x y : Int) : Bool :=
  (x = 0 ∧ y = 1) ∨ (x = 1 ∧ y = 0) ∨ (x = 0 ∧ y = 6) ∨ (x = 1 ∧ y = 7) ∨
  (x = 6 ∧ y = 0) ∨ (x = 7 ∧ y = 1) ∨ (x = 6 ∧ y = 7) ∨ (x = 7 ∧ y = 6)

/-- `adjacentCorner`. -/
def adjacentCorner (x y : Int) : Int × Int :=
  if x = 1 ∧ y = 1 then (0, 0)
  else if x = 1 ∧ y = 6 then (0, 7)
  else if x = 6 ∧ y = 1 then (7, 0)
  else if x = 6 ∧ y = 6 then (7, 7)
  else (-1, -1)

/-- `adjacentCornerC`. -/
def adjacentCornerC (x y : Int) : Int × Int :=
  if x = 0 ∧ y = 1 then (0, 0)
  else if x = 1 ∧ y = 0 then (0, 0)
  else if x = 0 ∧ y = 6 then (0, 7)
  else if x = 1 ∧ y = 7 then (0, 7)
  else if x = 6 ∧ y = 0 then (7, 0)
  else if x = 7 ∧ y = 1 then (7, 0)
  else if x = 6 ∧ y = 7 then (7, 7)
  else if x = 7 ∧ y = 6 then (7, 7)
  else (-1, -1)

/-- `isFrontierDisc`. -/
def isFrontierDisc (board : Board) (x y : Int) : Bool :=
  directions.any fun dir => board.cell? (x + dir.1) (y + dir.2) = some Blank

/-- `abs`. -/
def abs (a : Int) : Int := if a < 0 then -a else a

/-- The unguarded read `board[x][y]` at indices the source only produces on
the board (the corner next to an X- or C-square). -/
def Board.at (b : Board) (x y : Int) : Int := (b.cell? x y).getD 0

/-- The counters of the main loop of `EvaluateDetailed`. -/
structure EvalCounts where
  myHeuristic : Int := 0
  myDiscs : Int := 0
  opponentDiscs : Int := 0
  myFrontierDiscs : Int := 0
  opponentFrontierDiscs : Int := 0
  myPotentialMobility : Int := 0
  opponentPotentialMobility : Int := 0

/-- The potential-mobility scan of an empty cell: the first neighbour on the
board that holds a disc decides (`some true`: the opponent's, `some false`:
the player's). -/
def firstNeighbour (board : Board) (x y player opponent : Int) : Option Bool :=
  directions.findSome? fun dir =>
    match board.cell? (x + dir.1) (y + dir.2) with
    | some neighborCell =>
      if neighborCell = opponent then some true
      else if neighborCell = player then some false
      else none
    | none => none

/-- The body of the loop `for x { for y { .. } }` of `EvaluateDetailed`. -/
def evalCell (board : Board) (player opponent : Int) (c : EvalCounts) (p : Fin 8 × Fin 8) :
    EvalCounts :=
  let x : Int := p.1
  let y : Int := p.2
  let cell := board p.1 p.2
  let c :=
    if cell = Blank then
      match firstNeighbour board x y player opponent with
      | some true => { c with myPotentialMobility := c.myPotentialMobility + 1 }
      | some false => { c with opponentPotentialMobility := c.opponentPotentialMobility + 1 }
      | none => c
    else c
  if cell = player ∨ cell = opponent then
    let value := (CellHeuristics.getD p.1 []).getD p.2 0
    let value :=
      if isXSquare x y then
        let corner := adjacentCorner x y
        if board.at corner.1 corner.2 ≠ cell then -abs value else value
      else value
    let value :=
      if isCSquare x y then
        let corner := adjacentCornerC x y
        if board.at corner.1 corner.2 ≠ cell then -abs value else value
      else value
    if cell = player then
      let c := { c with myHeuristic := c.myHeuristic + value, myDiscs := c.myDiscs + 1 }
      if isFrontierDisc board x y then { c with myFrontierDiscs := c.myFrontierDiscs + 1 }
      else c
    else if cell = opponent then
      let c := { c with opponentDiscs := c.opponentDiscs + 1 }
      if isFrontierDisc board x y then
        { c with opponentFrontierDiscs := c.opponentFrontierDiscs + 1 }
      else c
    else c
  else c

/-- The four edges listed in `EvaluateDetailed`. -/
def edges : List (List (Int × Int)) :=
  [[(0, 0), (1, 0), (2, 0), (3, 0), (4, 0), (5, 0), (6, 0), (7, 0)],
   [(0, 7), (1, 7), (2, 7), (3, 7), (4, 7), (5, 7), (6, 7), (7, 7)],
   [(0, 0), (0, 1), (0, 2), (0, 3), (0, 4), (0, 5), (0, 6), (0, 7)],
   [(7, 0), (7, 1), (7, 2), (7, 3), (7, 4), (7, 5), (7, 6), (7, 7)]]

/-- The pattern `100.0 * float64(a-b) / sum` guarded by `sum != 0`. -/
def ratio (scale : ℚ) (a b : Int) : ℚ :=
  if ((a + b : Int) : ℚ) ≠ 0 then scale * ((a - b : Int) : ℚ) / ((a + b : Int) : ℚ) else 0

/-- `EvaluateDetailed`. -/
def EvaluateDetailed (g : Game) (player : Int) : ScoreComponents :=
  let opponent := Opponent player
  let w : ScoreComponents :=
    match GetGamePhase g with
    | GamePhase.EarlyGame =>
      { WeightHeuristic := 10, WeightDiscDifference := 1, WeightMobility := 5,
        WeightFrontier := 5, WeightPotentialMob := 5, WeightCorner := 25, WeightEdge := 5 }
    | GamePhase.MidGame =>
      { WeightHeuristic := 5, WeightDiscDifference := 1, WeightMobility := 10,
        WeightFrontier := 10, WeightPotentialMob := 10, WeightCorner := 25, WeightEdge := 10 }
    | GamePhase.LateGame =>
      { WeightHeuristic := 1, WeightDiscDifference := 25, WeightMobility := 1,
        WeightFrontier := 1, WeightPotentialMob := 1, WeightCorner := 25, WeightEdge := 15 }
  let c := allCells.foldl (evalCell g.board player opponent) {}
  let corners : List (Int × Int) := [(0, 0), (0, 7), (7, 0), (7, 7)]
  let cornerCounts : Int × Int := corners.foldl
    (fun acc corner =>
      let cell := g.board.at corner.1 corner.2
      if cell = player then (acc.1 + 1, acc.2)
      else if cell = opponent then (acc.1, acc.2 + 1)
      else acc)
    (0, 0)
  let edgeStability : Int × Int := edges.foldl
    (fun acc edge =>
      let counts : Int × Int := edge.foldl
        (fun e pos =>
          let cell := g.board.at pos.1 pos.2
          if cell = player then (e.1 + 1, e.2)
          else if cell = opponent then (e.1, e.2 + 1)
          else e)
        (0, 0)
      if counts.1 = 8 then (acc.1 + 1, acc.2)
      else if counts.2 = 8 then (acc.1, acc.2 + 1)
      else acc)
    (0, 0)
  let myMobility : Int := (ValidMoves g player).length
  let opponentMobility : Int := (ValidMoves g opponent).length
  let w := { w with
    Heuristic := (c.myHeuristic : ℚ)
    DiscDiff := ratio 100 c.myDiscs c.opponentDiscs
    Mobility := ratio 100 myMobility opponentMobility
    Frontier := ratio (-100) c.myFrontierDiscs c.opponentFrontierDiscs
    PotentialMobility := ratio 100 c.myPotentialMobility c.opponentPotentialMobility
    CornerOwnership := ratio 100 cornerCounts.1 cornerCounts.2
    EdgeStability := ratio 100 edgeStability.1 edgeStability.2 }
  { w with TotalScore :=
      (w.WeightHeuristic * w.Heuristic) +
      (w.WeightDiscDifference * w.DiscDiff) +
      (w.WeightMobility * w.Mobility) +
      (w.WeightFrontier * w.Frontier) +
      (w.WeightPotentialMob * w.PotentialMobility) +
      (w.WeightCorner * w.CornerOwnership) +
      (w.WeightEdge * w.EdgeStability) }

/-- `Evaluate`. -/
def Evaluate (g : Game) (player : Int) : ℚ := (EvaluateDetailed g player).TotalScore

/-! ## zobrist.go -/

/-- The hash constants `zobristTable` and `zobristTurn` (`uint64` values). -/
structure Zobrist where
  table : Fin 8 → Fin 8 → Fin 3 → Nat
  turn : Nat

/-- `computeZobristHash`.  A cell value outside `0..2` indexes `zobristTable`
out of range. -/
def computeZobristHash (z : Zobrist) (g : Game) : Except Fault Nat := do
  let h ← allCells.foldlM
    (fun (h : Nat) c =>
      let piece := g.board c.1 c.2
      if hp : 0 ≤ piece ∧ piece < 3 then
        pure (h ^^^ z.table c.1 c.2 ⟨piece.toNat, by omega⟩)
      else throw Fault.indexOutOfRange)
    0
  pure (if g.current = Black then h ^^^ z.turn else h)

/-! ## ai.go: the search state -/

def Exact : Int := 0
def LowerBound : Int := 1
def UpperBound : Int := 2

/-- The Go struct `TTEntry`. -/
structure TTEntry where
  Depth : Int
  Eval : Score
  Flag : Int
  BestMove : Move
  deriving DecidableEq

/-- The Go struct `MoveKey`. -/
structure MoveKey where
  X : Int
  Y : Int
  deriving DecidableEq, Repr

/-- The package-level variables of `zobrist.go` and `ai.go`: the hash
constants, `transpositionTable` (a map: `none` is an absent key),
`historyTable` (a map read with the zero default) and `killerMoves`. -/
structure SearchState where
  zobrist : Zobrist
  transpositionTable : Nat → Option TTEntry
  historyTable : MoveKey → Int
  killerMoves : List MoveKey

/-- The map store `transpositionTable[hashKey] = entry`. -/
def SearchState.store (st : SearchState) (hashKey : Nat) (entry : TTEntry) : SearchState :=
  { st with transpositionTable := fun k => if k = hashKey then some entry
                                           else st.transpositionTable k }

/-- The index expression `depth % game.difficulty` (Go's remainder truncates
towards zero and panics on a zero divisor). -/
def killerIndex (depth difficulty : Int) : Except Fault Int :=
  if difficulty = 0 then throw Fault.divideByZero else pure (depth.tmod difficulty)

/-- The read `killerMoves[depth % game.difficulty]`. -/
def killerGet (st : SearchState) (depth difficulty : Int) : Except Fault MoveKey := do
  let i ← killerIndex depth difficulty
  if 0 ≤ i ∧ i < st.killerMoves.length then pure (st.killerMoves.getD i.toNat ⟨0, 0⟩)
  else throw Fault.indexOutOfRange

/-- The cutoff bookkeeping `historyTable[moveKey] += depth * depth` followed by
`killerMoves[depth % game.difficulty] = moveKey`. -/
def recordCutoff (st : SearchState) (move : Move) (depth difficulty : Int) :
    Except Fault SearchState := do
  let moveKey : MoveKey := ⟨move.X, move.Y⟩
  let history := fun k => if k = moveKey then st.historyTable k + depth * depth
                          else st.historyTable k
  let i ← killerIndex depth difficulty
  if 0 ≤ i ∧ i < st.killerMoves.length then
    pure { st with historyTable := history, killerMoves := st.killerMoves.set i.toNat moveKey }
  else throw Fault.indexOutOfRange

/-! ## ai.go: move ordering -/

/-- The local struct `MoveEval` of `orderMoves`. -/
structure MoveEval where
  move : Move
  moveKey : MoveKey
  eval : ℚ

/-- The comparison function handed to `sort.Slice` in `orderMoves`, on the two
elements it is asked to compare. -/
def orderLess (killerMoveKey : MoveKey) (historyTable : MoveKey → Int) (a b : MoveEval) : Bool :=
  if a.moveKey = killerMoveKey then true
  else if b.moveKey = killerMoveKey then false
  else
    let hi := historyTable a.moveKey
    let hj := historyTable b.moveKey
    if hi ≠ hj then hi > hj else a.eval > b.eval

/-- The library routine `sort.Slice` is not part of the repository: the
searches take it as the parameter `sortSlice`. -/
abbrev SortSlice := (MoveEval → MoveEval → Bool) → List MoveEval → List MoveEval

/-- The inner loop of Go's insertion sort, on the reversed sorted prefix:
the new element `x` moves left while it is less than its left neighbour. -/
def bubble (less : MoveEval → MoveEval → Bool) (x : MoveEval) : List MoveEval → List MoveEval
  | [] => [x]
  | y :: rest => if less x y then y :: bubble less x rest else x :: y :: rest

/-- Insertion sort, the algorithm `sort.Slice` runs on short slices: an
instance of `SortSlice` for concrete positions. -/
def insertionSort : SortSlice :=
  fun less xs => (xs.foldl (fun sorted x => bubble less x sorted) []).reverse

/-- `orderMoves`: the reordered move list.  `sort.Slice` calls the comparison
(and with it reads the killer slot) only when there are at least two elements. -/
def orderMoves (evaluate : Game → Int → ℚ) (sortSlice : SortSlice) (st : SearchState)
    (game : Game) (moves : List Move) (depth : Int) (aiPlayer : Int) :
    Except Fault (List Move) := do
  let moveEvals ← moves.mapM fun move => do
    let newGame ← SimulateMove game move false
    pure ({ move := move, moveKey := ⟨move.X, move.Y⟩, eval := evaluate newGame aiPlayer }
      : MoveEval)
  if moveEvals.length < 2 then pure (moveEvals.map fun me => me.move)
  else do
    let killerMoveKey ← killerGet st depth game.difficulty
    pure ((sortSlice (orderLess killerMoveKey st.historyTable) moveEvals).map fun me => me.move)

/-! ## ai.go: the heuristic search -/

/-- The outcome of the transposition-table lookup of `minimax`: an early
return with the stored score, or the (possibly narrowed) window with which the
node goes on. -/
inductive Probe where
  | hit (eval : Score)
  | miss (alpha beta : Score)

/-- The case `LowerBound` of the lookup: `if entry.Eval > alpha { alpha = entry.Eval }`. -/
def narrowAlpha (entry : TTEntry) (alpha : Score) : Score :=
  if entry.Flag = LowerBound ∧ entry.Eval > alpha then entry.Eval else alpha

/-- The case `UpperBound` of the lookup: `if entry.Eval < beta { beta = entry.Eval }`. -/
def narrowBeta (entry : TTEntry) (beta : Score) : Score :=
  if entry.Flag = UpperBound ∧ entry.Eval < beta then entry.Eval else beta

/-- The lookup block of `minimax` (`if entry, found := ...; found && entry.Depth >= depth`). -/
def probe (entry : Option TTEntry) (depth : Int) (alpha beta : Score) : Probe :=
  match entry with
  | some entry =>
    if entry.Depth ≥ depth then
      if entry.Flag = Exact then Probe.hit entry.Eval
      else if narrowAlpha entry alpha ≥ narrowBeta entry beta then Probe.hit entry.Eval
      else Probe.miss (narrowAlpha entry alpha) (narrowBeta entry beta)
    else Probe.miss alpha beta
  | none => Probe.miss alpha beta

/-- The variables a move loop of `minimax` leaves behind: `value`, `bestMove`,
the bound it moves (`alpha` in the maximizing loop, `beta` in the minimizing
one) and the search state. -/
structure LoopResult where
  value : Score
  bestMove : Move
  bound : Score
  st : SearchState

/-- The move loop of the maximizing branch of `minimax`. -/
def maxLoop (search : SearchState → Game → Score → Score → Except Fault (Score × SearchState))
    (game : Game) (depth : Int) (beta : Score) :
    List Move → Score → Move → Score → SearchState → Except Fault LoopResult
  | [], value, bestMove, alpha, st => pure ⟨value, bestMove, alpha, st⟩
  | move :: rest, value, bestMove, alpha, st =>
    if depth = game.difficulty then pure ⟨value, bestMove, alpha, st⟩
    else do
      let newGame ← SimulateMove game move true
      let r ← search st newGame alpha beta
      let eval := r.1
      let st := r.2
      let bestMove := if eval > value then move else bestMove
      let value := if eval > value then eval else value
      let alpha := max alpha value
      if alpha ≥ beta then do
        let st ← recordCutoff st move depth game.difficulty
        pure ⟨value, bestMove, alpha, st⟩
      else maxLoop search game depth beta rest value bestMove alpha st

/-- The move loop of the minimizing branch of `minimax`. -/
def minLoop (search : SearchState → Game → Score → Score → Except Fault (Score × SearchState))
    (game : Game) (depth : Int) (alpha : Score) :
    List Move → Score → Move → Score → SearchState → Except Fault LoopResult
  | [], value, bestMove, beta, st => pure ⟨value, bestMove, beta, st⟩
  | move :: rest, value, bestMove, beta, st =>
    if depth = game.difficulty then pure ⟨value, bestMove, beta, st⟩
    else do
      let newGame ← SimulateMove game move true
      let r ← search st newGame alpha beta
      let eval := r.1
      let st := r.2
      let bestMove := if eval < value then move else bestMove
      let value := if eval < value then eval else value
      let beta := min beta value
      if alpha ≥ beta then do
        let st ← recordCutoff st move depth game.difficulty
        pure ⟨value, bestMove, beta, st⟩
      else minLoop search game depth alpha rest value bestMove beta st

/-- The flag `minimax` stores with a searched node. -/
def storeFlag (value alphaOrig beta : Score) : Int :=
  if value ≤ alphaOrig then UpperBound
  else if value ≥ beta then LowerBound
  else Exact

/-- `minimax`.  The result is the score, the state in which the call leaves the
game it was handed, and the search state. -/
def minimax (evaluate : Game → Int → ℚ) (sortSlice : SortSlice) :
    Nat → SearchState → Game → Int → Score → Score → Bool → Int →
      Except Fault (Score × Game × SearchState)
  | 0, _, _, _, _, _, _, _ => .error Fault.outOfFuel
  | fuel + 1, st, game, depth, alpha, beta, maximizing, aiPlayer =>
    if depth = game.difficulty then pure (Score.ofRat 0, game, st)
    else do
      let hashKey ← computeZobristHash st.zobrist game
      match probe (st.transpositionTable hashKey) depth alpha beta with
      | Probe.hit eval => pure (eval, game, st)
      | Probe.miss alpha beta =>
        if depth = 0 ∨ IsGameOver game then
          let eval := Score.ofRat (evaluate game aiPlayer)
          pure (eval, game,
            st.store hashKey { Depth := depth, Eval := eval, Flag := Exact, BestMove := Move.zero })
        else
          let moves := ValidMoves game game.current
          if moves.length = 0 then do
            let r ← minimax evaluate sortSlice fuel st (SwitchTurn game) (depth - 1) alpha beta
              (!maximizing) aiPlayer
            pure (r.1, SwitchTurn r.2.1, r.2.2)
          else do
            let moves ← orderMoves evaluate sortSlice st game moves depth aiPlayer
            let alphaOrig := alpha
            if maximizing then do
              let l ← maxLoop
                (fun st newGame a b => do
                  let r ← minimax evaluate sortSlice fuel st newGame (depth - 1) a b false aiPlayer
                  pure (r.1, r.2.2))
                game depth beta moves ⊥ Move.zero alpha st
              let flag := storeFlag l.value alphaOrig beta
              pure (l.value, game,
                l.st.store hashKey
                  { Depth := depth, Eval := l.value, Flag := flag, BestMove := l.bestMove })
            else do
              let l ← minLoop
                (fun st newGame a b => do
                  let r ← minimax evaluate sortSlice fuel st newGame (depth - 1) a b true aiPlayer
                  pure (r.1, r.2.2))
                game depth alpha moves ⊤ Move.zero beta st
              let flag := storeFlag l.value alphaOrig l.bound
              pure (l.value, game,
                l.st.store hashKey
                  { Depth := depth, Eval := l.value, Flag := flag, BestMove := l.bestMove })

/-! ## ai.go: the move selector -/

/-- One call of `minimax` made by the root loop of `AIMove`, recorded for the
statements about the driver: the iteration depth, the root move, the score
returned, and whether the score reached the comparison with
`currentBestScore`. -/
structure RootSearch where
  depth : Int
  move : Move
  score : Score
  compared : Bool

/-- The variables the root loop of `AIMove` leaves behind. -/
structure RootResult where
  currentBestMove : Move
  currentBestScore : Score
  st : SearchState
  log : List RootSearch

/-- The loop `for _, move := range moves` inside the iterative deepening of
`AIMove`. -/
def rootLoop (search : SearchState → Game → Except Fault (Score × SearchState)) (g : Game)
    (depth : Int) :
    List Move → Move → Score → SearchState → List RootSearch → Except Fault RootResult
  | [], currentBestMove, currentBestScore, st, log =>
    pure ⟨currentBestMove, currentBestScore, st, log⟩
  | move :: rest, currentBestMove, currentBestScore, st, log => do
    let newGame ← SimulateMove g move true
    let r ← search st newGame
    let score := r.1
    let st := r.2
    if depth = g.difficulty then
      pure ⟨currentBestMove, currentBestScore, st, log ++ [⟨depth, move, score, false⟩]⟩
    else
      let log := log ++ [⟨depth, move, score, true⟩]
      if score > currentBestScore then rootLoop search g depth rest move score st log
      else rootLoop search g depth rest currentBestMove currentBestScore st log

/-- The loop `for depth := 1; ; depth++` of `AIMove`; `fuel` bounds the number
of iterations and is the fuel of each `minimax` call. -/
def deepen (evaluate : Game → Int → ℚ) (sortSlice : SortSlice) (mfuel : Nat) (g : Game)
    (moves : List Move) (aiPlayer : Int) :
    Nat → Int → Move → SearchState → List RootSearch →
      Except Fault (Move × SearchState × List RootSearch)
  | 0, _, _, _, _ => .error Fault.outOfFuel
  | fuel + 1, depth, bestMove, st, log => do
    let r ← rootLoop
      (fun st newGame => do
        let r ← minimax evaluate sortSlice mfuel st newGame (depth - 1) ⊥ ⊤ false aiPlayer
        pure (r.1, r.2.2))
      g depth moves Move.zero ⊥ st log
    if depth = g.difficulty then pure (bestMove, r.st, r.log)
    else
      deepen evaluate sortSlice mfuel g moves aiPlayer fuel (depth + 1)
        (r.currentBestMove) (r.st) (r.log)

/-- What a call of `AIMove` leaves behind: the game, the package-level search
state, and the record of the root searches it made. -/
structure AIResult where
  game : Game
  st : SearchState
  log : List RootSearch

/-- The search state after the initialisation block of `AIMove`:
`initZobrist()` draws the constants `fresh`, the two maps are new and
`killerMoves` has `difficulty` zero-valued slots. -/
def freshState (fresh : Zobrist) (difficulty : Int) : SearchState :=
  { zobrist := fresh, transpositionTable := fun _ => none, historyTable := fun _ => 0,
    killerMoves := List.replicate difficulty.toNat ⟨0, 0⟩ }

/-- `AIMove`.  `fresh` stands for the random constants `initZobrist` draws,
`st` for the package-level search state before the call. -/
def AIMove (evaluate : Game → Int → ℚ) (sortSlice : SortSlice) (fuel : Nat) (fresh : Zobrist)
    (g : Game) (st : SearchState) : Except Fault AIResult :=
  let moves := ValidMoves g g.current
  if moves.length = 0 then pure ⟨SwitchTurn g, st, []⟩
  else
    let aiPlayer := g.current
    if g.difficulty < 0 then throw Fault.makeSliceLen
    else
      let st := freshState fresh g.difficulty
      let emptySquares := CountEmptySquares g
      if emptySquares ≤ 12 then do
        let r ← EndgameSolver fuel g aiPlayer
        let g ← MakeMove r.2 r.1 true
        pure ⟨g, st, []⟩
      else do
        let r ← deepen evaluate sortSlice fuel g moves aiPlayer fuel 1 Move.zero st []
        let g ← MakeMove g r.1 true
        pure ⟨g, r.2.1, r.2.2⟩

/-! ## Specification vocabulary for the searches -/

/-- The number of empty cells, as a natural number (`CountEmptySquares_eq`
relates it to the counting loop). -/
def emptyCount (b : Board) : Nat :=
  (Finset.univ.filter fun c : Fin 8 × Fin 8 => b c.1 c.2 = Blank).card

/-- A side to move that is one of the two colours. -/
def ValidTurn (g : Game) : Prop := g.current = Black ∨ g.current = White

/-- A finite score: neither `-Inf` nor `+Inf`. -/
def Score.IsFinite (s : Score) : Prop := ⊥ < s ∧ s < ⊤

/-- Fuel that suffices for the exact search of `g`: every move fills a cell
and a pass is followed by a move. -/
def endgameFuel (g : Game) : Nat := 2 * emptyCount g.board + 2

/-- The board after a move whose cells are all on the board: the target cell and
the flipped cells hold `v`, the others are unchanged (`MakeMove_eq`). -/
def movedBoard (b : Board) (m : Move) (v : Int) : Board :=
  fun i j =>
    if (((i : Nat) : Int), ((j : Nat) : Int)) = (m.X, m.Y) ∨
       (((i : Nat) : Int), ((j : Nat) : Int)) ∈ m.Flips then v else b i j

/-- The contract of a pruned search of one child position against its exact
value `v`, for the window `(a, b)`: a result above `a` is a lower bound of `v`,
a result below `b` is an upper bound. -/
def Brackets (a b v r : Score) : Prop := (a < r → r ≤ v) ∧ (r < b → v ≤ r)

/-! ## Example positions -/

/-- A position with three empty cells, Black to move: row 0 is
`. W B B B B B B`, row 7 is `B B B B B . W .`, every other cell is Black. -/
def endgameBoard : Board := fun i j =>
  if i = 0 ∧ j = 0 then Blank
  else if i = 0 ∧ j = 1 then White
  else if i = 7 ∧ j = 5 then Blank
  else if i = 7 ∧ j = 6 then White
  else if i = 7 ∧ j = 7 then Blank
  else Black

/-- The example endgame position as a game, Black to move. -/
def endgameExample : Game :=
  { board := endgameBoard, current := Black, blackAI := false, whiteAI := true,
    moveCount := 61, difficulty := 5 }

/-- Hash constants for the examples: distinct `uint64` values. -/
def exampleZobrist : Zobrist :=
  { table := fun x y k => (x.val * 24 + y.val * 3 + k.val + 1) * 2654435761 % 18446744073709551616
    turn := 11400714819323198485 }

/-- The example endgame board with White to move: White has no legal move. -/
def passExample : Game := { endgameExample with current := White }

/-- A board whose cells all hold `Blank`, `Black` or `White`. -/
def ValidBoard (b : Board) : Prop := ∀ i j, b i j = Blank ∨ b i j = Black ∨ b i j = White

instance (b : Board) : Decidable (ValidBoard b) :=
  inferInstanceAs (Decidable (∀ i j, b i j = Blank ∨ b i j = Black ∨ b i j = White))

instance (g : Game) : Decidable (ValidTurn g) :=
  inferInstanceAs (Decidable (g.current = Black ∨ g.current = White))

/-- The index of a cell state in `zobristTable[x][y]`, for the three states. -/
def pieceIndex (piece : Int) : Fin 3 :=
  if piece = Black then 1 else if piece = White then 2 else 0

/-- The fingerprint of a position as a total function; it is the value
`computeZobristHash` returns on a valid board (`computeZobristHash_valid`). -/
def zobristHash (z : Zobrist) (g : Game) : Nat :=
  let h := allCells.foldl (fun (h : Nat) c => h ^^^ z.table c.1 c.2 (pieceIndex (g.board c.1 c.2))) 0
  if g.current = Black then h ^^^ z.turn else h

/-- The score of a finished search, `none` if it failed. -/
def scoreOf (r : Except Fault (Score × Game × SearchState)) : Option Score :=
  match r with
  | .ok x => some x.1
  | .error _ => none

/-! ## Reference semantics: unpruned depth-limited minimax -/

/-- Plain minimax to depth `d` over the same rules and evaluator as `minimax`:
no table, no move ordering, no pruning.  Depth 0 and a finished game are
scored by the evaluator, a forced pass hands the turn over and (as in the
code) uses up one ply. -/
def plainMinimax (evaluate : Game → Int → ℚ) : Nat → Game → Bool → Int → Except Fault Score
  | 0, game, _, aiPlayer => pure (Score.ofRat (evaluate game aiPlayer))
  | d + 1, game, maximizing, aiPlayer =>
    if IsGameOver game then pure (Score.ofRat (evaluate game aiPlayer))
    else
      let moves := ValidMoves game game.current
      if moves.length = 0 then plainMinimax evaluate d (SwitchTurn game) (!maximizing) aiPlayer
      else do
        let vals ← moves.mapM fun move => do
          let newGame ← SimulateMove game move true
          plainMinimax evaluate d newGame (!maximizing) aiPlayer
        pure (if maximizing then vals.foldl max ⊥ else vals.foldl min ⊤)

/-- A node of a search tree: the position, the remaining depth and the
`maximizing` flag with which it is searched. -/
abbrev Node := Game × Nat × Bool

/-- The nodes of the depth-`d` search tree below a position, the root included. -/
def treeNodes : Nat → Game → Bool → List Node
  | 0, game, maximizing => [(game, 0, maximizing)]
  | d + 1, game, maximizing =>
    (game, d + 1, maximizing) ::
      (if IsGameOver game then []
       else
        let moves := ValidMoves game game.current
        if moves.length = 0 then treeNodes d (SwitchTurn game) (!maximizing)
        else moves.flatMap fun move =>
          match SimulateMove game move true with
          | .ok newGame => treeNodes d newGame (!maximizing)
          | .error _ => [])

/-- The contract assumed of `sort.Slice`: it permutes the slice. -/
def SortPermutes (sortSlice : SortSlice) : Prop :=
  ∀ less l, (sortSlice less l).Perm l

/-- A search state as the searches keep it: the constants are `z`, there are
`difficulty` killer slots, and every stored score is finite. -/
def StateOK (z : Zobrist) (difficulty : Int) (st : SearchState) : Prop :=
  st.zobrist = z ∧ (st.killerMoves.length : Int) = difficulty ∧
    ∀ k e, st.transpositionTable k = some e → e.Eval.IsFinite

/-- A table entry that is right about a node: it was stored at the node's
depth, and its score is the node's plain minimax value (`Exact`), a lower
bound of it (`LowerBound`) or an upper bound (`UpperBound`). -/
def EntrySound (evaluate : Game → Int → ℚ) (aiPlayer : Int) (e : TTEntry) (n : Node) : Prop :=
  e.Depth = (n.2.1 : Int) ∧
  ∃ v, plainMinimax evaluate n.2.1 n.1 n.2.2 aiPlayer = .ok v ∧
    (e.Flag = Exact ∨ e.Flag = LowerBound ∨ e.Flag = UpperBound) ∧
    (e.Flag = Exact → e.Eval = v) ∧ (e.Flag = LowerBound → e.Eval ≤ v) ∧
    (e.Flag = UpperBound → v ≤ e.Eval)

/-- Every table entry is right about a node of `T` with the entry's key as
fingerprint. -/
def TableSound (evaluate : Game → Int → ℚ) (aiPlayer : Int) (T : List Node)
    (st : SearchState) : Prop :=
  ∀ k e, st.transpositionTable k = some e →
    ∃ n ∈ T, zobristHash st.zobrist n.1 = k ∧ EntrySound evaluate aiPlayer e n

/-- Nodes of `T` with the same fingerprint are the same node: the same
position at the same remaining depth. -/
def DistinctFingerprints (z : Zobrist) (T : List Node) : Prop :=
  ∀ n₁ ∈ T, ∀ n₂ ∈ T, zobristHash z n₁.1 = zobristHash z n₂.1 → n₁ = n₂

/-- The position `SimulateMove(move, true)` yields for a move on the board. -/
def childOf (g : Game) (m : Move) : Game :=
  SwitchTurn { g.Copy with board := movedBoard g.board m g.current,
                           moveCount := g.moveCount + 1 }

/-- The position `SimulateMove(move, false)` yields for a move on the board. -/
def placedOf (g : Game) (m : Move) : Game :=
  { g.Copy with board := movedBoard g.board m g.current, moveCount := g.moveCount + 1 }

/-- The contract of the recursive call a move loop of `minimax` makes on the
child position `ng`, whose plain minimax value is `v`: from a good state it
returns a finite score and a good state, and (under the side condition `C`)
from a sound table it returns a sound table and a score that brackets `v`. -/
def ChildContract (evaluate : Game → Int → ℚ) (aiPlayer : Int) (z : Zobrist) (difficulty : Int)
    (T : List Node) (C : Prop)
    (search : SearchState → Game → Score → Score → Except Fault (Score × SearchState))
    (ng : Game) (v : Score) : Prop :=
  ∀ st a b, StateOK z difficulty st →
    ∃ r st', search st ng a b = .ok (r, st') ∧ r.IsFinite ∧ StateOK z difficulty st' ∧
      (C → TableSound evaluate aiPlayer T st → a < b →
        TableSound evaluate aiPlayer T st' ∧ Brackets a b v r)

/-- What a sound table says about the entry found for a node with plain value
`v` at depth `d`. -/
def SoundAt (v : Score) (d : Int) (entry : Option TTEntry) : Prop :=
  ∀ e, entry = some e →
    e.Depth = d ∧ (e.Flag = Exact ∨ e.Flag = LowerBound ∨ e.Flag = UpperBound) ∧
    (e.Flag = Exact → e.Eval = v) ∧ (e.Flag = LowerBound → e.Eval ≤ v) ∧
    (e.Flag = UpperBound → v ≤ e.Eval)

/-- The plain minimax value of the child position a move leads to (`⊥` stands
for a failed computation, which `plainMinimax_ok` rules out). -/
def childValue (evaluate : Game → Int → ℚ) (aiPlayer : Int) (d : Nat) (g : Game) (mx : Bool)
    (m : Move) : Score :=
  match plainMinimax evaluate d (childOf g m) (!mx) aiPlayer with
  | .ok v => v
  | .error _ => ⊥

instance : DecidableEq Game := fun a b =>
  decidable_of_iff
    (a.board = b.board ∧ a.current = b.current ∧ a.blackAI = b.blackAI ∧
      a.whiteAI = b.whiteAI ∧ a.moveCount = b.moveCount ∧ a.difficulty = b.difficulty)
    (by cases a; cases b; simp)

instance (z : Zobrist) (T : List Node) : Decidable (DistinctFingerprints z T) :=
  inferInstanceAs (Decidable (∀ n₁ ∈ T, ∀ n₂ ∈ T,
    zobristHash z n₁.1 = zobristHash z n₂.1 → n₁ = n₂))

/-- A board given by its rows `board[0]`, ..., `board[7]`. -/
def boardOfRows (rows : List (List Int)) : Board :=
  fun i j => (rows.getD i []).getD j 0

/-- A position with four empty cells, White to move, in which forced passes
lead to one position at two different remaining depths. -/
def transpositionExample : Game :=
  { board := boardOfRows
      [[1, 2, 1, 1, 1, 1, 1, 1],
       [1, 1, 1, 1, 1, 2, 1, 1],
       [1, 1, 1, 1, 1, 1, 1, 1],
       [1, 1, 1, 1, 1, 1, 1, 1],
       [1, 1, 1, 1, 1, 1, 1, 1],
       [1, 1, 1, 1, 1, 1, 1, 0],
       [1, 1, 1, 1, 1, 1, 1, 1],
       [0, 1, 1, 2, 0, 2, 0, 1]]
    current := White, blackAI := false, whiteAI := false, moveCount := 60, difficulty := 7 }

/-- `best` is the first move in the order of `moves` whose score is the highest
of `scores` (the two lists are aligned). -/
def FirstMax (moves : List Move) (scores : List Score) (best : Move) : Prop :=
  ∃ (i : Nat) (s : Score), moves[i]? = some best ∧ scores[i]? = some s ∧
    (∀ t ∈ scores, t ≤ s) ∧ ∀ j : Nat, j < i → ∀ t, scores[j]? = some t → t < s

/-- The log entries of one complete root iteration at `depth`. -/
def iterationLog (depth : Int) (moves : List Move) (scores : List Score) : List RootSearch :=
  List.zipWith (fun m s => (⟨depth, m, s, true⟩ : RootSearch)) moves scores

/-- The root searches a call of `AIMove` made, as `(depth, X, Y, compared)`;
`none` if the call failed. -/
def rootTrace (r : Except Fault AIResult) : Option (List (Int × Int × Int × Bool)) :=
  match r with
  | .ok a => some (a.log.map fun e => (e.depth, e.move.X, e.move.Y, e.compared))
  | .error _ => none

/-- The starting position with the maximum depth set to `difficulty`. -/
def openingWith (difficulty : Int) : Game := { NewGame with difficulty := difficulty }

/-! ## Specification vocabulary for move ordering and cutoff bookkeeping -/

/-- The comparison `less` orders the distinct elements of `l`: it is asymmetric
and its complement is transitive (a strict weak ordering). -/
def WeakOrderOn (less : MoveEval → MoveEval → Bool) (l : List MoveEval) : Prop :=
  (∀ a ∈ l, ∀ b ∈ l, a ≠ b → less a b = true → less b a = false) ∧
  (∀ a ∈ l, ∀ b ∈ l, ∀ c ∈ l, a ≠ b → b ≠ c → a ≠ c →
    less a b = false → less b c = false → less a c = false)

/-- The contract of `sort.Slice` beyond permuting: on a slice of distinct
elements that `less` orders, no element of the result is less than an element
before it. -/
def SortSorts (sortSlice : SortSlice) : Prop :=
  ∀ less l, l.Nodup → WeakOrderOn less l →
    (sortSlice less l).Pairwise (fun a b => less b a = false)

/-- The key of the cell a move is played on. -/
def Move.key (m : Move) : MoveKey := ⟨m.X, m.Y⟩

/-- All cells of a move are on the board. -/
def Move.OnBoard (m : Move) : Prop :=
  (0 ≤ m.X ∧ m.X < 8 ∧ 0 ≤ m.Y ∧ m.Y < 8) ∧
  ∀ c ∈ m.Flips, 0 ≤ c.1 ∧ c.1 < 8 ∧ 0 ≤ c.2 ∧ c.2 < 8

/-- The search state `st'` is `st` after the cutoff bookkeeping of a node at
`depth` for `move`: the history weight of the move's cell is `depth * depth`
higher, the killer slot `depth % difficulty` holds the move's cell, and
nothing else differs. -/
def Recorded (st st' : SearchState) (move : Move) (depth difficulty : Int) : Prop :=
  st'.zobrist = st.zobrist ∧ st'.transpositionTable = st.transpositionTable ∧
  (∀ k, st'.historyTable k =
    if k = move.key then st.historyTable k + depth * depth else st.historyTable k) ∧
  0 ≤ depth.tmod difficulty ∧ depth.tmod difficulty < st.killerMoves.length ∧
  st'.killerMoves = st.killerMoves.set (depth.tmod difficulty).toNat move.key

/-- The number of cells of the board that hold `player`. -/
def discsOf (b : Board) (player : Int) : Nat :=
  allCells.countP fun c => decide (b c.1 c.2 = player)

/-! ## game.go, board.go: the pointer structure of `Game`

The searches above take a `Game` as a value.  In the Go sources a `*Game` holds
a `*Board`; `Copy` allocates both anew.  The heap below makes the allocation
explicit: a pointer is an index into the list of allocated objects. -/

/-- The Go struct `Game` as stored: the field `board` is a pointer. -/
structure GameObj where
  board : Nat
  current : Int
  blackAI : Bool
  whiteAI : Bool
  moveCount : Int
  difficulty : Int

/-- The allocated `Board` arrays and `Game` structs. -/
structure Heap where
  boards : List Board
  games : List GameObj

/-- The game value a `*Game` points to. -/
def Heap.load (h : Heap) (p : Nat) : Except Fault Game :=
  match h.games[p]? with
  | none => .error Fault.nilDereference
  | some o =>
    match h.boards[o.board]? with
    | none => .error Fault.nilDereference
    | some b =>
      .ok { board := b, current := o.current, blackAI := o.blackAI, whiteAI := o.whiteAI,
            moveCount := o.moveCount, difficulty := o.difficulty }

/-- `Board.Copy`: `newBoard := *b; return &newBoard`. -/
def Heap.BoardCopy (h : Heap) (b : Nat) : Except Fault (Heap × Nat) :=
  match h.boards[b]? with
  | none => .error Fault.nilDereference
  | some board => .ok ({ h with boards := h.boards ++ [board] }, h.boards.length)

/-- `Game.Copy` on the heap: a new struct with a copy of the board. -/
def Heap.GameCopy (h : Heap) (g : Nat) : Except Fault (Heap × Nat) :=
  match h.games[g]? with
  | none => .error Fault.nilDereference
  | some o => do
    let r ← h.BoardCopy o.board
    pure ({ r.1 with games := r.1.games ++
              [{ board := r.2, current := o.current, blackAI := false, whiteAI := false,
                 moveCount := o.moveCount, difficulty := o.difficulty }] },
          r.1.games.length)

/-- `MakeMove` on the heap: the cells are written through the board pointer of
the receiver, `moveCount` and `current` in the receiver's struct. -/
def Heap.MakeMove (h : Heap) (g : Nat) (move : Move) (switchTurn : Bool) : Except Fault Heap :=
  match h.games[g]? with
  | none => .error Fault.nilDereference
  | some o => do
    let v ← h.load g
    let v' ← Reversi.MakeMove v move switchTurn
    pure { boards := h.boards.set o.board v'.board,
           games := h.games.set g { o with current := v'.current, moveCount := v'.moveCount } }

/-- `SimulateMove` on the heap: the new heap and the pointer returned. -/
def Heap.SimulateMove (h : Heap) (g : Nat) (move : Move) (switchTurn : Bool) :
    Except Fault (Heap × Nat) := do
  let r ← h.GameCopy g
  let h' ← r.1.MakeMove r.2 move switchTurn
  pure (h', r.2)

/-! ## Specification vocabulary for the call tree and the reachable states -/

/-- The calls of `minimax` below a call on `(g₀, d₀)`: `SearchCall g₀ d₀ g d`
says that the call tree of `minimax(g₀, d₀, ..)` may contain a call of `minimax`
on `(g, d)`.  A recursive call is made only past the tests
`depth == game.difficulty` and `depth == 0 || game.IsGameOver()`, on the passed
position or on a simulated move, at `depth - 1`; the table lookup and the
cutoffs only remove calls. -/
inductive SearchCall (g₀ : Game) (d₀ : Int) : Game → Int → Prop
  | start : SearchCall g₀ d₀ g₀ d₀
  | pass (game : Game) (depth : Int) :
      SearchCall g₀ d₀ game depth → depth ≠ game.difficulty →
      ¬ (depth = 0 ∨ IsGameOver game = true) →
      (ValidMoves game game.current).length = 0 →
      SearchCall g₀ d₀ (SwitchTurn game) (depth - 1)
  | child (game : Game) (depth : Int) (move : Move) (newGame : Game) :
      SearchCall g₀ d₀ game depth → depth ≠ game.difficulty →
      ¬ (depth = 0 ∨ IsGameOver game = true) →
      move ∈ ValidMoves game game.current →
      SimulateMove game move true = .ok newGame →
      SearchCall g₀ d₀ newGame (depth - 1)

/-- `Reset`. -/
def Reset (g : Game) : Game := { g with board := NewBoard, current := Black, moveCount := 4 }

/-- The game states reachable from `NewGame()` or `Reset()` by `SwitchTurn`
and by `MakeMove` of a move taken from `ValidMoves(current)`. -/
inductive Reachable : Game → Prop
  | newGame : Reachable NewGame
  | reset (g : Game) : Reachable (Reset g)
  | switchTurn (g : Game) : Reachable g → Reachable (SwitchTurn g)
  | makeMove (g : Game) (move : Move) (switchTurn : Bool) (g' : Game) :
      Reachable g → move ∈ ValidMoves g g.current →
      MakeMove g move switchTurn = .ok g' → Reachable g'

/-! ## Further example inputs -/

/-- The fresh search state with one table entry under the fingerprint of the
starting position: a lower bound of 7 found at depth 3. -/
def lowerBoundExample : SearchState :=
  (freshState exampleZobrist 5).store (zobristHash exampleZobrist NewGame)
    { Depth := 3, Eval := Score.ofRat 7, Flag := LowerBound, BestMove := Move.zero }

/-- A child search that returns the score `s` and leaves the search state as it is. -/
def constantSearch (s : Score) :
    SearchState → Game → Score → Score → Except Fault (Score × SearchState) :=
  fun st _ _ _ => .ok (s, st)

/-- The opening move of Black on `(2,3)`, which flips `(3,3)`. -/
def openingMove : Move := ⟨2, 3, [(3, 3)]⟩

/-- A heap with one game, the starting position, at pointer 0. -/
def heapExample : Heap :=
  { boards := [NewBoard],
    games := [{ board := 0, current := Black, blackAI := false, whiteAI := false,
                moveCount := 4, difficulty := 5 }] }

/-- An endgame position with four empty cells, Black to move, in which Black
has three legal moves and only the second one wins. -/
def choiceExample : Game :=
  { board := boardOfRows
      [[2, 0, 2, 2, 2, 2, 2, 1],
       [2, 2, 2, 2, 1, 2, 1, 1],
       [2, 1, 2, 1, 2, 1, 2, 2],
       [2, 1, 1, 2, 1, 1, 2, 2],
       [2, 1, 2, 2, 2, 2, 2, 2],
       [2, 2, 1, 2, 2, 2, 2, 1],
       [2, 1, 1, 1, 1, 0, 2, 0],
       [2, 2, 2, 2, 2, 2, 2, 0]]
    current := Black, blackAI := false, whiteAI := false, moveCount := 60, difficulty := 5 }

/-- The exact game value, for `aiPlayer`, of the position after `move` (the
opponent to move, minimizing); `none` if the move cannot be made. -/
def moveValue (fuel : Nat) (g : Game) (aiPlayer : Int) (move : Move) : Option Score :=
  match SimulateMove g move true with
  | .ok newGame => (exactValue fuel newGame false aiPlayer).toOption
  | .error _ => none

/-! # Theorems -/

/-! ## Lemmas on `Flips` -/

theorem Opponent_ne (player : Int) : Opponent player ≠ player := by
  unfold Opponent Black White
  split <;> omega

theorem cell?_some_bounds {b : Board} {x y v : Int} (h : b.cell? x y = some v) :
    0 ≤ x ∧ x < 8 ∧ 0 ≤ y ∧ y < 8 := by
  unfold Board.cell? at h
  split at h
  · assumption
  · simp at h

theorem runCells_succ (nx ny dx dy : Int) (m : Nat) :
    runCells nx ny dx dy (m + 1) = (nx, ny) :: runCells (nx + dx) (ny + dy) dx dy m := by
  unfold runCells
  rw [List.range_succ_eq_map, List.map_cons, List.map_map]
  refine congrArg₂ _ (by simp) ?_
  apply List.map_congr_left
  intro j _
  simp only [Function.comp, Nat.succ_eq_add_one, Nat.cast_add, Nat.cast_one, Prod.mk.injEq]
  constructor <;> ring

theorem flipRun_spec (b : Board) (opp dx dy : Int) :
    ∀ (fuel : Nat) (nx ny : Int) (acc : List (Int × Int)),
      ∃ m : Nat, m ≤ fuel ∧
        flipRun b opp dx dy fuel nx ny acc
          = (acc ++ runCells nx ny dx dy m, nx + m * dx, ny + m * dy) ∧
        (∀ j : Nat, j < m → b.cell? (nx + j * dx) (ny + j * dy) = some opp) ∧
        (m < fuel → b.cell? (nx + m * dx) (ny + m * dy) ≠ some opp) := by
  intro fuel
  induction fuel with
  | zero =>
    intro nx ny acc
    exact ⟨0, le_refl _, by simp [flipRun, runCells], by simp, by simp⟩
  | succ fuel ih =>
    intro nx ny acc
    by_cases hc : b.cell? nx ny = some opp
    · obtain ⟨m, hm, heq, hall, hstop⟩ := ih (nx + dx) (ny + dy) (acc ++ [(nx, ny)])
      refine ⟨m + 1, by omega, ?_, ?_, ?_⟩
      · rw [flipRun, if_pos hc, heq, runCells_succ]
        simp only [List.append_assoc, List.singleton_append, Nat.cast_add, Nat.cast_one]
        congr 1
        ext <;> simp <;> ring
      · intro j hj
        cases j with
        | zero => simpa using hc
        | succ j =>
          have := hall j (by omega)
          have e1 : nx + ((j + 1 : Nat) : Int) * dx = nx + dx + j * dx := by push_cast; ring
          have e2 : ny + ((j + 1 : Nat) : Int) * dy = ny + dy + j * dy := by push_cast; ring
          rw [e1, e2]; exact this
      · intro hlt
        have := hstop (by omega)
        have e1 : nx + ((m + 1 : Nat) : Int) * dx = nx + dx + m * dx := by push_cast; ring
        have e2 : ny + ((m + 1 : Nat) : Int) * dy = ny + dy + m * dy := by push_cast; ring
        rw [e1, e2]; exact this
    · refine ⟨0, by omega, ?_, by simp, ?_⟩
      · rw [flipRun, if_neg hc]; simp [runCells]
      · intro _; simpa using hc

theorem directions_cases {d : Int × Int} (hd : d ∈ directions) :
    (d.1 = -1 ∨ d.1 = 0 ∨ d.1 = 1) ∧ (d.2 = -1 ∨ d.2 = 0 ∨ d.2 = 1) ∧ (d.1 ≠ 0 ∨ d.2 ≠ 0) := by
  simp only [directions, List.mem_cons, List.mem_singleton, List.not_mem_nil, or_false] at hd
  rcases hd with h | h | h | h | h | h | h | h <;> subst h <;> simp

/-- With `8` units of fuel the loop of `Flips` is never cut short: it stops
at a cell that is off the board or does not hold `opp`. -/
theorem flipRun_stops (b : Board) (opp : Int) {d : Int × Int} (hd : d ∈ directions)
    (nx ny : Int) :
    ∃ m : Nat, m ≤ 8 ∧
      flipRun b opp d.1 d.2 8 nx ny [] = (runCells nx ny d.1 d.2 m, nx + m * d.1, ny + m * d.2) ∧
      (∀ j : Nat, j < m → b.cell? (nx + j * d.1) (ny + j * d.2) = some opp) ∧
      b.cell? (nx + m * d.1) (ny + m * d.2) ≠ some opp := by
  obtain ⟨m, hm, heq, hall, hstop⟩ := flipRun_spec b opp d.1 d.2 8 nx ny []
  refine ⟨m, hm, by simpa using heq, hall, ?_⟩
  by_cases hlt : m < 8
  · exact hstop hlt
  · have hm8 : m = 8 := by omega
    subst hm8
    intro hcon
    have h0 := cell?_some_bounds (hall 0 (by omega))
    have h7 := cell?_some_bounds (hall 7 (by omega))
    have h8 := cell?_some_bounds hcon
    obtain ⟨h1, h2, h3⟩ := directions_cases hd
    simp only [Nat.cast_ofNat, Nat.cast_zero] at h0 h7 h8
    omega


theorem mem_runCells {nx ny dx dy : Int} {m : Nat} {c : Int × Int} :
    c ∈ runCells nx ny dx dy m ↔ ∃ j : Nat, j < m ∧ c = (nx + (j : Int) * dx, ny + (j : Int) * dy) := by
  unfold runCells
  simp only [List.mem_map, List.mem_range]
  constructor
  · rintro ⟨j, hj, rfl⟩; exact ⟨j, hj, rfl⟩
  · rintro ⟨j, hj, rfl⟩; exact ⟨j, hj, rfl⟩

theorem runCells_length (nx ny dx dy : Int) (m : Nat) : (runCells nx ny dx dy m).length = m := by
  simp [runCells]

/-- What one direction contributes: the maximal run of opponent cells of
length `m` next to `(x, y)`, kept when it is non-empty and closed by `player`. -/
theorem dirFlips_spec (g : Game) (x y player : Int) {d : Int × Int} (hd : d ∈ directions) :
    ∃ m : Nat,
      (∀ j : Nat, 1 ≤ j → j ≤ m →
        g.board.cell? (x + (j : Int) * d.1) (y + (j : Int) * d.2) = some (Opponent player)) ∧
      g.board.cell? (x + ((m + 1 : Nat) : Int) * d.1) (y + ((m + 1 : Nat) : Int) * d.2)
        ≠ some (Opponent player) ∧
      dirFlips g x y player d =
        if g.board.cell? (x + ((m + 1 : Nat) : Int) * d.1) (y + ((m + 1 : Nat) : Int) * d.2)
            = some player ∧ 0 < m
        then runCells (x + d.1) (y + d.2) d.1 d.2 m else [] := by
  obtain ⟨m, _, heq, hall, hstop⟩ :=
    flipRun_stops g.board (Opponent player) hd (x + d.1) (y + d.2)
  have e1 : ∀ j : Nat, x + ((j + 1 : Nat) : Int) * d.1 = x + d.1 + (j : Int) * d.1 := by
    intro j; push_cast; ring
  have e2 : ∀ j : Nat, y + ((j + 1 : Nat) : Int) * d.2 = y + d.2 + (j : Int) * d.2 := by
    intro j; push_cast; ring
  refine ⟨m, ?_, ?_, ?_⟩
  · intro j h1 h2
    obtain ⟨i, rfl⟩ : ∃ i, j = i + 1 := ⟨j - 1, by omega⟩
    rw [e1, e2]; exact hall i (by omega)
  · rw [e1, e2]; exact hstop
  · unfold dirFlips
    simp only [heq, runCells_length, gt_iff_lt]
    rw [e1, e2]

theorem mem_dirFlips (g : Game) (x y player : Int) {d : Int × Int} (hd : d ∈ directions)
    (c : Int × Int) :
    c ∈ dirFlips g x y player d ↔
      ∃ n k : Nat, 1 ≤ k ∧ k ≤ n ∧ c = (x + (k : Int) * d.1, y + (k : Int) * d.2) ∧
        (∀ j : Nat, 1 ≤ j → j ≤ n →
          g.board.cell? (x + (j : Int) * d.1) (y + (j : Int) * d.2) = some (Opponent player)) ∧
        g.board.cell? (x + ((n + 1 : Nat) : Int) * d.1) (y + ((n + 1 : Nat) : Int) * d.2)
          = some player := by
  obtain ⟨m, hall, hstop, heq⟩ := dirFlips_spec g x y player hd
  rw [heq]
  constructor
  · intro hc
    split at hc
    · rename_i hcond
      obtain ⟨j, hj, rfl⟩ := mem_runCells.mp hc
      refine ⟨m, j + 1, by omega, by omega, ?_, hall, hcond.1⟩
      ext <;> simp <;> ring
    · simp at hc
  · rintro ⟨n, k, hk1, hkn, rfl, hrun, hend⟩
    have hnm : n = m := by
      rcases Nat.lt_trichotomy n m with h | h | h
      · have := hall (n + 1) (by omega) (by omega)
        rw [hend] at this
        exact absurd (Option.some.inj this).symm (Opponent_ne player)
      · exact h
      · exact absurd (hrun (m + 1) (by omega) (by omega)) hstop
    subst hnm
    rw [if_pos ⟨hend, by omega⟩]
    refine mem_runCells.mpr ⟨k - 1, by omega, ?_⟩
    obtain ⟨i, rfl⟩ : ∃ i, k = i + 1 := ⟨k - 1, by omega⟩
    ext <;> simp <;> ring

theorem dirFlips_nodup (g : Game) (x y player : Int) {d : Int × Int} (hd : d ∈ directions) :
    (dirFlips g x y player d).Nodup := by
  obtain ⟨m, _, _, heq⟩ := dirFlips_spec g x y player hd
  rw [heq]
  split
  · unfold runCells
    refine List.Nodup.map_on ?_ (List.nodup_range m)
    intro i _ j _ h
    obtain ⟨_, _, h3⟩ := directions_cases hd
    simp only [Prod.mk.injEq, add_right_inj] at h
    rcases h3 with h3 | h3
    · exact_mod_cast mul_right_cancel₀ h3 h.1
    · exact_mod_cast mul_right_cancel₀ h3 h.2
  · exact List.nodup_nil

theorem dirFlips_disjoint (g : Game) (x y player : Int) {d e : Int × Int}
    (hd : d ∈ directions) (he : e ∈ directions) (hne : d ≠ e) :
    List.Disjoint (dirFlips g x y player d) (dirFlips g x y player e) := by
  intro c hc1 hc2
  obtain ⟨_, k, hk, _, rfl, _, _⟩ := (mem_dirFlips g x y player hd c).mp hc1
  obtain ⟨_, l, hl, _, hcl, _, _⟩ := (mem_dirFlips g x y player he _).mp hc2
  simp only [Prod.mk.injEq, add_right_inj] at hcl
  obtain ⟨a1, a2, _⟩ := directions_cases hd
  obtain ⟨b1, b2, _⟩ := directions_cases he
  apply hne
  have hk0 : (0 : Int) < k := by exact_mod_cast hk
  have hl0 : (0 : Int) < l := by exact_mod_cast hl
  obtain ⟨h1, h2⟩ := hcl
  ext
  · rcases a1 with a | a | a <;> rcases b1 with b | b | b <;> rw [a, b] at h1 ⊢ <;> omega
  · rcases a2 with a | a | a <;> rcases b2 with b | b | b <;> rw [a, b] at h2 ⊢ <;> omega

theorem mem_Flips (g : Game) (x y player : Int) (c : Int × Int) :
    c ∈ Flips g x y player ↔ Bracketed g.board x y player c := by
  unfold Flips Bracketed
  rw [List.mem_flatMap]
  constructor
  · rintro ⟨d, hd, hc⟩
    exact ⟨d, hd, (mem_dirFlips g x y player hd c).mp hc⟩
  · rintro ⟨d, hd, h⟩
    exact ⟨d, hd, (mem_dirFlips g x y player hd c).mpr h⟩

theorem Flips_cell (g : Game) (x y player : Int) {c : Int × Int}
    (hc : c ∈ Flips g x y player) : g.board.cell? c.1 c.2 = some (Opponent player) := by
  obtain ⟨d, _, n, k, hk1, hkn, rfl, hrun, _⟩ := (mem_Flips g x y player c).mp hc
  exact hrun k hk1 hkn

theorem Flips_nodup (g : Game) (x y player : Int) : (Flips g x y player).Nodup := by
  unfold Flips
  rw [List.nodup_flatMap]
  refine ⟨fun d hd => dirFlips_nodup g x y player hd, ?_⟩
  have hn : directions.Nodup := by decide
  exact List.Pairwise.imp_of_mem
    (fun {a b} ha hb hab => dirFlips_disjoint g x y player ha hb hab) hn

/-! ## Lemmas on `ValidMoves` -/

theorem mem_indices (x : Fin 8) : x ∈ indices := by
  revert x; decide

theorem indices_nodup : indices.Nodup := by decide

theorem cell?_coe (b : Board) (x y : Fin 8) : b.cell? (x : Int) (y : Int) = some (b x y) := by
  unfold Board.cell?
  have hx : (0 : Int) ≤ (x : Int) ∧ ((x : Nat) : Int) < 8 := ⟨by omega, by omega⟩
  have hy : (0 : Int) ≤ (y : Int) ∧ ((y : Nat) : Int) < 8 := ⟨by omega, by omega⟩
  rw [dif_pos ⟨hx.1, hx.2, hy.1, hy.2⟩]
  simp

theorem validMoveAt_eq_some {g : Game} {player : Int} {x y : Fin 8} {m : Move} :
    validMoveAt g player x y = some m ↔
      g.board x y = Blank ∧ Flips g x y player ≠ [] ∧ m = ⟨x, y, Flips g x y player⟩ := by
  unfold validMoveAt
  by_cases hb : g.board x y = Blank
  · by_cases hf : Flips g x y player = []
    · simp [hb, hf]
    · have : 0 < (Flips g x y player).length := List.length_pos.mpr hf
      simp [hb, hf, this, eq_comm]
  · simp [hb]

theorem mem_ValidMoves {g : Game} {player : Int} {m : Move} :
    m ∈ ValidMoves g player ↔
      ∃ x y : Fin 8, g.board x y = Blank ∧ Flips g x y player ≠ [] ∧
        m = ⟨x, y, Flips g x y player⟩ := by
  unfold ValidMoves
  simp only [List.mem_flatMap, List.mem_filterMap, validMoveAt_eq_some]
  constructor
  · rintro ⟨x, _, y, _, h⟩; exact ⟨x, y, h⟩
  · rintro ⟨x, y, h⟩; exact ⟨x, mem_indices x, y, mem_indices y, h⟩

theorem ValidMoves_nodup (g : Game) (player : Int) : (ValidMoves g player).Nodup := by
  unfold ValidMoves
  rw [List.nodup_flatMap]
  constructor
  · intro x _
    refine List.Nodup.filterMap ?_ indices_nodup
    intro y y' m h1 h2
    have e1 := (validMoveAt_eq_some.mp (Option.mem_def.mp h1)).2.2
    have e2 := (validMoveAt_eq_some.mp (Option.mem_def.mp h2)).2.2
    rw [e1] at e2
    have : ((y : Nat) : Int) = ((y' : Nat) : Int) := (Move.mk.inj e2).2.1
    exact Fin.ext (by exact_mod_cast this)
  · refine List.Pairwise.imp_of_mem ?_ indices_nodup
    intro x x' _ _ hne m h1 h2
    simp only [List.mem_filterMap, validMoveAt_eq_some] at h1 h2
    obtain ⟨y, _, _, _, e1⟩ := h1
    obtain ⟨y', _, _, _, e2⟩ := h2
    rw [e1] at e2
    have : ((x : Nat) : Int) = ((x' : Nat) : Int) := (Move.mk.inj e2).1
    exact hne (Fin.ext (by exact_mod_cast this))

theorem ValidMoves_target {g : Game} {player : Int} {m : Move} (hm : m ∈ ValidMoves g player) :
    g.board.cell? m.X m.Y = some Blank ∧ m.Flips ≠ [] ∧ m.Flips = Flips g m.X m.Y player := by
  obtain ⟨x, y, hb, hf, rfl⟩ := mem_ValidMoves.mp hm
  exact ⟨by rw [cell?_coe, hb], hf, rfl⟩

theorem ValidMoves_count (g : Game) (player : Int) (x y : Fin 8) (hb : g.board x y = Blank)
    (hf : Flips g x y player ≠ []) :
    (ValidMoves g player).countP
      (fun m => decide (m.X = ((x : Nat) : Int) ∧ m.Y = ((y : Nat) : Int))) = 1 := by
  have hmem : (⟨x, y, Flips g x y player⟩ : Move) ∈ ValidMoves g player :=
    mem_ValidMoves.mpr ⟨x, y, hb, hf, rfl⟩
  rw [← List.count_eq_one_of_mem (ValidMoves_nodup g player) hmem, List.count]
  apply List.countP_congr
  intro m hm
  obtain ⟨x', y', _, _, rfl⟩ := mem_ValidMoves.mp hm
  simp only [decide_eq_true_eq, beq_iff_eq, Move.mk.injEq]
  constructor
  · rintro ⟨h1, h2⟩
    have hx : x' = x := Fin.ext (by exact_mod_cast h1)
    have hy : y' = y := Fin.ext (by exact_mod_cast h2)
    subst hx; subst hy
    exact ⟨rfl, rfl, rfl⟩
  · rintro ⟨h1, h2, _⟩; exact ⟨h1, h2⟩

/-! ## Lemmas on `MakeMove` and `SimulateMove` -/

theorem set?_coe (b : Board) (x y : Fin 8) (v : Int) :
    b.set? (x : Int) (y : Int) v = .ok (b.set x y v) := by
  unfold Board.set?
  have hx : (0 : Int) ≤ (x : Int) ∧ ((x : Nat) : Int) < 8 := ⟨by omega, by omega⟩
  have hy : (0 : Int) ≤ (y : Int) ∧ ((y : Nat) : Int) < 8 := ⟨by omega, by omega⟩
  rw [dif_pos ⟨hx.1, hx.2, hy.1, hy.2⟩]
  simp

/-- A cell on the board, as a pair of array indices. -/
theorem exists_fin_of_bounds {x y : Int} (h : 0 ≤ x ∧ x < 8 ∧ 0 ≤ y ∧ y < 8) :
    ∃ i j : Fin 8, x = ((i : Nat) : Int) ∧ y = ((j : Nat) : Int) :=
  ⟨⟨x.toNat, by omega⟩, ⟨y.toNat, by omega⟩, by simp; omega, by simp; omega⟩

theorem foldlM_set?_ok (v : Int) :
    ∀ (cells : List (Int × Int)) (b : Board),
      (∀ c ∈ cells, 0 ≤ c.1 ∧ c.1 < 8 ∧ 0 ≤ c.2 ∧ c.2 < 8) →
      ∃ b' : Board, cells.foldlM (fun b c => b.set? c.1 c.2 v) b = .ok b' ∧
        ∀ i j : Fin 8, b' i j =
          if (((i : Nat) : Int), ((j : Nat) : Int)) ∈ cells then v else b i j := by
  intro cells
  induction cells with
  | nil => intro b _; exact ⟨b, rfl, by simp⟩
  | cons c rest ih =>
    intro b hb
    obtain ⟨i0, j0, hi0, hj0⟩ := exists_fin_of_bounds (hb c (List.mem_cons_self _ _))
    obtain ⟨b', hfold, hb'⟩ := ih (b.set i0 j0 v) (fun c' hc' => hb c' (List.mem_cons_of_mem _ hc'))
    refine ⟨b', ?_, ?_⟩
    · rw [List.foldlM_cons, hi0, hj0, set?_coe]
      exact hfold
    · intro i j
      rw [hb' i j]
      by_cases hmem : (((i : Nat) : Int), ((j : Nat) : Int)) ∈ rest
      · simp [hmem]
      · have hc : c = (((i0 : Nat) : Int), ((j0 : Nat) : Int)) := Prod.ext hi0 hj0
        by_cases hij : i = i0 ∧ j = j0
        · simp [hmem, Board.set, hij, hc]
        · have : ¬ ((((i : Nat) : Int), ((j : Nat) : Int)) = c) := by
            rw [hc]
            intro h
            apply hij
            have h1 := (Prod.mk.inj h).1
            have h2 := (Prod.mk.inj h).2
            exact ⟨Fin.ext (by exact_mod_cast h1), Fin.ext (by exact_mod_cast h2)⟩
          simp [hmem, Board.set, hij, this]

/-- A move is on the board when its target and all its flips are. -/
theorem MakeMove_eq (g : Game) (m : Move) (sw : Bool)
    (hxy : 0 ≤ m.X ∧ m.X < 8 ∧ 0 ≤ m.Y ∧ m.Y < 8)
    (hfl : ∀ c ∈ m.Flips, 0 ≤ c.1 ∧ c.1 < 8 ∧ 0 ≤ c.2 ∧ c.2 < 8) :
    MakeMove g m sw = .ok
      (if sw then SwitchTurn { g with board := movedBoard g.board m g.current,
                                      moveCount := g.moveCount + 1 }
       else { g with board := movedBoard g.board m g.current,
                     moveCount := g.moveCount + 1 }) := by
  obtain ⟨i0, j0, hi0, hj0⟩ := exists_fin_of_bounds hxy
  obtain ⟨b', hfold, hb'⟩ := foldlM_set?_ok g.current m.Flips (g.board.set i0 j0 g.current) hfl
  have hboard : b' = movedBoard g.board m g.current := by
    funext i j
    rw [hb' i j]
    unfold movedBoard Board.set
    by_cases hmem : (((i : Nat) : Int), ((j : Nat) : Int)) ∈ m.Flips
    · simp [hmem]
    · by_cases hij : i = i0 ∧ j = j0
      · simp [hmem, hij, hi0, hj0]
      · have : ¬ ((((i : Nat) : Int), ((j : Nat) : Int)) = (m.X, m.Y)) := by
          rw [hi0, hj0]
          intro h
          apply hij
          have h1 := (Prod.mk.inj h).1
          have h2 := (Prod.mk.inj h).2
          exact ⟨Fin.ext (by exact_mod_cast h1), Fin.ext (by exact_mod_cast h2)⟩
        simp [hmem, hij, this]
  unfold MakeMove
  rw [hi0, hj0, set?_coe]
  simp only [Except.bind, bind, hfold, pure, Except.pure, hboard]

theorem ValidMoves_bounds {g : Game} {player : Int} {m : Move} (hm : m ∈ ValidMoves g player) :
    (0 ≤ m.X ∧ m.X < 8 ∧ 0 ≤ m.Y ∧ m.Y < 8) ∧
    (∀ c ∈ m.Flips, 0 ≤ c.1 ∧ c.1 < 8 ∧ 0 ≤ c.2 ∧ c.2 < 8) := by
  obtain ⟨h1, _, h3⟩ := ValidMoves_target hm
  refine ⟨cell?_some_bounds h1, ?_⟩
  intro c hc
  rw [h3] at hc
  exact cell?_some_bounds (Flips_cell g m.X m.Y player hc)

/-! ## Positions: turn, legal moves and the number of empty cells -/

theorem Flips_congr {g g' : Game} (h : g.board = g'.board) (x y player : Int) :
    Flips g x y player = Flips g' x y player := by
  unfold Flips dirFlips
  rw [h]

theorem ValidMoves_congr {g g' : Game} (h : g.board = g'.board) (player : Int) :
    ValidMoves g player = ValidMoves g' player := by
  unfold ValidMoves validMoveAt
  simp only [Flips_congr h, h]

theorem IsGameOver_congr {g g' : Game} (h : g.board = g'.board) :
    IsGameOver g = IsGameOver g' := by
  unfold IsGameOver
  rw [ValidMoves_congr h, ValidMoves_congr h]

theorem SwitchTurn_board (g : Game) : (SwitchTurn g).board = g.board := by
  unfold SwitchTurn; split <;> rfl

theorem SwitchTurn_moveCount (g : Game) : (SwitchTurn g).moveCount = g.moveCount := by
  unfold SwitchTurn; split <;> rfl

theorem SwitchTurn_difficulty (g : Game) : (SwitchTurn g).difficulty = g.difficulty := by
  unfold SwitchTurn; split <;> rfl

theorem SwitchTurn_current (g : Game) :
    (SwitchTurn g).current = if g.current = Black then White else Black := by
  unfold SwitchTurn; split <;> rfl

theorem SwitchTurn_validTurn (g : Game) : ValidTurn (SwitchTurn g) := by
  unfold ValidTurn
  rw [SwitchTurn_current]
  split
  · exact Or.inr rfl
  · exact Or.inl rfl

theorem SwitchTurn_current_eq (g : Game) : (SwitchTurn g).current = Opponent g.current := by
  rw [SwitchTurn_current]; rfl

theorem SwitchTurn_SwitchTurn {g : Game} (h : ValidTurn g) : SwitchTurn (SwitchTurn g) = g := by
  obtain ⟨b, c, ba, wa, mc, d⟩ := g
  rcases h with h | h <;> simp only at h <;> subst h <;> simp [SwitchTurn, Black, White]

/-- When the game is not over and the side to move has no move, the other side has one. -/
theorem pass_has_move {g : Game} (hv : ValidTurn g) (hover : IsGameOver g = false)
    (hnone : ValidMoves g g.current = []) :
    ValidMoves (SwitchTurn g) (SwitchTurn g).current ≠ [] := by
  rw [ValidMoves_congr (SwitchTurn_board g), SwitchTurn_current]
  unfold IsGameOver at hover
  intro hcon
  rcases hv with h | h
  · rw [h] at hnone
    rw [if_pos h] at hcon
    simp [hnone, hcon] at hover
  · rw [h] at hnone
    rw [if_neg (by rw [h]; decide)] at hcon
    simp [hnone, hcon] at hover

theorem SimulateMove_valid {g : Game} {player : Int} {m : Move} (hm : m ∈ ValidMoves g player)
    (sw : Bool) :
    SimulateMove g m sw = .ok
      (if sw then SwitchTurn { g.Copy with board := movedBoard g.board m g.current,
                                           moveCount := g.moveCount + 1 }
       else { g.Copy with board := movedBoard g.board m g.current,
                          moveCount := g.moveCount + 1 }) := by
  obtain ⟨h1, h2⟩ := ValidMoves_bounds hm
  unfold SimulateMove
  rw [MakeMove_eq g.Copy m sw h1 h2]
  rfl

theorem emptyCount_movedBoard_lt {g : Game} {player : Int} {m : Move}
    (hm : m ∈ ValidMoves g player) {v : Int} (hv : v ≠ Blank) :
    emptyCount (movedBoard g.board m v) < emptyCount g.board := by
  unfold emptyCount
  apply Finset.card_lt_card
  obtain ⟨x, y, hb, _, rfl⟩ := mem_ValidMoves.mp hm
  rw [Finset.ssubset_iff_of_subset]
  · refine ⟨(x, y), ?_, ?_⟩
    · simp [hb]
    · simp [movedBoard, hv]
  · intro c hc
    simp only [Finset.mem_filter, Finset.mem_univ, true_and] at hc ⊢
    unfold movedBoard at hc
    split at hc
    · exact absurd hc hv
    · exact hc

/-! ## Alpha-beta pruning in the exact search -/

theorem foldl_max_eq (vs : List Score) (a : Score) :
    vs.foldl max a = max a (vs.foldl max ⊥) := by
  induction vs generalizing a with
  | nil => simp
  | cons v rest ih =>
    rw [List.foldl_cons, List.foldl_cons, ih (max a v), ih (max ⊥ v), bot_sup_eq]
    exact max_assoc a v _

theorem foldl_min_eq (vs : List Score) (a : Score) :
    vs.foldl min a = min a (vs.foldl min ⊤) := by
  induction vs generalizing a with
  | nil => simp
  | cons v rest ih =>
    rw [List.foldl_cons, List.foldl_cons, ih (min a v), ih (min ⊤ v), top_inf_eq]
    exact min_assoc a v _

theorem foldl_max_cons (v : Score) (vs : List Score) :
    (v :: vs).foldl max ⊥ = max v (vs.foldl max ⊥) := by
  rw [List.foldl_cons, foldl_max_eq, bot_sup_eq]

theorem foldl_min_cons (v : Score) (vs : List Score) :
    (v :: vs).foldl min ⊤ = min v (vs.foldl min ⊤) := by
  rw [List.foldl_cons, foldl_min_eq, top_inf_eq]

theorem endgameMaxLoop_sound (search : Game → Score → Score → Except Fault Score) (game : Game)
    (beta : Score) :
    ∀ (moves : List Move) (vs : List Score),
      List.Forall₂ (fun m v => ∃ ng, SimulateMove game m true = .ok ng ∧
        ∀ a, a < beta → ∃ r, search ng a beta = .ok r ∧ r.IsFinite ∧ Brackets a beta v r)
        moves vs →
      ∀ value alpha, value ≤ alpha → alpha < beta → value < ⊤ →
        ∃ r, endgameMaxLoop search game beta moves value alpha = .ok r ∧
          value ≤ r ∧ r < ⊤ ∧ (moves ≠ [] → ⊥ < r) ∧
          Brackets alpha beta (vs.foldl max ⊥) r := by
  intro moves vs hall
  induction hall with
  | nil =>
    intro value alpha hva _ hvt
    refine ⟨value, rfl, le_refl _, hvt, fun h => absurd rfl h, ?_, ?_⟩
    · intro h; exact absurd (lt_of_lt_of_le h hva) (lt_irrefl _)
    · intro _; simp
  | @cons m v1 rest vrest hm _ ih =>
    intro value alpha hva hab hvt
    obtain ⟨ng, hsim, hsearch⟩ := hm
    obtain ⟨e, he, hefin, hlow, hhigh⟩ := hsearch alpha hab
    rw [foldl_max_cons]
    by_cases hcut : max alpha (max value e) ≥ beta
    · refine ⟨max value e, ?_, le_max_left _ _, max_lt hvt hefin.2,
        fun _ => lt_of_lt_of_le hefin.1 (le_max_right _ _), ?_, ?_⟩
      · simp only [endgameMaxLoop, hsim, he, bind, Except.bind, pure, Except.pure]
        rw [if_pos hcut]
      · intro h
        have hae : alpha < e := by
          rcases lt_max_iff.mp h with h' | h'
          · exact absurd (lt_of_lt_of_le h' hva) (lt_irrefl _)
          · exact h'
        have : max value e = e := max_eq_right (le_trans hva (le_of_lt hae))
        rw [this]
        exact le_trans (hlow hae) (le_max_left _ _)
      · intro h
        exfalso
        have h1 : max alpha (max value e) < beta := max_lt hab h
        exact absurd hcut (not_le.mpr h1)
    · have hab' : max alpha (max value e) < beta := not_le.mp hcut
      obtain ⟨r, hr, hvr, hrt, _, hlow', hhigh'⟩ :=
        ih (max value e) (max alpha (max value e)) (le_max_right _ _) hab' (max_lt hvt hefin.2)
      refine ⟨r, ?_, le_trans (le_max_left _ _) hvr, hrt,
        fun _ => lt_of_lt_of_le hefin.1 (le_trans (le_max_right _ _) hvr), ?_, ?_⟩
      · simp only [endgameMaxLoop, hsim, he, bind, Except.bind, pure, Except.pure]
        rw [if_neg hcut]
        exact hr
      · intro h
        by_cases h2 : max alpha (max value e) < r
        · exact le_trans (hlow' h2) (le_max_right _ _)
        · have hr_le : r ≤ max alpha (max value e) := not_lt.mp h2
          have hmax : max alpha (max value e) = max alpha e := by
            rw [← max_assoc, max_eq_left hva]
          rw [hmax] at hr_le
          have hae : alpha < e := by
            by_contra hcon
            rw [max_eq_left (not_lt.mp hcon)] at hr_le
            exact absurd (lt_of_lt_of_le h hr_le) (lt_irrefl _)
          rw [max_eq_right (le_of_lt hae)] at hr_le
          exact le_trans hr_le (le_trans (hlow hae) (le_max_left _ _))
      · intro h
        have he_le : e ≤ r := le_trans (le_max_right _ _) hvr
        exact max_le (le_trans (hhigh (lt_of_le_of_lt he_le h)) he_le) (hhigh' h)

theorem endgameMinLoop_sound (search : Game → Score → Score → Except Fault Score) (game : Game)
    (alpha : Score) :
    ∀ (moves : List Move) (vs : List Score),
      List.Forall₂ (fun m v => ∃ ng, SimulateMove game m true = .ok ng ∧
        ∀ b, alpha < b → ∃ r, search ng alpha b = .ok r ∧ r.IsFinite ∧ Brackets alpha b v r)
        moves vs →
      ∀ value beta, beta ≤ value → alpha < beta → ⊥ < value →
        ∃ r, endgameMinLoop search game alpha moves value beta = .ok r ∧
          r ≤ value ∧ ⊥ < r ∧ (moves ≠ [] → r < ⊤) ∧
          Brackets alpha beta (vs.foldl min ⊤) r := by
  intro moves vs hall
  induction hall with
  | nil =>
    intro value beta hbv _ hvb
    refine ⟨value, rfl, le_refl _, hvb, fun h => absurd rfl h, ?_, ?_⟩
    · intro _; simp
    · intro h; exact absurd (lt_of_le_of_lt hbv h) (lt_irrefl _)
  | @cons m v1 rest vrest hm _ ih =>
    intro value beta hbv hab hvb
    obtain ⟨ng, hsim, hsearch⟩ := hm
    obtain ⟨e, he, hefin, hlow, hhigh⟩ := hsearch beta hab
    rw [foldl_min_cons]
    by_cases hcut : alpha ≥ min beta (min value e)
    · refine ⟨min value e, ?_, min_le_left _ _, lt_min hvb hefin.1,
        fun _ => lt_of_le_of_lt (min_le_right _ _) hefin.2, ?_, ?_⟩
      · simp only [endgameMinLoop, hsim, he, bind, Except.bind, pure, Except.pure]
        rw [if_pos hcut]
      · intro h
        exfalso
        have h1 : alpha < min beta (min value e) := lt_min hab h
        exact absurd hcut (not_le.mpr h1)
      · intro h
        have heb : e < beta := by
          rcases min_lt_iff.mp h with h' | h'
          · exact absurd (lt_of_le_of_lt hbv h') (lt_irrefl _)
          · exact h'
        have : min value e = e := min_eq_right (le_trans (le_of_lt heb) hbv)
        rw [this]
        exact le_trans (min_le_left _ _) (hhigh heb)
    · have hab' : alpha < min beta (min value e) := not_le.mp hcut
      obtain ⟨r, hr, hrv, hrb, _, hlow', hhigh'⟩ :=
        ih (min value e) (min beta (min value e)) (min_le_right _ _) hab' (lt_min hvb hefin.1)
      refine ⟨r, ?_, le_trans hrv (min_le_left _ _), hrb,
        fun _ => lt_of_le_of_lt (le_trans hrv (min_le_right _ _)) hefin.2, ?_, ?_⟩
      · simp only [endgameMinLoop, hsim, he, bind, Except.bind, pure, Except.pure]
        rw [if_neg hcut]
        exact hr
      · intro h
        have hr_le : r ≤ e := le_trans hrv (min_le_right _ _)
        exact le_min (le_trans hr_le (hlow (lt_of_lt_of_le h hr_le))) (hlow' h)
      · intro h
        by_cases h2 : r < min beta (min value e)
        · exact le_trans (min_le_right _ _) (hhigh' h2)
        · have hr_ge : min beta (min value e) ≤ r := not_lt.mp h2
          have hmin : min beta (min value e) = min beta e := by
            rw [← min_assoc, min_eq_left hbv]
          rw [hmin] at hr_ge
          have heb : e < beta := by
            by_contra hcon
            rw [min_eq_left (not_lt.mp hcon)] at hr_ge
            exact absurd (lt_of_le_of_lt hr_ge h) (lt_irrefl _)
          rw [min_eq_right (le_of_lt heb)] at hr_ge
          exact le_trans (le_trans (min_le_left _ _) (hhigh heb)) hr_ge

theorem Score.ofRat_isFinite (q : ℚ) : (Score.ofRat q).IsFinite := by
  unfold Score.IsFinite Score.ofRat
  exact ⟨WithBot.bot_lt_coe _, WithBot.coe_lt_coe.mpr (WithTop.coe_lt_top q)⟩

theorem EvaluateEndgame_isFinite (g : Game) (aiPlayer : Int) :
    (EvaluateEndgame g aiPlayer).IsFinite := by
  unfold EvaluateEndgame
  simp only
  split
  · exact Score.ofRat_isFinite _
  · split <;> exact Score.ofRat_isFinite _

theorem forall₂_of_forall_mem {α β : Type} {R : α → β → Prop} :
    ∀ l : List α, (∀ a ∈ l, ∃ b, R a b) → ∃ bs, List.Forall₂ R l bs
  | [], _ => ⟨[], List.Forall₂.nil⟩
  | a :: l, h => by
    obtain ⟨b, hb⟩ := h a (List.mem_cons_self _ _)
    obtain ⟨bs, hbs⟩ := forall₂_of_forall_mem l (fun a' ha' => h a' (List.mem_cons_of_mem _ ha'))
    exact ⟨b :: bs, List.Forall₂.cons hb hbs⟩

theorem forall₂_mem_right {α β : Type} {R : α → β → Prop} {l : List α} {bs : List β}
    (h : List.Forall₂ R l bs) : ∀ b ∈ bs, ∃ a ∈ l, R a b := by
  induction h with
  | nil => intro b hb; simp at hb
  | cons hab _ ih =>
    intro b hb
    rcases List.mem_cons.mp hb with rfl | hb
    · exact ⟨_, List.mem_cons_self _ _, hab⟩
    · obtain ⟨a, ha, hr⟩ := ih b hb
      exact ⟨a, List.mem_cons_of_mem _ ha, hr⟩

theorem mapM_ok_of_forall₂ {α β : Type} (f : α → Except Fault β) :
    ∀ {l : List α} {bs : List β}, List.Forall₂ (fun a b => f a = .ok b) l bs →
      l.mapM f = .ok bs := by
  intro l bs h
  induction h with
  | nil => rfl
  | cons hab _ ih =>
    rw [List.mapM_cons, hab, ih]
    rfl

theorem foldl_max_isFinite {vs : List Score} (hne : vs ≠ []) (hfin : ∀ v ∈ vs, v.IsFinite) :
    (vs.foldl max ⊥).IsFinite := by
  induction vs with
  | nil => exact absurd rfl hne
  | cons v rest ih =>
    rw [foldl_max_cons]
    have hv := hfin v (List.mem_cons_self _ _)
    by_cases hr : rest = []
    · subst hr; simpa using hv
    · have := ih hr (fun w hw => hfin w (List.mem_cons_of_mem _ hw))
      exact ⟨lt_of_lt_of_le hv.1 (le_max_left _ _), max_lt hv.2 this.2⟩

theorem foldl_min_isFinite {vs : List Score} (hne : vs ≠ []) (hfin : ∀ v ∈ vs, v.IsFinite) :
    (vs.foldl min ⊤).IsFinite := by
  induction vs with
  | nil => exact absurd rfl hne
  | cons v rest ih =>
    rw [foldl_min_cons]
    have hv := hfin v (List.mem_cons_self _ _)
    by_cases hr : rest = []
    · subst hr; simpa using hv
    · have := ih hr (fun w hw => hfin w (List.mem_cons_of_mem _ hw))
      exact ⟨lt_min hv.1 this.1, lt_of_le_of_lt (min_le_left _ _) hv.2⟩

theorem ValidTurn_ne_blank {g : Game} (h : ValidTurn g) : g.current ≠ Blank := by
  rcases h with h | h <;> rw [h] <;> decide

/-- Soundness of the pruned exact search: with the fuel of `endgameFuel` both
the pruned search and the unpruned reference return, the game handed in is
returned unchanged, and the pruned result brackets the exact value. -/
theorem endgame_sound :
    ∀ (fuel : Nat) (g : Game) (maximizing : Bool) (aiPlayer : Int),
      ValidTurn g →
      2 * emptyCount g.board + (if ValidMoves g g.current = [] then 2 else 1) ≤ fuel →
      ∃ v, exactValue fuel g maximizing aiPlayer = .ok v ∧ v.IsFinite ∧
        ∀ alpha beta, alpha < beta →
          ∃ r, minimaxEndgame fuel g alpha beta maximizing aiPlayer = .ok (r, g) ∧
            r.IsFinite ∧ Brackets alpha beta v r := by
  intro fuel
  induction fuel with
  | zero => intro g mx ai _ hf; exfalso; split at hf <;> omega
  | succ fuel ih =>
    intro g mx ai hv hf
    by_cases hover : IsGameOver g = true
    · refine ⟨EvaluateEndgame g ai, ?_, EvaluateEndgame_isFinite g ai, ?_⟩
      · simp only [exactValue, hover, if_true]; rfl
      · intro alpha beta _
        refine ⟨EvaluateEndgame g ai, ?_, EvaluateEndgame_isFinite g ai,
          fun _ => le_refl _, fun _ => le_refl _⟩
        simp only [minimaxEndgame, hover, if_true]; rfl
    · have hover' : IsGameOver g = false := by simpa using hover
      by_cases hnone : ValidMoves g g.current = []
      · -- forced pass
        have hmv := pass_has_move hv hover' hnone
        rw [if_pos hnone] at hf
        have hf' : 2 * emptyCount (SwitchTurn g).board +
            (if ValidMoves (SwitchTurn g) (SwitchTurn g).current = [] then 2 else 1) ≤ fuel := by
          rw [if_neg hmv, SwitchTurn_board]; omega
        obtain ⟨v, hex, hfin, hab⟩ := ih (SwitchTurn g) (!mx) ai (SwitchTurn_validTurn g) hf'
        refine ⟨v, ?_, hfin, ?_⟩
        · simp only [exactValue, hover', hnone, List.length_nil, if_true]
          exact hex
        · intro alpha beta hlt
          obtain ⟨r, hr, hrfin, hbr⟩ := hab alpha beta hlt
          refine ⟨r, ?_, hrfin, hbr⟩
          simp only [minimaxEndgame, hover', hnone, List.length_nil, if_true, hr, bind,
            Except.bind, pure, Except.pure, SwitchTurn_SwitchTurn hv]
          rfl
      · -- the side to move has moves
        rw [if_neg hnone] at hf
        have hlen : ¬ ((ValidMoves g g.current).length = 0) := by
          rw [List.length_eq_zero]; exact hnone
        have hchild : ∀ m ∈ ValidMoves g g.current, ∃ v, ∃ ng,
            SimulateMove g m true = .ok ng ∧ exactValue fuel ng (!mx) ai = .ok v ∧
            v.IsFinite ∧ ∀ a b, a < b →
              ∃ r, minimaxEndgame fuel ng a b (!mx) ai = .ok (r, ng) ∧ r.IsFinite ∧
                Brackets a b v r := by
          intro m hm
          have hsim := SimulateMove_valid hm true
          rw [if_pos rfl] at hsim
          have hlt := emptyCount_movedBoard_lt hm (ValidTurn_ne_blank hv)
          have hf' : 2 * emptyCount (SwitchTurn { g.Copy with
                board := movedBoard g.board m g.current,
                moveCount := g.moveCount + 1 }).board +
              (if ValidMoves (SwitchTurn { g.Copy with
                  board := movedBoard g.board m g.current,
                  moveCount := g.moveCount + 1 })
                (SwitchTurn { g.Copy with
                  board := movedBoard g.board m g.current,
                  moveCount := g.moveCount + 1 }).current = [] then 2 else 1) ≤ fuel := by
            rw [SwitchTurn_board]
            split <;> simp only <;> omega
          obtain ⟨v, h1, h2, h3⟩ := ih _ (!mx) ai (SwitchTurn_validTurn _) hf'
          exact ⟨v, _, hsim, h1, h2, h3⟩
        obtain ⟨vs, hvs⟩ := forall₂_of_forall_mem _ hchild
        have hvsne : vs ≠ [] := by
          intro h; subst h
          exact hnone (List.forall₂_nil_right_iff.mp hvs)
        have hvsfin : ∀ v ∈ vs, v.IsFinite := by
          intro v hvmem
          obtain ⟨m, _, _, _, _, hfin, _⟩ := forall₂_mem_right hvs v hvmem
          exact hfin
        have hmap : (ValidMoves g g.current).mapM (fun move => do
            let newGame ← SimulateMove g move true
            exactValue fuel newGame (!mx) ai) = .ok vs := by
          apply mapM_ok_of_forall₂
          refine hvs.imp ?_
          rintro m v ⟨ng, hsim, hex, _⟩
          simp only [hsim, bind, Except.bind, hex]
        cases mx with
        | true =>
          refine ⟨vs.foldl max ⊥, ?_, foldl_max_isFinite hvsne hvsfin, ?_⟩
          · simp only [exactValue, hover', hlen, if_false, Bool.false_eq_true]
            rw [hmap]; rfl
          · intro alpha beta hlt
            have hloop := endgameMaxLoop_sound
              (fun newGame a b => do
                let r ← minimaxEndgame fuel newGame a b false ai
                pure r.1)
              g beta (ValidMoves g g.current) vs
              (hvs.imp (by
                rintro m v ⟨ng, hsim, _, _, hab⟩
                refine ⟨ng, hsim, ?_⟩
                intro a ha
                obtain ⟨r, hr, hrfin, hbr⟩ := hab a beta ha
                refine ⟨r, ?_, hrfin, hbr⟩
                have hr' : minimaxEndgame fuel ng a beta false ai = .ok (r, ng) := hr
                simp only [hr', bind, Except.bind, pure, Except.pure]))
              ⊥ alpha bot_le hlt bot_lt_top
            obtain ⟨r, hr, _, hrt, hrb, hbr⟩ := hloop
            refine ⟨r, ?_, ⟨hrb hnone, hrt⟩, hbr⟩
            simp only [minimaxEndgame, hover', hlen, if_false, Bool.false_eq_true, if_true]
            rw [hr]; rfl
        | false =>
          refine ⟨vs.foldl min ⊤, ?_, foldl_min_isFinite hvsne hvsfin, ?_⟩
          · simp only [exactValue, hover', hlen, if_false, Bool.false_eq_true]
            rw [hmap]; rfl
          · intro alpha beta hlt
            have hloop := endgameMinLoop_sound
              (fun newGame a b => do
                let r ← minimaxEndgame fuel newGame a b true ai
                pure r.1)
              g alpha (ValidMoves g g.current) vs
              (hvs.imp (by
                rintro m v ⟨ng, hsim, _, _, hab⟩
                refine ⟨ng, hsim, ?_⟩
                intro b hb
                obtain ⟨r, hr, hrfin, hbr⟩ := hab alpha b hb
                refine ⟨r, ?_, hrfin, hbr⟩
                have hr' : minimaxEndgame fuel ng alpha b true ai = .ok (r, ng) := hr
                simp only [hr', bind, Except.bind, pure, Except.pure]))
              ⊤ beta le_top hlt bot_lt_top
            obtain ⟨r, hr, _, hrb, hrt, hbr⟩ := hloop
            refine ⟨r, ?_, ⟨hrb, hrt hnone⟩, hbr⟩
            simp only [minimaxEndgame, hover', hlen, if_false, Bool.false_eq_true]
            rw [hr]; rfl

/-! ## `EndgameSolver` -/

/-- The root loop of `EndgameSolver` keeps the first move with the highest score. -/
theorem solverLoop_spec (search : Game → Except Fault Score) (g : Game) :
    ∀ (moves : List Move) (scores : List Score),
      List.Forall₂ (fun m s => ∃ ng, SimulateMove g m true = .ok ng ∧ search ng = .ok s)
        moves scores →
      ∀ (bm : Move) (bs : Score),
        ∃ best bscore, solverLoop search g moves bm bs = .ok (best, bscore) ∧
          (∀ s ∈ scores, s ≤ bscore) ∧ bs ≤ bscore ∧
          ((best = bm ∧ bscore = bs) ∨ ((best, bscore) ∈ moves.zip scores ∧ bs < bscore)) := by
  intro moves scores hall
  induction hall with
  | nil =>
    intro bm bs
    exact ⟨bm, bs, rfl, by simp, le_refl _, Or.inl ⟨rfl, rfl⟩⟩
  | @cons m s rest srest hm _ ih =>
    intro bm bs
    obtain ⟨ng, hsim, hs⟩ := hm
    by_cases hgt : s > bs
    · obtain ⟨best, bscore, hrun, hmax, hle, hsel⟩ := ih m s
      refine ⟨best, bscore, ?_, ?_, le_trans (le_of_lt hgt) hle, Or.inr ?_⟩
      · simp only [solverLoop, hsim, hs, bind, Except.bind]
        rw [if_pos hgt]; exact hrun
      · intro s' hs'
        rcases List.mem_cons.mp hs' with rfl | h
        · exact hle
        · exact hmax s' h
      · rcases hsel with ⟨rfl, rfl⟩ | ⟨hmem, hlt⟩
        · exact ⟨by simp [List.zip_cons_cons], hgt⟩
        · exact ⟨by simp [List.zip_cons_cons, hmem], lt_trans hgt hlt⟩
    · obtain ⟨best, bscore, hrun, hmax, hle, hsel⟩ := ih bm bs
      refine ⟨best, bscore, ?_, ?_, hle, ?_⟩
      · simp only [solverLoop, hsim, hs, bind, Except.bind]
        rw [if_neg hgt]; exact hrun
      · intro s' hs'
        rcases List.mem_cons.mp hs' with rfl | h
        · exact le_trans (not_lt.mp hgt) hle
        · exact hmax s' h
      · rcases hsel with h | ⟨hmem, hlt⟩
        · exact Or.inl h
        · exact Or.inr ⟨by simp [List.zip_cons_cons, hmem], hlt⟩

theorem forall₂_zip_mem {α β : Type} {R : α → β → Prop} {l : List α} {bs : List β}
    (h : List.Forall₂ R l bs) : ∀ p ∈ l.zip bs, p.1 ∈ l ∧ R p.1 p.2 := by
  induction h with
  | nil => intro p hp; simp at hp
  | cons hab _ ih =>
    intro p hp
    rw [List.zip_cons_cons] at hp
    rcases List.mem_cons.mp hp with rfl | hp
    · exact ⟨List.mem_cons_self _ _, hab⟩
    · exact ⟨List.mem_cons_of_mem _ (ih p hp).1, (ih p hp).2⟩

theorem forall₂_mem_left {α β : Type} {R : α → β → Prop} {l : List α} {bs : List β}
    (h : List.Forall₂ R l bs) : ∀ a ∈ l, ∃ b ∈ bs, R a b := by
  induction h with
  | nil => intro a ha; simp at ha
  | cons hab _ ih =>
    intro a ha
    rcases List.mem_cons.mp ha with rfl | ha
    · exact ⟨_, List.mem_cons_self _ _, hab⟩
    · obtain ⟨b, hb, hr⟩ := ih a ha
      exact ⟨b, List.mem_cons_of_mem _ hb, hr⟩

theorem child_fuel {g : Game} {player : Int} {m : Move} (hm : m ∈ ValidMoves g player)
    (hv : ValidTurn g) {fuel : Nat} (hf : endgameFuel g ≤ fuel + 1) :
    2 * emptyCount (SwitchTurn { g.Copy with
          board := movedBoard g.board m g.current,
          moveCount := g.moveCount + 1 }).board +
        (if ValidMoves (SwitchTurn { g.Copy with
            board := movedBoard g.board m g.current,
            moveCount := g.moveCount + 1 })
          (SwitchTurn { g.Copy with
            board := movedBoard g.board m g.current,
            moveCount := g.moveCount + 1 }).current = [] then 2 else 1) ≤ fuel := by
  have hlt := emptyCount_movedBoard_lt hm (ValidTurn_ne_blank hv)
  unfold endgameFuel at hf
  rw [SwitchTurn_board]
  split <;> simp only <;> omega

theorem EndgameSolver_best (g : Game) (aiPlayer : Int) (fuel : Nat)
    (hv : ValidTurn g) (hmoves : ValidMoves g g.current ≠ [])
    (hfuel : endgameFuel g ≤ fuel + 1) :
    ∃ best gb vb, EndgameSolver (fuel + 1) g aiPlayer = .ok (best, g) ∧
      best ∈ ValidMoves g g.current ∧
      SimulateMove g best true = .ok gb ∧ exactValue fuel gb false aiPlayer = .ok vb ∧
      ∀ m ∈ ValidMoves g g.current, ∃ gm vm,
        SimulateMove g m true = .ok gm ∧ exactValue fuel gm false aiPlayer = .ok vm ∧
        vm ≤ vb := by
  have hlen : ¬ ((ValidMoves g g.current).length = 0) := by
    rw [List.length_eq_zero]; exact hmoves
  have hchild : ∀ m ∈ ValidMoves g g.current, ∃ s, ∃ ng,
      SimulateMove g m true = .ok ng ∧ exactValue fuel ng false aiPlayer = .ok s ∧
      s.IsFinite ∧
      (do let r ← minimaxEndgame fuel ng ⊥ ⊤ false aiPlayer
          pure r.1 : Except Fault Score) = .ok s := by
    intro m hm
    have hsim := SimulateMove_valid hm true
    rw [if_pos rfl] at hsim
    obtain ⟨v, h1, h2, h3⟩ :=
      endgame_sound fuel _ false aiPlayer (SwitchTurn_validTurn _) (child_fuel hm hv hfuel)
    obtain ⟨r, hr, hrfin, hlow, hhigh⟩ := h3 ⊥ ⊤ bot_lt_top
    have hrv : r = v := le_antisymm (hlow hrfin.1) (hhigh hrfin.2)
    subst hrv
    exact ⟨r, _, hsim, h1, h2, by simp only [hr, bind, Except.bind, pure, Except.pure]⟩
  obtain ⟨scores, hsc⟩ := forall₂_of_forall_mem _ hchild
  obtain ⟨best, bscore, hrun, hmax, _, hsel⟩ := solverLoop_spec
    (fun newGame => do
      let r ← minimaxEndgame fuel newGame ⊥ ⊤ false aiPlayer
      pure r.1)
    g (ValidMoves g g.current) scores
    (hsc.imp (by rintro m s ⟨ng, h1, _, _, h4⟩; exact ⟨ng, h1, h4⟩))
    Move.zero ⊥
  have hrun' : EndgameSolver (fuel + 1) g aiPlayer = .ok (best, g) := by
    simp only [EndgameSolver, hlen, if_false]
    rw [hrun]; rfl
  have hpair : (best, bscore) ∈ (ValidMoves g g.current).zip scores := by
    rcases hsel with ⟨_, hbot⟩ | ⟨h, _⟩
    · exfalso
      obtain ⟨m, hm⟩ := List.exists_mem_of_ne_nil _ hmoves
      obtain ⟨s, hs, _, _, _, hfin, _⟩ := forall₂_mem_left hsc m hm
      have := hmax s hs
      rw [hbot] at this
      exact absurd (lt_of_lt_of_le hfin.1 this) (lt_irrefl _)
    · exact h
  obtain ⟨hbest, gb, hsimb, hexb, _, _⟩ := forall₂_zip_mem hsc _ hpair
  refine ⟨best, gb, bscore, hrun', hbest, hsimb, hexb, ?_⟩
  intro m hm
  obtain ⟨s, hs, gm, hsimm, hexm, _, _⟩ := forall₂_mem_left hsc m hm
  exact ⟨gm, s, hsimm, hexm, hmax s hs⟩

theorem mapM_ok_imp {α β : Type} (F F' : α → Except Fault β) :
    ∀ (l : List α) (bs : List β), (∀ a ∈ l, ∀ b, F a = .ok b → F' a = .ok b) →
      l.mapM F = .ok bs → l.mapM F' = .ok bs := by
  intro l
  induction l with
  | nil => intro bs _ h; simpa using h
  | cons a rest ih =>
    intro bs himp h
    rw [List.mapM_cons] at h ⊢
    cases hFa : F a with
    | error e => rw [hFa] at h; cases h
    | ok b =>
      rw [hFa] at h
      rw [himp a (List.mem_cons_self _ _) b hFa]
      cases hrest : rest.mapM F with
      | error e => rw [hrest] at h; cases h
      | ok bs' =>
        rw [hrest] at h
        rw [ih bs' (fun a' ha' => himp a' (List.mem_cons_of_mem _ ha')) hrest]
        exact h

/-- More fuel does not change a value the reference minimax has computed. -/
theorem exactValue_succ :
    ∀ (fuel : Nat) (g : Game) (mx : Bool) (ai : Int) (v : Score),
      exactValue fuel g mx ai = .ok v → exactValue (fuel + 1) g mx ai = .ok v := by
  intro fuel
  induction fuel with
  | zero => intro g mx ai v h; cases h
  | succ fuel ih =>
    intro g mx ai v h
    rw [exactValue] at h ⊢
    by_cases hover : IsGameOver g = true
    · rw [if_pos hover] at h ⊢; exact h
    · rw [if_neg hover] at h ⊢
      simp only at h ⊢
      by_cases hlen : (ValidMoves g g.current).length = 0
      · rw [if_pos hlen] at h ⊢
        exact ih _ _ _ _ h
      · rw [if_neg hlen] at h ⊢
        cases hmap : (ValidMoves g g.current).mapM (fun move => do
            let newGame ← SimulateMove g move true
            exactValue fuel newGame (!mx) ai) with
        | error e => rw [hmap] at h; cases h
        | ok vs =>
          rw [hmap] at h
          have hmap' : (ValidMoves g g.current).mapM (fun move => do
              let newGame ← SimulateMove g move true
              exactValue (fuel + 1) newGame (!mx) ai) = .ok vs := by
            refine mapM_ok_imp _ _ _ _ ?_ hmap
            intro m _ b hb
            cases hsim : SimulateMove g m true with
            | error e => rw [hsim] at hb; cases hb
            | ok ng =>
              rw [hsim] at hb
              exact ih ng _ _ _ hb
          rw [hmap']
          exact h

theorem exactValue_mono {fuel fuel' : Nat} (hle : fuel ≤ fuel') {g : Game} {mx : Bool}
    {ai : Int} {v : Score} (h : exactValue fuel g mx ai = .ok v) :
    exactValue fuel' g mx ai = .ok v := by
  induction hle with
  | refl => exact h
  | step _ ih => exact exactValue_succ _ _ _ _ _ ih

/-! ## `AIMove`: pass and endgame routing -/

theorem AIMove_of_no_moves (evaluate : Game → Int → ℚ) (sortSlice : SortSlice) (fuel : Nat)
    (fresh : Zobrist) (g : Game) (st : SearchState) (h : ValidMoves g g.current = []) :
    AIMove evaluate sortSlice fuel fresh g st = .ok ⟨SwitchTurn g, st, []⟩ := by
  unfold AIMove
  simp only [h, List.length_nil, if_true]
  rfl

theorem foldl_count_eq {α : Type} (p : α → Prop) [DecidablePred p] (l : List α) (n : Int) :
    l.foldl (fun count c => if p c then count + 1 else count) n
      = n + (l.countP (fun c => decide (p c)) : Nat) := by
  induction l generalizing n with
  | nil => simp
  | cons a rest ih =>
    rw [List.foldl_cons, ih, List.countP_cons]
    by_cases h : p a
    · simp [h]; ring
    · simp [h]

theorem allCells_nodup : allCells.Nodup := by decide

theorem mem_allCells (c : Fin 8 × Fin 8) : c ∈ allCells := by
  unfold allCells
  rw [List.mem_flatMap]
  exact ⟨c.1, mem_indices c.1, List.mem_map.mpr ⟨c.2, mem_indices c.2, rfl⟩⟩

theorem countP_allCells (p : Fin 8 × Fin 8 → Prop) [DecidablePred p] :
    allCells.countP (fun c => decide (p c)) = (Finset.univ.filter p).card := by
  rw [List.countP_eq_length_filter]
  have hnd : (allCells.filter fun c => decide (p c)).Nodup := allCells_nodup.filter _
  rw [← List.toFinset_card_of_nodup hnd]
  congr 1
  ext c
  simp [mem_allCells]

theorem CountEmptySquares_eq (g : Game) : CountEmptySquares g = (emptyCount g.board : Int) := by
  unfold CountEmptySquares emptyCount
  rw [foldl_count_eq (fun c : Fin 8 × Fin 8 => g.board c.1 c.2 = Blank), countP_allCells]
  simp

theorem MakeMove_valid {g : Game} {player : Int} {m : Move} (hm : m ∈ ValidMoves g player)
    (sw : Bool) :
    MakeMove g m sw = .ok
      (if sw then SwitchTurn { g with board := movedBoard g.board m g.current,
                                      moveCount := g.moveCount + 1 }
       else { g with board := movedBoard g.board m g.current,
                     moveCount := g.moveCount + 1 }) :=
  MakeMove_eq g m sw (ValidMoves_bounds hm).1 (ValidMoves_bounds hm).2

theorem AIMove_endgame (evaluate : Game → Int → ℚ) (sortSlice : SortSlice) (fuel : Nat)
    (fresh : Zobrist) (g : Game) (st : SearchState)
    (hv : ValidTurn g) (hmoves : ValidMoves g g.current ≠ [])
    (hempty : CountEmptySquares g ≤ 12) (hd : 0 ≤ g.difficulty) (hfuel : 26 ≤ fuel) :
    ∃ best g', EndgameSolver fuel g g.current = .ok (best, g) ∧
      best ∈ ValidMoves g g.current ∧
      MakeMove g best true = .ok g' ∧
      AIMove evaluate sortSlice fuel fresh g st
        = .ok ⟨g', freshState fresh g.difficulty, []⟩ := by
  obtain ⟨f, rfl⟩ : ∃ f, fuel = f + 1 := ⟨fuel - 1, by omega⟩
  have hef : endgameFuel g ≤ f + 1 := by
    unfold endgameFuel
    rw [CountEmptySquares_eq] at hempty
    omega
  obtain ⟨best, _, _, hsolve, hbest, _⟩ := EndgameSolver_best g g.current f hv hmoves hef
  have hmk := MakeMove_valid hbest true
  refine ⟨best, _, hsolve, hbest, hmk, ?_⟩
  have hlen : ¬ ((ValidMoves g g.current).length = 0) := by
    rw [List.length_eq_zero]; exact hmoves
  unfold AIMove
  simp only [hlen, if_false, not_lt.mpr hd, hempty, if_true, hsolve, bind, Except.bind, hmk]
  rfl

/-! ## Fingerprints -/

theorem pieceIndex_val {p : Int} (hv : p = Blank ∨ p = Black ∨ p = White) :
    (pieceIndex p).val = p.toNat := by
  rcases hv with h | h | h <;> subst h <;> rfl

theorem foldlM_hash_ok (z : Zobrist) (g : Game) (hb : ValidBoard g.board) :
    ∀ (l : List (Fin 8 × Fin 8)) (h0 : Nat),
      l.foldlM
        (fun (h : Nat) c =>
          let piece := g.board c.1 c.2
          if hp : 0 ≤ piece ∧ piece < 3 then
            (pure (h ^^^ z.table c.1 c.2 ⟨piece.toNat, by omega⟩) : Except Fault Nat)
          else throw Fault.indexOutOfRange)
        h0
      = .ok (l.foldl
          (fun (h : Nat) c => h ^^^ z.table c.1 c.2 (pieceIndex (g.board c.1 c.2))) h0) := by
  intro l
  induction l with
  | nil => intro h0; rfl
  | cons c rest ih =>
    intro h0
    rw [List.foldlM_cons, List.foldl_cons]
    have hp : 0 ≤ g.board c.1 c.2 ∧ g.board c.1 c.2 < 3 := by
      rcases hb c.1 c.2 with h | h | h <;> rw [h] <;> decide
    have hidx : ∀ hlt : (g.board c.1 c.2).toNat < 3,
        (⟨(g.board c.1 c.2).toNat, hlt⟩ : Fin 3) = pieceIndex (g.board c.1 c.2) :=
      fun _ => Fin.ext (pieceIndex_val (hb c.1 c.2)).symm
    simp only [hp, and_self, dite_true, hidx]
    exact ih _

theorem computeZobristHash_valid (z : Zobrist) (g : Game) (hb : ValidBoard g.board) :
    computeZobristHash z g = .ok (zobristHash z g) := by
  unfold computeZobristHash zobristHash
  rw [foldlM_hash_ok z g hb]
  rfl

/-! ## `minimax`: the forced pass -/

theorem IsGameOver_false_of_opponent {g : Game}
    (hopp : ValidMoves g (Opponent g.current) ≠ []) : IsGameOver g = false := by
  unfold IsGameOver
  unfold Opponent at hopp
  split at hopp
  · have : (ValidMoves g White).length ≠ 0 := fun h => hopp (List.length_eq_zero.mp h)
    simp [this]
  · have : (ValidMoves g Black).length ≠ 0 := fun h => hopp (List.length_eq_zero.mp h)
    simp [this]

theorem probe_of_shallow {entry : Option TTEntry} {depth : Int} (alpha beta : Score)
    (h : ∀ e, entry = some e → e.Depth < depth) : probe entry depth alpha beta = Probe.miss alpha beta := by
  unfold probe
  cases entry with
  | none => rfl
  | some e =>
    have := h e rfl
    simp only [ge_iff_le, not_le.mpr this, if_false]

theorem minimax_pass_eq (evaluate : Game → Int → ℚ) (sortSlice : SortSlice) (fuel : Nat)
    (st : SearchState) (g : Game) (depth : Int) (alpha beta : Score) (maximizing : Bool)
    (aiPlayer : Int)
    (hb : ValidBoard g.board) (hnone : ValidMoves g g.current = [])
    (hopp : ValidMoves g (Opponent g.current) ≠ [])
    (hd1 : 1 ≤ depth) (hdiff : depth < g.difficulty)
    (hmiss : ∀ e, st.transpositionTable (zobristHash st.zobrist g) = some e → e.Depth < depth) :
    minimax evaluate sortSlice (fuel + 1) st g depth alpha beta maximizing aiPlayer =
      (minimax evaluate sortSlice fuel st (SwitchTurn g) (depth - 1) alpha beta (!maximizing)
        aiPlayer).map (fun r => (r.1, SwitchTurn r.2.1, r.2.2)) := by
  have hne : ¬ depth = g.difficulty := by omega
  have h0 : ¬ depth = 0 := by omega
  rw [minimax]
  simp only [hne, if_false, computeZobristHash_valid st.zobrist g hb, bind, Except.bind,
    probe_of_shallow alpha beta hmiss, h0, IsGameOver_false_of_opponent hopp, hnone,
    List.length_nil, if_true, false_or, Bool.false_eq_true]
  cases minimax evaluate sortSlice fuel st (SwitchTurn g) (depth - 1) alpha beta (!maximizing)
      aiPlayer <;> rfl

/-! ## Children of a position -/

theorem SimulateMove_child {g : Game} {player : Int} {m : Move} (hm : m ∈ ValidMoves g player) :
    SimulateMove g m true = .ok (childOf g m) := by
  have h := SimulateMove_valid hm true
  rw [if_pos rfl] at h
  exact h

theorem childOf_validTurn (g : Game) (m : Move) : ValidTurn (childOf g m) :=
  SwitchTurn_validTurn _

theorem childOf_difficulty (g : Game) (m : Move) : (childOf g m).difficulty = g.difficulty := by
  unfold childOf
  rw [SwitchTurn_difficulty]
  rfl

theorem childOf_board (g : Game) (m : Move) :
    (childOf g m).board = movedBoard g.board m g.current := by
  unfold childOf
  rw [SwitchTurn_board]

theorem childOf_validBoard {g : Game} (hb : ValidBoard g.board) (hv : ValidTurn g) (m : Move) :
    ValidBoard (childOf g m).board := by
  rw [childOf_board]
  intro i j
  unfold movedBoard
  split
  · rcases hv with h | h
    · exact Or.inr (Or.inl h)
    · exact Or.inr (Or.inr h)
  · exact hb i j

theorem SwitchTurn_validBoard {g : Game} (hb : ValidBoard g.board) :
    ValidBoard (SwitchTurn g).board := by
  rw [SwitchTurn_board]; exact hb

/-! ## The reference minimax is total -/

theorem plainMinimax_ok (evaluate : Game → Int → ℚ) (aiPlayer : Int) :
    ∀ (d : Nat) (g : Game) (mx : Bool),
      ∃ v, plainMinimax evaluate d g mx aiPlayer = .ok v ∧ v.IsFinite := by
  intro d
  induction d with
  | zero => intro g mx; exact ⟨_, rfl, Score.ofRat_isFinite _⟩
  | succ d ih =>
    intro g mx
    by_cases hover : IsGameOver g = true
    · refine ⟨_, ?_, Score.ofRat_isFinite (evaluate g aiPlayer)⟩
      simp only [plainMinimax, hover, if_true]
      rfl
    · by_cases hnone : (ValidMoves g g.current).length = 0
      · obtain ⟨v, hv, hfin⟩ := ih (SwitchTurn g) (!mx)
        refine ⟨v, ?_, hfin⟩
        simp only [plainMinimax, hover, hnone, if_true, if_false, Bool.false_eq_true]
        exact hv
      · have hchild : ∀ m ∈ ValidMoves g g.current, ∃ v,
            (do let newGame ← SimulateMove g m true
                plainMinimax evaluate d newGame (!mx) aiPlayer) = Except.ok v ∧ v.IsFinite := by
          intro m hm
          obtain ⟨v, hv, hfin⟩ := ih (childOf g m) (!mx)
          refine ⟨v, ?_, hfin⟩
          rw [SimulateMove_child hm]
          exact hv
        obtain ⟨vs, hvs⟩ := forall₂_of_forall_mem _ hchild
        have hmap := mapM_ok_of_forall₂ _ (hvs.imp (fun _ _ h => h.1))
        have hne : vs ≠ [] := by
          intro h; subst h
          exact hnone (by rw [List.forall₂_nil_right_iff.mp hvs]; rfl)
        have hfin : ∀ v ∈ vs, v.IsFinite := by
          intro v hv
          obtain ⟨_, _, h⟩ := forall₂_mem_right hvs v hv
          exact h.2
        cases mx with
        | true =>
          refine ⟨vs.foldl max ⊥, ?_, foldl_max_isFinite hne hfin⟩
          simp only [plainMinimax, hover, hnone, if_false, Bool.false_eq_true]
          rw [hmap]; rfl
        | false =>
          refine ⟨vs.foldl min ⊤, ?_, foldl_min_isFinite hne hfin⟩
          simp only [plainMinimax, hover, hnone, if_false, Bool.false_eq_true]
          rw [hmap]; rfl

/-! ## Killer slots and move ordering -/

theorem killerIndex_ok {depth difficulty : Int} (h0 : 0 ≤ depth) (hlt : depth < difficulty) :
    killerIndex depth difficulty = .ok depth := by
  unfold killerIndex
  rw [if_neg (by omega), Int.tmod_eq_of_lt h0 hlt]
  rfl

theorem killerGet_ok (st : SearchState) {depth difficulty : Int} (h0 : 0 ≤ depth)
    (hlt : depth < difficulty) (hk : (st.killerMoves.length : Int) = difficulty) :
    ∃ k, killerGet st depth difficulty = .ok k := by
  unfold killerGet
  rw [killerIndex_ok h0 hlt]
  simp only [bind, Except.bind]
  rw [if_pos ⟨h0, by omega⟩]
  exact ⟨_, rfl⟩

theorem recordCutoff_ok (st : SearchState) (move : Move) {depth difficulty : Int}
    (h0 : 0 ≤ depth) (hlt : depth < difficulty)
    (hk : (st.killerMoves.length : Int) = difficulty) :
    ∃ st', recordCutoff st move depth difficulty = .ok st' ∧
      st'.zobrist = st.zobrist ∧ st'.transpositionTable = st.transpositionTable ∧
      st'.killerMoves.length = st.killerMoves.length := by
  unfold recordCutoff
  rw [killerIndex_ok h0 hlt]
  simp only [bind, Except.bind]
  rw [if_pos ⟨h0, by omega⟩]
  exact ⟨_, rfl, rfl, rfl, by simp⟩

theorem mapM_eq_ok_map {α β : Type} (f : α → Except Fault β) (F : α → β) :
    ∀ l : List α, (∀ a ∈ l, f a = .ok (F a)) → l.mapM f = .ok (l.map F) := by
  intro l
  induction l with
  | nil => intro _; rfl
  | cons a rest ih =>
    intro h
    rw [List.mapM_cons, h a (List.mem_cons_self _ _),
      ih (fun a' ha' => h a' (List.mem_cons_of_mem _ ha'))]
    rfl

theorem orderMoves_ok (evaluate : Game → Int → ℚ) (sortSlice : SortSlice)
    (hperm : SortPermutes sortSlice) (st : SearchState) (g : Game) (depth : Int)
    (aiPlayer : Int) (h0 : 0 ≤ depth) (hlt : depth < g.difficulty)
    (hk : (st.killerMoves.length : Int) = g.difficulty) (player : Int) :
    ∃ ordered, orderMoves evaluate sortSlice st g (ValidMoves g player) depth aiPlayer
        = .ok ordered ∧ ordered.Perm (ValidMoves g player) := by
  have hmap := mapM_eq_ok_map
    (fun move => do
      let newGame ← SimulateMove g move false
      pure ({ move := move, moveKey := ⟨move.X, move.Y⟩, eval := evaluate newGame aiPlayer }
        : MoveEval))
    (fun move => MoveEval.mk move ⟨move.X, move.Y⟩ (evaluate (placedOf g move) aiPlayer))
    (ValidMoves g player)
    (by
      intro m hm
      have h := SimulateMove_valid hm false
      rw [if_neg (by decide)] at h
      simp only [h, bind, Except.bind]
      rfl)
  have hback : ∀ l : List Move,
      (l.map (fun move => MoveEval.mk move ⟨move.X, move.Y⟩
        (evaluate (placedOf g move) aiPlayer))).map (fun me => me.move) = l := by
    intro l
    induction l with
    | nil => rfl
    | cons a rest ih => rw [List.map_cons, List.map_cons, ih]
  unfold orderMoves
  rw [hmap]
  simp only [bind, Except.bind]
  split
  · exact ⟨_, rfl, by rw [hback]⟩
  · obtain ⟨k, hkget⟩ := killerGet_ok st h0 hlt hk
    rw [hkget]
    refine ⟨_, rfl, ?_⟩
    have := (hperm (orderLess k st.historyTable)
      ((ValidMoves g player).map (fun move => MoveEval.mk move ⟨move.X, move.Y⟩
        (evaluate (placedOf g move) aiPlayer)))).map (fun me : MoveEval => me.move)
    rw [hback] at this
    exact this

/-! ## The move loops of `minimax` -/

theorem ite_gt_eq_max (e v : Score) : (if e > v then e else v) = max v e := by
  by_cases h : e > v
  · rw [if_pos h, max_eq_right (le_of_lt h)]
  · rw [if_neg h, max_eq_left (not_lt.mp h)]

theorem ite_lt_eq_min (e v : Score) : (if e < v then e else v) = min v e := by
  by_cases h : e < v
  · rw [if_pos h, min_eq_right (le_of_lt h)]
  · rw [if_neg h, min_eq_left (not_lt.mp h)]

theorem TableSound_congr {evaluate : Game → Int → ℚ} {aiPlayer : Int} {T : List Node}
    {st st' : SearchState} (hz : st'.zobrist = st.zobrist)
    (ht : st'.transpositionTable = st.transpositionTable)
    (h : TableSound evaluate aiPlayer T st) : TableSound evaluate aiPlayer T st' := by
  intro k e hk
  rw [ht] at hk
  obtain ⟨n, hn, hh, hs⟩ := h k e hk
  exact ⟨n, hn, by rw [hz]; exact hh, hs⟩

theorem StateOK_congr {z : Zobrist} {D : Int} {st st' : SearchState}
    (hz : st'.zobrist = st.zobrist) (ht : st'.transpositionTable = st.transpositionTable)
    (hk : st'.killerMoves.length = st.killerMoves.length) (h : StateOK z D st) :
    StateOK z D st' := by
  obtain ⟨h1, h2, h3⟩ := h
  refine ⟨by rw [hz]; exact h1, by rw [hk]; exact h2, ?_⟩
  intro k e hke
  rw [ht] at hke
  exact h3 k e hke

theorem maxLoop_spec (evaluate : Game → Int → ℚ) (aiPlayer : Int) (z : Zobrist)
    (T : List Node) (C : Prop)
    (search : SearchState → Game → Score → Score → Except Fault (Score × SearchState))
    (game : Game) (depth : Int) (beta : Score)
    (h0 : 0 ≤ depth) (hlt : depth < game.difficulty) :
    ∀ (moves : List Move) (vs : List Score),
      List.Forall₂ (fun m v => ∃ ng, SimulateMove game m true = .ok ng ∧
        ChildContract evaluate aiPlayer z game.difficulty T C search ng v) moves vs →
      ∀ (value : Score) (bestMove : Move) (alpha : Score) (st : SearchState),
        StateOK z game.difficulty st → value < ⊤ →
        ∃ res, maxLoop search game depth beta moves value bestMove alpha st = .ok res ∧
          StateOK z game.difficulty res.st ∧ value ≤ res.value ∧ res.value < ⊤ ∧
          (moves ≠ [] → ⊥ < res.value) ∧
          (C → TableSound evaluate aiPlayer T st → value ≤ alpha → alpha < beta →
            TableSound evaluate aiPlayer T res.st ∧
            Brackets alpha beta (vs.foldl max ⊥) res.value) := by
  have hne : ¬ depth = game.difficulty := by omega
  intro moves vs hall
  induction hall with
  | nil =>
    intro value bestMove alpha st hok hvt
    refine ⟨⟨value, bestMove, alpha, st⟩, rfl, hok, le_refl _, hvt, fun h => absurd rfl h, ?_⟩
    intro _ hts hva _
    refine ⟨hts, ?_, ?_⟩
    · intro h; exact absurd (lt_of_lt_of_le h hva) (lt_irrefl _)
    · intro _; simp
  | @cons m v1 rest vrest hm _ ih =>
    intro value bestMove alpha st hok hvt
    obtain ⟨ng, hsim, hcc⟩ := hm
    obtain ⟨e, st1, hs, hefin, hok1, hsound1⟩ := hcc st alpha beta hok
    rw [foldl_max_cons]
    by_cases hcut : max alpha (max value e) ≥ beta
    · obtain ⟨st2, hrec, hz2, ht2, hk2⟩ := recordCutoff_ok st1 m h0 hlt hok1.2.1
      refine ⟨⟨max value e, if e > value then m else bestMove, max alpha (max value e), st2⟩,
        ?_, StateOK_congr hz2 ht2 hk2 hok1, le_max_left _ _, max_lt hvt hefin.2,
        fun _ => lt_of_lt_of_le hefin.1 (le_max_right _ _), ?_⟩
      · simp only [maxLoop, hne, if_false, hsim, hs, bind, Except.bind, ite_gt_eq_max]
        rw [if_pos hcut, hrec]
        rfl
      · intro hC hts hva hab
        obtain ⟨hts1, hlow, hhigh⟩ := hsound1 hC hts hab
        refine ⟨TableSound_congr hz2 ht2 hts1, ?_, ?_⟩
        · intro h
          have hae : alpha < e := by
            rcases lt_max_iff.mp h with h' | h'
            · exact absurd (lt_of_lt_of_le h' hva) (lt_irrefl _)
            · exact h'
          have : max value e = e := max_eq_right (le_trans hva (le_of_lt hae))
          show max value e ≤ _
          rw [this]
          exact le_trans (hlow hae) (le_max_left _ _)
        · intro h
          exfalso
          have h1 : max alpha (max value e) < beta := max_lt hab h
          exact absurd hcut (not_le.mpr h1)
    · have hab' : max alpha (max value e) < beta := not_le.mp hcut
      obtain ⟨res, hr, hokr, hvr, hrt, _, hsoundr⟩ :=
        ih (max value e) (if e > value then m else bestMove) (max alpha (max value e)) st1 hok1
          (max_lt hvt hefin.2)
      refine ⟨res, ?_, hokr, le_trans (le_max_left _ _) hvr, hrt,
        fun _ => lt_of_lt_of_le hefin.1 (le_trans (le_max_right _ _) hvr), ?_⟩
      · simp only [maxLoop, hne, if_false, hsim, hs, bind, Except.bind, ite_gt_eq_max]
        rw [if_neg hcut]
        exact hr
      · intro hC hts hva hab
        obtain ⟨hts1, hlow, hhigh⟩ := hsound1 hC hts hab
        obtain ⟨htsr, hlow', hhigh'⟩ := hsoundr hC hts1 (le_max_right _ _) hab'
        refine ⟨htsr, ?_, ?_⟩
        · intro h
          by_cases h2 : max alpha (max value e) < res.value
          · exact le_trans (hlow' h2) (le_max_right _ _)
          · have hr_le : res.value ≤ max alpha (max value e) := not_lt.mp h2
            have hmax : max alpha (max value e) = max alpha e := by
              rw [← max_assoc, max_eq_left hva]
            rw [hmax] at hr_le
            have hae : alpha < e := by
              by_contra hcon
              rw [max_eq_left (not_lt.mp hcon)] at hr_le
              exact absurd (lt_of_lt_of_le h hr_le) (lt_irrefl _)
            rw [max_eq_right (le_of_lt hae)] at hr_le
            exact le_trans hr_le (le_trans (hlow hae) (le_max_left _ _))
        · intro h
          have he_le : e ≤ res.value := le_trans (le_max_right _ _) hvr
          exact max_le (le_trans (hhigh (lt_of_le_of_lt he_le h)) he_le) (hhigh' h)

theorem minLoop_spec (evaluate : Game → Int → ℚ) (aiPlayer : Int) (z : Zobrist)
    (T : List Node) (C : Prop)
    (search : SearchState → Game → Score → Score → Except Fault (Score × SearchState))
    (game : Game) (depth : Int) (alpha : Score)
    (h0 : 0 ≤ depth) (hlt : depth < game.difficulty) :
    ∀ (moves : List Move) (vs : List Score),
      List.Forall₂ (fun m v => ∃ ng, SimulateMove game m true = .ok ng ∧
        ChildContract evaluate aiPlayer z game.difficulty T C search ng v) moves vs →
      ∀ (value : Score) (bestMove : Move) (beta : Score) (st : SearchState),
        StateOK z game.difficulty st → ⊥ < value →
        ∃ res, minLoop search game depth alpha moves value bestMove beta st = .ok res ∧
          StateOK z game.difficulty res.st ∧ res.value ≤ value ∧ ⊥ < res.value ∧
          (moves ≠ [] → res.value < ⊤) ∧ res.bound ≤ beta ∧
          (C → TableSound evaluate aiPlayer T st → beta ≤ value → alpha < beta →
            TableSound evaluate aiPlayer T res.st ∧
            Brackets alpha beta (vs.foldl min ⊤) res.value) := by
  have hne : ¬ depth = game.difficulty := by omega
  intro moves vs hall
  induction hall with
  | nil =>
    intro value bestMove beta st hok hvb
    refine ⟨⟨value, bestMove, beta, st⟩, rfl, hok, le_refl _, hvb, fun h => absurd rfl h,
      le_refl _, ?_⟩
    intro _ hts hbv _
    refine ⟨hts, ?_, ?_⟩
    · intro _; simp
    · intro h; exact absurd (lt_of_le_of_lt hbv h) (lt_irrefl _)
  | @cons m v1 rest vrest hm _ ih =>
    intro value bestMove beta st hok hvb
    obtain ⟨ng, hsim, hcc⟩ := hm
    obtain ⟨e, st1, hs, hefin, hok1, hsound1⟩ := hcc st alpha beta hok
    rw [foldl_min_cons]
    by_cases hcut : alpha ≥ min beta (min value e)
    · obtain ⟨st2, hrec, hz2, ht2, hk2⟩ := recordCutoff_ok st1 m h0 hlt hok1.2.1
      refine ⟨⟨min value e, if e < value then m else bestMove, min beta (min value e), st2⟩,
        ?_, StateOK_congr hz2 ht2 hk2 hok1, min_le_left _ _, lt_min hvb hefin.1,
        fun _ => lt_of_le_of_lt (min_le_right _ _) hefin.2, min_le_left _ _, ?_⟩
      · simp only [minLoop, hne, if_false, hsim, hs, bind, Except.bind, ite_lt_eq_min]
        rw [if_pos hcut, hrec]
        rfl
      · intro hC hts hbv hab
        obtain ⟨hts1, hlow, hhigh⟩ := hsound1 hC hts hab
        refine ⟨TableSound_congr hz2 ht2 hts1, ?_, ?_⟩
        · intro h
          exfalso
          have h1 : alpha < min beta (min value e) := lt_min hab h
          exact absurd hcut (not_le.mpr h1)
        · intro h
          have heb : e < beta := by
            rcases min_lt_iff.mp h with h' | h'
            · exact absurd (lt_of_le_of_lt hbv h') (lt_irrefl _)
            · exact h'
          have : min value e = e := min_eq_right (le_trans (le_of_lt heb) hbv)
          show _ ≤ min value e
          rw [this]
          exact le_trans (min_le_left _ _) (hhigh heb)
    · have hab' : alpha < min beta (min value e) := not_le.mp hcut
      obtain ⟨res, hr, hokr, hrv, hrb, _, hbound, hsoundr⟩ :=
        ih (min value e) (if e < value then m else bestMove) (min beta (min value e)) st1 hok1
          (lt_min hvb hefin.1)
      refine ⟨res, ?_, hokr, le_trans hrv (min_le_left _ _), hrb,
        fun _ => lt_of_le_of_lt (le_trans hrv (min_le_right _ _)) hefin.2,
        le_trans hbound (min_le_left _ _), ?_⟩
      · simp only [minLoop, hne, if_false, hsim, hs, bind, Except.bind, ite_lt_eq_min]
        rw [if_neg hcut]
        exact hr
      · intro hC hts hbv hab
        obtain ⟨hts1, hlow, hhigh⟩ := hsound1 hC hts hab
        obtain ⟨htsr, hlow', hhigh'⟩ := hsoundr hC hts1 (min_le_right _ _) hab'
        refine ⟨htsr, ?_, ?_⟩
        · intro h
          have hr_le : res.value ≤ e := le_trans hrv (min_le_right _ _)
          exact le_min (le_trans hr_le (hlow (lt_of_lt_of_le h hr_le))) (hlow' h)
        · intro h
          by_cases h2 : res.value < min beta (min value e)
          · exact le_trans (min_le_right _ _) (hhigh' h2)
          · have hr_ge : min beta (min value e) ≤ res.value := not_lt.mp h2
            have hmin : min beta (min value e) = min beta e := by
              rw [← min_assoc, min_eq_left hbv]
            rw [hmin] at hr_ge
            have heb : e < beta := by
              by_contra hcon
              rw [min_eq_left (not_lt.mp hcon)] at hr_ge
              exact absurd (lt_of_le_of_lt hr_ge h) (lt_irrefl _)
            rw [min_eq_right (le_of_lt heb)] at hr_ge
            exact le_trans (le_trans (min_le_left _ _) (hhigh heb)) hr_ge

/-! ## Lookup and store -/

theorem flags_ne : Exact ≠ LowerBound ∧ Exact ≠ UpperBound ∧ LowerBound ≠ UpperBound := by
  decide

theorem probe_hit_eval {entry : Option TTEntry} {d : Int} {alpha beta r : Score}
    (h : probe entry d alpha beta = Probe.hit r) : ∃ e, entry = some e ∧ r = e.Eval := by
  unfold probe at h
  cases entry with
  | none => cases h
  | some e =>
    refine ⟨e, rfl, ?_⟩
    simp only at h
    by_cases h1 : e.Depth ≥ d
    · rw [if_pos h1] at h
      by_cases h2 : e.Flag = Exact
      · rw [if_pos h2] at h; exact (Probe.hit.inj h).symm
      · rw [if_neg h2] at h
        by_cases h3 : narrowAlpha e alpha ≥ narrowBeta e beta
        · rw [if_pos h3] at h; exact (Probe.hit.inj h).symm
        · rw [if_neg h3] at h; cases h
    · rw [if_neg h1] at h; cases h

theorem narrow_lower {e : TTEntry} (hf : e.Flag = LowerBound) (alpha beta : Score) :
    narrowAlpha e alpha = max alpha e.Eval ∧ narrowBeta e beta = beta := by
  unfold narrowAlpha narrowBeta
  have h2 : ¬ (e.Flag = UpperBound ∧ e.Eval < beta) := by
    rw [hf]; exact fun h => flags_ne.2.2 h.1
  rw [if_neg h2]
  refine ⟨?_, rfl⟩
  rw [← ite_gt_eq_max]
  simp only [hf, true_and]

theorem narrow_upper {e : TTEntry} (hf : e.Flag = UpperBound) (alpha beta : Score) :
    narrowAlpha e alpha = alpha ∧ narrowBeta e beta = min beta e.Eval := by
  unfold narrowAlpha narrowBeta
  have h2 : ¬ (e.Flag = LowerBound ∧ e.Eval > alpha) := by
    rw [hf]; exact fun h => flags_ne.2.2.symm h.1
  rw [if_neg h2]
  refine ⟨rfl, ?_⟩
  rw [← ite_lt_eq_min]
  simp only [hf, true_and]

theorem probe_hit_sound {entry : Option TTEntry} {d : Int} {alpha beta r v : Score}
    (hs : SoundAt v d entry) (hab : alpha < beta)
    (h : probe entry d alpha beta = Probe.hit r) : Brackets alpha beta v r := by
  obtain ⟨e, he, hr⟩ := probe_hit_eval h
  subst he
  obtain ⟨hd, hflag, hex, hlo, hup⟩ := hs e rfl
  unfold probe at h
  simp only [hd, ge_iff_le, le_refl, if_true] at h
  subst hr
  rcases hflag with hf | hf | hf
  · rw [hex hf]; exact ⟨fun _ => le_refl _, fun _ => le_refl _⟩
  · have h1 : ¬ e.Flag = Exact := by rw [hf]; exact flags_ne.1.symm
    rw [if_neg h1, (narrow_lower hf alpha beta).1, (narrow_lower hf alpha beta).2] at h
    by_cases hcut : beta ≤ max alpha e.Eval
    · refine ⟨fun _ => hlo hf, fun hlt => ?_⟩
      exfalso
      exact absurd (lt_of_le_of_lt hcut (max_lt hab hlt)) (lt_irrefl _)
    · rw [if_neg hcut] at h; cases h
  · have h1 : ¬ e.Flag = Exact := by rw [hf]; exact flags_ne.2.1.symm
    rw [if_neg h1, (narrow_upper hf alpha beta).1, (narrow_upper hf alpha beta).2] at h
    by_cases hcut : min beta e.Eval ≤ alpha
    · refine ⟨fun hlt => ?_, fun _ => hup hf⟩
      exfalso
      exact absurd (lt_of_lt_of_le (lt_min hab hlt) hcut) (lt_irrefl _)
    · rw [if_neg hcut] at h; cases h

theorem probe_miss_sound {entry : Option TTEntry} {d : Int} {alpha beta a b v : Score}
    (hs : SoundAt v d entry) (hab : alpha < beta)
    (h : probe entry d alpha beta = Probe.miss a b) :
    a < b ∧ ∀ r, Brackets a b v r → Brackets alpha beta v r := by
  unfold probe at h
  cases entry with
  | none =>
    simp only at h
    obtain ⟨rfl, rfl⟩ := Probe.miss.inj h
    exact ⟨hab, fun _ hbr => hbr⟩
  | some e =>
    obtain ⟨hd, hflag, hex, hlo, hup⟩ := hs e rfl
    simp only [hd, ge_iff_le, le_refl, if_true] at h
    rcases hflag with hf | hf | hf
    · rw [if_pos hf] at h
      cases h
    · have h1 : ¬ e.Flag = Exact := by rw [hf]; exact flags_ne.1.symm
      rw [if_neg h1, (narrow_lower hf alpha beta).1, (narrow_lower hf alpha beta).2] at h
      by_cases hcut : beta ≤ max alpha e.Eval
      · rw [if_pos hcut] at h; cases h
      · rw [if_neg hcut] at h
        obtain ⟨rfl, rfl⟩ := Probe.miss.inj h
        refine ⟨not_le.mp hcut, fun r hbr => ⟨fun hlt => ?_, hbr.2⟩⟩
        by_cases h3 : max alpha e.Eval < r
        · exact hbr.1 h3
        · have h4 : r ≤ max alpha e.Eval := not_lt.mp h3
          rcases le_max_iff.mp h4 with h5 | h5
          · exact absurd (lt_of_lt_of_le hlt h5) (lt_irrefl _)
          · exact le_trans h5 (hlo hf)
    · have h1 : ¬ e.Flag = Exact := by rw [hf]; exact flags_ne.2.1.symm
      rw [if_neg h1, (narrow_upper hf alpha beta).1, (narrow_upper hf alpha beta).2] at h
      by_cases hcut : min beta e.Eval ≤ alpha
      · rw [if_pos hcut] at h; cases h
      · rw [if_neg hcut] at h
        obtain ⟨rfl, rfl⟩ := Probe.miss.inj h
        refine ⟨not_le.mp hcut, fun r hbr => ⟨hbr.1, fun hlt => ?_⟩⟩
        by_cases h3 : r < min beta e.Eval
        · exact hbr.2 h3
        · have h4 : min beta e.Eval ≤ r := not_lt.mp h3
          rcases min_le_iff.mp h4 with h5 | h5
          · exact absurd (lt_of_le_of_lt h5 hlt) (lt_irrefl _)
          · exact le_trans (hup hf) h5

theorem storeFlag_sound {a b b' v value : Score} (hab : a < b) (hb : b' ≤ b)
    (hbr : Brackets a b v value) :
    (storeFlag value a b' = Exact ∨ storeFlag value a b' = LowerBound ∨
      storeFlag value a b' = UpperBound) ∧
    (storeFlag value a b' = Exact → value = v) ∧
    (storeFlag value a b' = LowerBound → value ≤ v) ∧
    (storeFlag value a b' = UpperBound → v ≤ value) := by
  unfold storeFlag
  by_cases h1 : value ≤ a
  · rw [if_pos h1]
    refine ⟨Or.inr (Or.inr rfl), fun h => absurd h flags_ne.2.1.symm,
      fun h => absurd h flags_ne.2.2.symm, fun _ => hbr.2 (lt_of_le_of_lt h1 hab)⟩
  · rw [if_neg h1]
    have ha : a < value := not_le.mp h1
    by_cases h2 : value ≥ b'
    · rw [if_pos h2]
      exact ⟨Or.inr (Or.inl rfl), fun h => absurd h flags_ne.1.symm, fun _ => hbr.1 ha,
        fun h => absurd h flags_ne.2.2⟩
    · rw [if_neg h2]
      have hlt : value < b := lt_of_lt_of_le (not_le.mp h2) hb
      exact ⟨Or.inl rfl, fun _ => le_antisymm (hbr.1 ha) (hbr.2 hlt),
        fun h => absurd h flags_ne.1, fun h => absurd h flags_ne.2.1⟩

theorem store_StateOK {z : Zobrist} {D : Int} {st : SearchState} (h : StateOK z D st)
    (k : Nat) (e : TTEntry) (he : e.Eval.IsFinite) : StateOK z D (st.store k e) := by
  obtain ⟨h1, h2, h3⟩ := h
  refine ⟨h1, h2, ?_⟩
  intro k' e' hk'
  unfold SearchState.store at hk'
  simp only at hk'
  by_cases hkk : k' = k
  · rw [if_pos hkk] at hk'
    rw [← Option.some.inj hk']; exact he
  · rw [if_neg hkk] at hk'
    exact h3 k' e' hk'

theorem store_TableSound {evaluate : Game → Int → ℚ} {aiPlayer : Int} {T : List Node}
    {st : SearchState} (h : TableSound evaluate aiPlayer T st) {n : Node} (hn : n ∈ T)
    {e : TTEntry} (he : EntrySound evaluate aiPlayer e n) :
    TableSound evaluate aiPlayer T (st.store (zobristHash st.zobrist n.1) e) := by
  intro k' e' hk'
  unfold SearchState.store at hk'
  simp only at hk'
  by_cases hkk : k' = zobristHash st.zobrist n.1
  · rw [if_pos hkk] at hk'
    rw [← Option.some.inj hk']
    exact ⟨n, hn, hkk.symm, he⟩
  · rw [if_neg hkk] at hk'
    exact h k' e' hk'

/-! ## The search tree -/

theorem treeNodes_self (d : Nat) (g : Game) (mx : Bool) : (g, d, mx) ∈ treeNodes d g mx := by
  cases d with
  | zero => simp [treeNodes]
  | succ d => simp [treeNodes]

theorem treeNodes_pass {d : Nat} {g : Game} {mx : Bool} (hover : IsGameOver g = false)
    (hnone : (ValidMoves g g.current).length = 0) :
    treeNodes d (SwitchTurn g) (!mx) ⊆ treeNodes (d + 1) g mx := by
  intro n hn
  rw [treeNodes]
  simp only [hover, Bool.false_eq_true, if_false, hnone, if_true]
  exact List.mem_cons_of_mem _ hn

theorem treeNodes_child {d : Nat} {g : Game} {mx : Bool} (hover : IsGameOver g = false)
    {m : Move} (hm : m ∈ ValidMoves g g.current) :
    treeNodes d (childOf g m) (!mx) ⊆ treeNodes (d + 1) g mx := by
  intro n hn
  have hlen : ¬ (ValidMoves g g.current).length = 0 := by
    intro h
    rw [List.length_eq_zero] at h
    rw [h] at hm
    cases hm
  rw [treeNodes]
  simp only [hover, Bool.false_eq_true, if_false, hlen]
  refine List.mem_cons_of_mem _ (List.mem_flatMap.mpr ⟨m, hm, ?_⟩)
  rw [SimulateMove_child hm]
  exact hn

theorem foldl_max_perm {l₁ l₂ : List Score} (h : l₁.Perm l₂) :
    l₁.foldl max ⊥ = l₂.foldl max ⊥ :=
  h.foldl_eq' (fun x _ y _ z => by rw [max_assoc, max_comm x y, ← max_assoc]) ⊥

theorem foldl_min_perm {l₁ l₂ : List Score} (h : l₁.Perm l₂) :
    l₁.foldl min ⊤ = l₂.foldl min ⊤ :=
  h.foldl_eq' (fun x _ y _ z => by rw [min_assoc, min_comm x y, ← min_assoc]) ⊤

theorem forall₂_map_of_forall {α β : Type} {R : α → β → Prop} (F : α → β) :
    ∀ l : List α, (∀ a ∈ l, R a (F a)) → List.Forall₂ R l (l.map F)
  | [], _ => List.Forall₂.nil
  | a :: l, h =>
    List.Forall₂.cons (h a (List.mem_cons_self _ _))
      (forall₂_map_of_forall F l (fun a' ha' => h a' (List.mem_cons_of_mem _ ha')))

/-! ## Totality and soundness of `minimax` -/

theorem soundAt_of_table {evaluate : Game → Int → ℚ} {aiPlayer : Int} {z : Zobrist}
    {T : List Node} (hinj : DistinctFingerprints z T) {st : SearchState} (hz : st.zobrist = z)
    (hts : TableSound evaluate aiPlayer T st) {g : Game} {d : Nat} {mx : Bool}
    (hn : (g, d, mx) ∈ T) {v : Score} (hv : plainMinimax evaluate d g mx aiPlayer = .ok v) :
    SoundAt v (d : Int) (st.transpositionTable (zobristHash z g)) := by
  intro e he
  obtain ⟨n, hnT, hh, hd, v', hv', hflag, h1, h2, h3⟩ := hts _ e he
  rw [hz] at hh
  have hnn : n = (g, d, mx) := hinj n hnT (g, d, mx) hn hh
  subst hnn
  simp only at hd hv'
  rw [hv] at hv'
  have hvv : v = v' := Except.ok.inj hv'
  subst hvv
  exact ⟨hd, hflag, h1, h2, h3⟩

theorem minimax_leaf (evaluate : Game → Int → ℚ) (sortSlice : SortSlice) (fuel : Nat)
    (st : SearchState) (g : Game) (depth : Int) (alpha beta a b : Score) (mx : Bool)
    (aiPlayer : Int) (hb : ValidBoard g.board) (hne : ¬ depth = g.difficulty)
    (hp : probe (st.transpositionTable (zobristHash st.zobrist g)) depth alpha beta
      = Probe.miss a b)
    (hleaf : depth = 0 ∨ IsGameOver g = true) :
    minimax evaluate sortSlice (fuel + 1) st g depth alpha beta mx aiPlayer =
      .ok (Score.ofRat (evaluate g aiPlayer), g,
        st.store (zobristHash st.zobrist g)
          { Depth := depth, Eval := Score.ofRat (evaluate g aiPlayer), Flag := Exact,
            BestMove := Move.zero }) := by
  rw [minimax]
  simp only [hne, if_false, computeZobristHash_valid st.zobrist g hb, bind, Except.bind, hp,
    hleaf, if_true]
  rfl

theorem minimax_hit (evaluate : Game → Int → ℚ) (sortSlice : SortSlice) (fuel : Nat)
    (st : SearchState) (g : Game) (depth : Int) (alpha beta r : Score) (mx : Bool)
    (aiPlayer : Int) (hb : ValidBoard g.board) (hne : ¬ depth = g.difficulty)
    (hp : probe (st.transpositionTable (zobristHash st.zobrist g)) depth alpha beta
      = Probe.hit r) :
    minimax evaluate sortSlice (fuel + 1) st g depth alpha beta mx aiPlayer = .ok (r, g, st) := by
  rw [minimax]
  simp only [hne, if_false, computeZobristHash_valid st.zobrist g hb, bind, Except.bind, hp]
  rfl

theorem minimax_pass_step (evaluate : Game → Int → ℚ) (sortSlice : SortSlice) (fuel : Nat)
    (st : SearchState) (g : Game) (depth : Int) (alpha beta a b : Score) (mx : Bool)
    (aiPlayer : Int) (hb : ValidBoard g.board) (hne : ¬ depth = g.difficulty)
    (hp : probe (st.transpositionTable (zobristHash st.zobrist g)) depth alpha beta
      = Probe.miss a b)
    (h0 : ¬ depth = 0) (hover : IsGameOver g = false)
    (hnone : (ValidMoves g g.current).length = 0) :
    minimax evaluate sortSlice (fuel + 1) st g depth alpha beta mx aiPlayer =
      (minimax evaluate sortSlice fuel st (SwitchTurn g) (depth - 1) a b (!mx) aiPlayer).map
        (fun r => (r.1, SwitchTurn r.2.1, r.2.2)) := by
  rw [minimax]
  simp only [hne, if_false, computeZobristHash_valid st.zobrist g hb, bind, Except.bind, hp,
    h0, hover, false_or, Bool.false_eq_true, hnone, if_true]
  cases minimax evaluate sortSlice fuel st (SwitchTurn g) (depth - 1) a b (!mx) aiPlayer <;> rfl

theorem minimax_max_step (evaluate : Game → Int → ℚ) (sortSlice : SortSlice) (fuel : Nat)
    (st : SearchState) (g : Game) (depth : Int) (alpha beta a b : Score)
    (aiPlayer : Int) (hb : ValidBoard g.board) (hne : ¬ depth = g.difficulty)
    (hp : probe (st.transpositionTable (zobristHash st.zobrist g)) depth alpha beta
      = Probe.miss a b)
    (h0 : ¬ depth = 0) (hover : IsGameOver g = false)
    (hsome : ¬ (ValidMoves g g.current).length = 0) {ordered : List Move}
    (hord : orderMoves evaluate sortSlice st g (ValidMoves g g.current) depth aiPlayer
      = .ok ordered)
    {l : LoopResult}
    (hloop : maxLoop
      (fun st newGame a b => do
        let r ← minimax evaluate sortSlice fuel st newGame (depth - 1) a b false aiPlayer
        pure (r.1, r.2.2))
      g depth b ordered ⊥ Move.zero a st = .ok l) :
    minimax evaluate sortSlice (fuel + 1) st g depth alpha beta true aiPlayer =
      .ok (l.value, g, l.st.store (zobristHash st.zobrist g)
        { Depth := depth, Eval := l.value, Flag := storeFlag l.value a b,
          BestMove := l.bestMove }) := by
  rw [minimax]
  simp only [hne, if_false, computeZobristHash_valid st.zobrist g hb, bind, Except.bind, hp,
    h0, hover, false_or, Bool.false_eq_true, hsome, hord, if_true]
  simp only [bind, Except.bind] at hloop
  rw [hloop]
  rfl

theorem minimax_min_step (evaluate : Game → Int → ℚ) (sortSlice : SortSlice) (fuel : Nat)
    (st : SearchState) (g : Game) (depth : Int) (alpha beta a b : Score)
    (aiPlayer : Int) (hb : ValidBoard g.board) (hne : ¬ depth = g.difficulty)
    (hp : probe (st.transpositionTable (zobristHash st.zobrist g)) depth alpha beta
      = Probe.miss a b)
    (h0 : ¬ depth = 0) (hover : IsGameOver g = false)
    (hsome : ¬ (ValidMoves g g.current).length = 0) {ordered : List Move}
    (hord : orderMoves evaluate sortSlice st g (ValidMoves g g.current) depth aiPlayer
      = .ok ordered)
    {l : LoopResult}
    (hloop : minLoop
      (fun st newGame a b => do
        let r ← minimax evaluate sortSlice fuel st newGame (depth - 1) a b true aiPlayer
        pure (r.1, r.2.2))
      g depth a ordered ⊤ Move.zero b st = .ok l) :
    minimax evaluate sortSlice (fuel + 1) st g depth alpha beta false aiPlayer =
      .ok (l.value, g, l.st.store (zobristHash st.zobrist g)
        { Depth := depth, Eval := l.value, Flag := storeFlag l.value a l.bound,
          BestMove := l.bestMove }) := by
  rw [minimax]
  simp only [hne, if_false, computeZobristHash_valid st.zobrist g hb, bind, Except.bind, hp,
    h0, hover, false_or, Bool.false_eq_true, hsome, hord]
  simp only [bind, Except.bind] at hloop
  rw [hloop]
  rfl

theorem plainMinimax_children (evaluate : Game → Int → ℚ) (aiPlayer : Int) (d : Nat) (g : Game)
    (mx : Bool) :
    (ValidMoves g g.current).mapM (fun move => do
        let newGame ← SimulateMove g move true
        plainMinimax evaluate d newGame (!mx) aiPlayer)
      = .ok ((ValidMoves g g.current).map (childValue evaluate aiPlayer d g mx)) := by
  apply mapM_eq_ok_map
  intro m hm
  rw [SimulateMove_child hm]
  obtain ⟨v, hv, _⟩ := plainMinimax_ok evaluate aiPlayer d (childOf g m) (!mx)
  simp only [bind, Except.bind, childValue, hv]

theorem plainMinimax_node (evaluate : Game → Int → ℚ) (aiPlayer : Int) (d : Nat) (g : Game)
    (mx : Bool) (hover : IsGameOver g = false)
    (hsome : ¬ (ValidMoves g g.current).length = 0) :
    plainMinimax evaluate (d + 1) g mx aiPlayer =
      .ok (if mx then ((ValidMoves g g.current).map (childValue evaluate aiPlayer d g mx)).foldl
              max ⊥
           else ((ValidMoves g g.current).map (childValue evaluate aiPlayer d g mx)).foldl
              min ⊤) := by
  rw [plainMinimax]
  simp only [hover, Bool.false_eq_true, if_false, hsome]
  rw [plainMinimax_children]
  rfl

theorem childContract_of_spec (evaluate : Game → Int → ℚ) (sortSlice : SortSlice)
    (aiPlayer : Int) (z : Zobrist) (T : List Node) (d f : Nat) (g : Game) (mx : Bool)
    (hover : IsGameOver g = false) (hb : ValidBoard g.board) (hv : ValidTurn g)
    (ih : ∀ (st : SearchState) (g' : Game) (alpha beta : Score) (mx' : Bool),
      g'.difficulty = g.difficulty → ValidBoard g'.board → ValidTurn g' →
      StateOK z g.difficulty st →
      ∃ r st' v, minimax evaluate sortSlice f st g' d alpha beta mx' aiPlayer = .ok (r, g', st') ∧
        plainMinimax evaluate d g' mx' aiPlayer = .ok v ∧ r.IsFinite ∧
        StateOK z g.difficulty st' ∧
        (treeNodes d g' mx' ⊆ T → TableSound evaluate aiPlayer T st → alpha < beta →
          TableSound evaluate aiPlayer T st' ∧ Brackets alpha beta v r))
    {m : Move} (hm : m ∈ ValidMoves g g.current) :
    ∃ ng, SimulateMove g m true = .ok ng ∧
      ChildContract evaluate aiPlayer z g.difficulty T (treeNodes (d + 1) g mx ⊆ T)
        (fun st newGame a b => do
          let r ← minimax evaluate sortSlice f st newGame (((d + 1 : Nat) : Int) - 1) a b (!mx)
            aiPlayer
          pure (r.1, r.2.2))
        ng (childValue evaluate aiPlayer d g mx m) := by
  refine ⟨childOf g m, SimulateMove_child hm, ?_⟩
  intro st1 a1 b1 hok1
  obtain ⟨r, st', v, hrun, hplain, hfin, hok', hsound⟩ :=
    ih st1 (childOf g m) a1 b1 (!mx) (childOf_difficulty g m) (childOf_validBoard hb hv m)
      (childOf_validTurn g m) hok1
  have hcast : ((d + 1 : Nat) : Int) - 1 = (d : Int) := by push_cast; ring
  refine ⟨r, st', ?_, hfin, hok', ?_⟩
  · simp only [hcast, hrun, bind, Except.bind]
    rfl
  · intro hC hts hab
    have hval : childValue evaluate aiPlayer d g mx m = v := by
      simp only [childValue, hplain]
    rw [hval]
    exact hsound (fun n hn => hC (treeNodes_child hover hm hn)) hts hab

/-- Totality and soundness of `minimax` below the configured maximum depth.
From a good search state the call returns, hands the game back unchanged,
gives a finite score and a good state.  If moreover the nodes of its search
tree lie in a set `T` of nodes with pairwise distinct fingerprints and the
table is sound for `T`, the table stays sound and the score brackets the
plain minimax value of the node for the window it was called with. -/
theorem minimax_spec (evaluate : Game → Int → ℚ) (sortSlice : SortSlice)
    (hperm : SortPermutes sortSlice) (aiPlayer : Int) (z : Zobrist) (D : Int)
    (T : List Node) (hinj : DistinctFingerprints z T) :
    ∀ (d fuel : Nat) (st : SearchState) (g : Game) (alpha beta : Score) (mx : Bool),
      d < fuel → (d : Int) < D → g.difficulty = D → ValidBoard g.board → ValidTurn g →
      StateOK z D st →
      ∃ r st' v,
        minimax evaluate sortSlice fuel st g d alpha beta mx aiPlayer = .ok (r, g, st') ∧
        plainMinimax evaluate d g mx aiPlayer = .ok v ∧ r.IsFinite ∧ StateOK z D st' ∧
        (treeNodes d g mx ⊆ T → TableSound evaluate aiPlayer T st → alpha < beta →
          TableSound evaluate aiPlayer T st' ∧ Brackets alpha beta v r) := by
  intro d
  induction d with
  | zero =>
    intro fuel st g alpha beta mx hfuel hdD hdiff hb hv hok
    obtain ⟨f, rfl⟩ : ∃ f, fuel = f + 1 := ⟨fuel - 1, by omega⟩
    have hne : ¬ ((0 : Nat) : Int) = g.difficulty := by rw [hdiff]; omega
    have hz := hok.1
    have hplain : plainMinimax evaluate 0 g mx aiPlayer
        = .ok (Score.ofRat (evaluate g aiPlayer)) := rfl
    cases hp : probe (st.transpositionTable (zobristHash st.zobrist g)) ((0 : Nat) : Int)
        alpha beta with
    | hit r =>
      refine ⟨r, st, _, minimax_hit evaluate sortSlice f st g _ alpha beta r mx aiPlayer hb hne hp,
        hplain, ?_, hok, ?_⟩
      · obtain ⟨e, he, hr⟩ := probe_hit_eval hp
        rw [hr]; exact hok.2.2 _ e he
      · intro hsub hts hab
        have hsa := soundAt_of_table hinj hz hts (hsub (treeNodes_self 0 g mx)) hplain
        rw [← hz] at hsa
        exact ⟨hts, probe_hit_sound hsa hab hp⟩
    | miss a b =>
      refine ⟨_, _, _, minimax_leaf evaluate sortSlice f st g _ alpha beta a b mx aiPlayer hb hne
        hp (Or.inl rfl), hplain, Score.ofRat_isFinite _,
        store_StateOK hok _ _ (Score.ofRat_isFinite _), ?_⟩
      intro hsub hts hab
      have hsa := soundAt_of_table hinj hz hts (hsub (treeNodes_self 0 g mx)) hplain
      rw [← hz] at hsa
      obtain ⟨_, htrans⟩ := probe_miss_sound hsa hab hp
      refine ⟨store_TableSound hts (n := (g, 0, mx)) (hsub (treeNodes_self 0 g mx))
        ⟨rfl, _, hplain, Or.inl rfl, fun _ => rfl, fun h => absurd h flags_ne.1,
          fun h => absurd h flags_ne.2.1⟩,
        htrans _ ⟨fun _ => le_refl _, fun _ => le_refl _⟩⟩
  | succ d ih =>
    intro fuel st g alpha beta mx hfuel hdD hdiff hb hv hok
    obtain ⟨f, rfl⟩ : ∃ f, fuel = f + 1 := ⟨fuel - 1, by omega⟩
    have hne : ¬ ((d + 1 : Nat) : Int) = g.difficulty := by rw [hdiff]; omega
    have h0 : ¬ ((d + 1 : Nat) : Int) = 0 := by omega
    have hpos : (0 : Int) ≤ ((d + 1 : Nat) : Int) := by omega
    have hltD : ((d + 1 : Nat) : Int) < g.difficulty := by rw [hdiff]; exact hdD
    have hcast : ((d + 1 : Nat) : Int) - 1 = (d : Int) := by push_cast; ring
    have hz := hok.1
    subst hdiff
    obtain ⟨v, hplain, _⟩ := plainMinimax_ok evaluate aiPlayer (d + 1) g mx
    cases hp : probe (st.transpositionTable (zobristHash st.zobrist g)) ((d + 1 : Nat) : Int)
        alpha beta with
    | hit r =>
      refine ⟨r, st, v, minimax_hit evaluate sortSlice f st g _ alpha beta r mx aiPlayer hb hne hp,
        hplain, ?_, hok, ?_⟩
      · obtain ⟨e, he, hr⟩ := probe_hit_eval hp
        rw [hr]; exact hok.2.2 _ e he
      · intro hsub hts hab
        have hsa := soundAt_of_table hinj hz hts (hsub (treeNodes_self (d + 1) g mx)) hplain
        rw [← hz] at hsa
        exact ⟨hts, probe_hit_sound hsa hab hp⟩
    | miss a b =>
      have hmiss : ∀ (hsub : treeNodes (d + 1) g mx ⊆ T)
          (hts : TableSound evaluate aiPlayer T st) (hab : alpha < beta),
          a < b ∧ ∀ r, Brackets a b v r → Brackets alpha beta v r := by
        intro hsub hts hab
        have hsa := soundAt_of_table hinj hz hts (hsub (treeNodes_self (d + 1) g mx)) hplain
        rw [← hz] at hsa
        exact probe_miss_sound hsa hab hp
      by_cases hover : IsGameOver g = true
      · have hv' : v = Score.ofRat (evaluate g aiPlayer) := by
          have : plainMinimax evaluate (d + 1) g mx aiPlayer
              = .ok (Score.ofRat (evaluate g aiPlayer)) := by
            simp only [plainMinimax, hover, if_true]; rfl
          rw [hplain] at this
          exact Except.ok.inj this
        subst hv'
        refine ⟨_, _, _, minimax_leaf evaluate sortSlice f st g _ alpha beta a b mx aiPlayer hb
          hne hp (Or.inr hover), hplain, Score.ofRat_isFinite _,
          store_StateOK hok _ _ (Score.ofRat_isFinite _), ?_⟩
        intro hsub hts hab
        obtain ⟨_, htrans⟩ := hmiss hsub hts hab
        refine ⟨store_TableSound hts (n := (g, d + 1, mx)) (hsub (treeNodes_self (d + 1) g mx))
          ⟨rfl, _, hplain, Or.inl rfl, fun _ => rfl, fun h => absurd h flags_ne.1,
            fun h => absurd h flags_ne.2.1⟩,
          htrans _ ⟨fun _ => le_refl _, fun _ => le_refl _⟩⟩
      · have hover' : IsGameOver g = false := by simpa using hover
        by_cases hnone : (ValidMoves g g.current).length = 0
        · -- forced pass
          obtain ⟨r, st', v', hrun, hplain', hfin, hok', hsound⟩ :=
            ih f st (SwitchTurn g) a b (!mx) (by omega) (by omega) (SwitchTurn_difficulty g)
              (SwitchTurn_validBoard hb) (SwitchTurn_validTurn g) hok
          have hv' : v = v' := by
            have : plainMinimax evaluate (d + 1) g mx aiPlayer = .ok v' := by
              simp only [plainMinimax, hover', hnone, if_true, if_false, Bool.false_eq_true]
              exact hplain'
            rw [hplain] at this
            exact Except.ok.inj this
          subst hv'
          refine ⟨r, st', v, ?_, hplain, hfin, hok', ?_⟩
          · rw [minimax_pass_step evaluate sortSlice f st g _ alpha beta a b mx aiPlayer hb hne hp
              h0 hover' hnone, hcast, hrun]
            simp only [Except.map, SwitchTurn_SwitchTurn hv]
          · intro hsub hts hab
            obtain ⟨hab', htrans⟩ := hmiss hsub hts hab
            obtain ⟨hts', hbr⟩ :=
              hsound (fun n hn => hsub (treeNodes_pass hover' hnone hn)) hts hab'
            exact ⟨hts', htrans r hbr⟩
        · -- the side to move has moves
          obtain ⟨ordered, hord, hpermo⟩ := orderMoves_ok evaluate sortSlice hperm st g
            ((d + 1 : Nat) : Int) aiPlayer hpos hltD hok.2.1 g.current
          have hordne : ordered ≠ [] := by
            intro h
            rw [h] at hpermo
            exact hnone (by rw [← hpermo.length_eq]; rfl)
          have hcontract := fun (mx' : Bool) (m : Move) (hm : m ∈ ordered) =>
            childContract_of_spec evaluate sortSlice aiPlayer z T d f g mx' hover' hb hv
              (fun st g' alpha beta mx'' h1 h2 h3 h4 =>
                ih f st g' alpha beta mx'' (by omega) (by omega) h1 h2 h3 h4)
              (hpermo.mem_iff.mp hm)
          have hnode := plainMinimax_node evaluate aiPlayer d g mx hover' hnone
          rw [hplain] at hnode
          have hvnode := Except.ok.inj hnode
          cases mx with
          | true =>
            obtain ⟨res, hloop, hokr, _, hrt, hrb, hsoundr⟩ :=
              maxLoop_spec evaluate aiPlayer z T (treeNodes (d + 1) g true ⊆ T) _ g
                ((d + 1 : Nat) : Int) b hpos hltD ordered
                (ordered.map (childValue evaluate aiPlayer d g true))
                (forall₂_map_of_forall _ ordered (hcontract true))
                ⊥ Move.zero a st hok bot_lt_top
            have hfinr : res.value.IsFinite := ⟨hrb hordne, hrt⟩
            refine ⟨res.value, _, v,
              minimax_max_step evaluate sortSlice f st g _ alpha beta a b aiPlayer hb hne hp h0
                hover' hnone hord hloop,
              hplain, hfinr, store_StateOK hokr _ _ hfinr, ?_⟩
            intro hsub hts hab
            obtain ⟨hab', htrans⟩ := hmiss hsub hts hab
            obtain ⟨htsr, hbr⟩ := hsoundr hsub hts bot_le hab'
            rw [foldl_max_perm (hpermo.map (childValue evaluate aiPlayer d g true))] at hbr
            simp only [if_true] at hvnode
            rw [← hvnode] at hbr
            obtain ⟨hf1, hf2, hf3, hf4⟩ := storeFlag_sound hab' (le_refl b) hbr
            have hzr : res.st.zobrist = st.zobrist := by rw [hokr.1, hz]
            have hstore := store_TableSound htsr (n := (g, d + 1, true))
              (hsub (treeNodes_self (d + 1) g true))
              (e := { Depth := ((d + 1 : Nat) : Int), Eval := res.value,
                      Flag := storeFlag res.value a b, BestMove := res.bestMove })
              ⟨rfl, v, hplain, hf1, hf2, hf3, hf4⟩
            rw [hzr] at hstore
            exact ⟨hstore, htrans _ hbr⟩
          | false =>
            obtain ⟨res, hloop, hokr, _, hrb, hrt, hbound, hsoundr⟩ :=
              minLoop_spec evaluate aiPlayer z T (treeNodes (d + 1) g false ⊆ T) _ g
                ((d + 1 : Nat) : Int) a hpos hltD ordered
                (ordered.map (childValue evaluate aiPlayer d g false))
                (forall₂_map_of_forall _ ordered (hcontract false))
                ⊤ Move.zero b st hok bot_lt_top
            have hfinr : res.value.IsFinite := ⟨hrb, hrt hordne⟩
            refine ⟨res.value, _, v,
              minimax_min_step evaluate sortSlice f st g _ alpha beta a b aiPlayer hb hne hp h0
                hover' hnone hord hloop,
              hplain, hfinr, store_StateOK hokr _ _ hfinr, ?_⟩
            intro hsub hts hab
            obtain ⟨hab', htrans⟩ := hmiss hsub hts hab
            obtain ⟨htsr, hbr⟩ := hsoundr hsub hts le_top hab'
            rw [foldl_min_perm (hpermo.map (childValue evaluate aiPlayer d g false))] at hbr
            simp only [Bool.false_eq_true, if_false] at hvnode
            rw [← hvnode] at hbr
            obtain ⟨hf1, hf2, hf3, hf4⟩ := storeFlag_sound hab' hbound hbr
            have hzr : res.st.zobrist = st.zobrist := by rw [hokr.1, hz]
            have hstore := store_TableSound htsr (n := (g, d + 1, false))
              (hsub (treeNodes_self (d + 1) g false))
              (e := { Depth := ((d + 1 : Nat) : Int), Eval := res.value,
                      Flag := storeFlag res.value a res.bound, BestMove := res.bestMove })
              ⟨rfl, v, hplain, hf1, hf2, hf3, hf4⟩
            rw [hzr] at hstore
            exact ⟨hstore, htrans _ hbr⟩

/-! ## Insertion sort permutes -/

theorem bubble_perm (less : MoveEval → MoveEval → Bool) (x : MoveEval) :
    ∀ l : List MoveEval, (bubble less x l).Perm (x :: l)
  | [] => List.Perm.refl _
  | y :: rest => by
    unfold bubble
    split
    · exact ((bubble_perm less x rest).cons y).trans (List.Perm.swap x y rest)
    · exact List.Perm.refl _

theorem insertionSort_foldl_perm (less : MoveEval → MoveEval → Bool) :
    ∀ (xs sorted : List MoveEval),
      (xs.foldl (fun sorted x => bubble less x sorted) sorted).Perm (xs.reverse ++ sorted)
  | [], sorted => by simp
  | x :: xs, sorted => by
    rw [List.foldl_cons]
    refine (insertionSort_foldl_perm less xs (bubble less x sorted)).trans ?_
    rw [List.reverse_cons, List.append_assoc]
    exact List.Perm.append_left _ (bubble_perm less x sorted)

theorem insertionSort_permutes : SortPermutes insertionSort := by
  intro less l
  unfold insertionSort
  refine (List.reverse_perm _).trans ?_
  have := insertionSort_foldl_perm less l []
  rw [List.append_nil] at this
  exact this.trans (List.reverse_perm l)

/-! ## `minimax` from a fresh state -/

theorem freshState_ok (z : Zobrist) {D : Int} (hD : 0 ≤ D) : StateOK z D (freshState z D) := by
  refine ⟨rfl, ?_, ?_⟩
  · simp only [freshState, List.length_replicate]
    omega
  · intro k e h
    simp [freshState] at h

theorem freshState_sound (evaluate : Game → Int → ℚ) (aiPlayer : Int) (T : List Node)
    (z : Zobrist) (D : Int) : TableSound evaluate aiPlayer T (freshState z D) := by
  intro k e h
  simp [freshState] at h

theorem minimax_fresh_eq_plain (evaluate : Game → Int → ℚ) (sortSlice : SortSlice)
    (hperm : SortPermutes sortSlice) (aiPlayer : Int) (z : Zobrist) (g : Game) (d fuel : Nat)
    (mx : Bool) (hfuel : d < fuel) (hd : (d : Int) < g.difficulty) (hb : ValidBoard g.board)
    (hv : ValidTurn g) (hinj : DistinctFingerprints z (treeNodes d g mx)) :
    ∃ v, plainMinimax evaluate d g mx aiPlayer = .ok v ∧
      scoreOf (minimax evaluate sortSlice fuel (freshState z g.difficulty) g d ⊥ ⊤ mx aiPlayer)
        = some v := by
  obtain ⟨r, st', v, hrun, hplain, hfin, _, hsound⟩ :=
    minimax_spec evaluate sortSlice hperm aiPlayer z g.difficulty (treeNodes d g mx) hinj d fuel
      (freshState z g.difficulty) g ⊥ ⊤ mx hfuel hd rfl hb hv (freshState_ok z (by omega))
  obtain ⟨_, hlow, hhigh⟩ := hsound (fun _ h => h) (freshState_sound _ _ _ _ _) bot_lt_top
  have hrv : r = v := le_antisymm (hlow hfin.1) (hhigh hfin.2)
  subst hrv
  exact ⟨r, hplain, by rw [hrun]; rfl⟩

/-! ## The root loop of `AIMove` -/

theorem rootLoop_last (search : SearchState → Game → Except Fault (Score × SearchState))
    (g : Game) (depth : Int) (hlast : depth = g.difficulty) (m : Move) (rest : List Move)
    (cbm : Move) (cbs : Score) (st : SearchState) (log : List RootSearch)
    {ng : Game} (hsim : SimulateMove g m true = .ok ng) {s : Score} {st' : SearchState}
    (hs : search st ng = .ok (s, st')) :
    rootLoop search g depth (m :: rest) cbm cbs st log
      = .ok ⟨cbm, cbs, st', log ++ [⟨depth, m, s, false⟩]⟩ := by
  simp only [rootLoop, hsim, hs, bind, Except.bind, hlast, if_true]
  rfl

theorem rootLoop_full (search : SearchState → Game → Except Fault (Score × SearchState))
    (g : Game) (depth : Int) (hne : ¬ depth = g.difficulty) (z : Zobrist) :
    ∀ (moves : List Move),
      (∀ m ∈ moves, ∃ ng, SimulateMove g m true = .ok ng ∧
        ∀ st, StateOK z g.difficulty st →
          ∃ s st', search st ng = .ok (s, st') ∧ s.IsFinite ∧ StateOK z g.difficulty st') →
      ∀ (cbm : Move) (cbs : Score) (st : SearchState) (log : List RootSearch),
        StateOK z g.difficulty st →
        ∃ (res : RootResult) (scores : List Score),
          rootLoop search g depth moves cbm cbs st log = .ok res ∧
          StateOK z g.difficulty res.st ∧ scores.length = moves.length ∧
          (∀ s ∈ scores, s.IsFinite) ∧
          res.log = log ++ iterationLog depth moves scores ∧
          (∀ s ∈ scores, s ≤ res.currentBestScore) ∧ cbs ≤ res.currentBestScore ∧
          ((res.currentBestMove = cbm ∧ res.currentBestScore = cbs) ∨
            (cbs < res.currentBestScore ∧
              ∃ i : Nat, moves[i]? = some res.currentBestMove ∧
                scores[i]? = some res.currentBestScore ∧
                ∀ j : Nat, j < i → ∀ t, scores[j]? = some t → t < res.currentBestScore)) := by
  intro moves
  induction moves with
  | nil =>
    intro _ cbm cbs st log hok
    exact ⟨⟨cbm, cbs, st, log⟩, [], rfl, hok, rfl, by simp, by simp [iterationLog], by simp,
      le_refl _, Or.inl ⟨rfl, rfl⟩⟩
  | cons m rest ih =>
    intro hall cbm cbs st log hok
    obtain ⟨ng, hsim, hsearch⟩ := hall m (List.mem_cons_self _ _)
    obtain ⟨s, st1, hs, hsfin, hok1⟩ := hsearch st hok
    have hrest := fun m' hm' => hall m' (List.mem_cons_of_mem _ hm')
    by_cases hgt : s > cbs
    · obtain ⟨res, scores, hrun, hokr, hlen, hfin, hlog, hmax, hle, hsel⟩ :=
        ih hrest m s st1 (log ++ [⟨depth, m, s, true⟩]) hok1
      refine ⟨res, s :: scores, ?_, hokr, by simp [hlen], ?_, ?_, ?_,
        le_trans (le_of_lt hgt) hle, Or.inr ⟨lt_of_lt_of_le hgt hle, ?_⟩⟩
      · simp only [rootLoop, hsim, hs, bind, Except.bind, hne, if_false]
        rw [if_pos hgt]; exact hrun
      · intro t ht
        rcases List.mem_cons.mp ht with rfl | h
        · exact hsfin
        · exact hfin t h
      · rw [hlog]; simp [iterationLog]
      · intro t ht
        rcases List.mem_cons.mp ht with rfl | h
        · exact hle
        · exact hmax t h
      · rcases hsel with ⟨h1, h2⟩ | ⟨hlt, i, h1, h2, h3⟩
        · refine ⟨0, by simp [h1], by simp [h2], ?_⟩
          intro j hj; omega
        · refine ⟨i + 1, by simpa using h1, by simpa using h2, ?_⟩
          intro j hj t ht
          cases j with
          | zero =>
            simp only [List.getElem?_cons_zero, Option.some.injEq] at ht
            rw [← ht]; exact hlt
          | succ j =>
            simp only [List.getElem?_cons_succ] at ht
            exact h3 j (by omega) t ht
    · obtain ⟨res, scores, hrun, hokr, hlen, hfin, hlog, hmax, hle, hsel⟩ :=
        ih hrest cbm cbs st1 (log ++ [⟨depth, m, s, true⟩]) hok1
      refine ⟨res, s :: scores, ?_, hokr, by simp [hlen], ?_, ?_, ?_, hle, ?_⟩
      · simp only [rootLoop, hsim, hs, bind, Except.bind, hne, if_false]
        rw [if_neg hgt]; exact hrun
      · intro t ht
        rcases List.mem_cons.mp ht with rfl | h
        · exact hsfin
        · exact hfin t h
      · rw [hlog]; simp [iterationLog]
      · intro t ht
        rcases List.mem_cons.mp ht with rfl | h
        · exact le_trans (not_lt.mp hgt) hle
        · exact hmax t h
      · rcases hsel with h | ⟨hlt, i, h1, h2, h3⟩
        · exact Or.inl h
        · refine Or.inr ⟨hlt, i + 1, by simpa using h1, by simpa using h2, ?_⟩
          intro j hj t ht
          cases j with
          | zero =>
            simp only [List.getElem?_cons_zero, Option.some.injEq] at ht
            rw [← ht]; exact lt_of_le_of_lt (not_lt.mp hgt) hlt
          | succ j =>
            simp only [List.getElem?_cons_succ] at ht
            exact h3 j (by omega) t ht

theorem distinctFingerprints_nil (z : Zobrist) : DistinctFingerprints z [] := by
  intro n h; cases h

/-- The call the root loop of `AIMove` makes for a legal move succeeds. -/
theorem root_search_ok (evaluate : Game → Int → ℚ) (sortSlice : SortSlice)
    (hperm : SortPermutes sortSlice) (aiPlayer : Int) (z : Zobrist) (g : Game) (mfuel : Nat)
    (hb : ValidBoard g.board) (hv : ValidTurn g) (hmf : g.difficulty ≤ mfuel) (depth : Int)
    (h1 : 1 ≤ depth) (hD : depth ≤ g.difficulty) {m : Move} {player : Int}
    (hm : m ∈ ValidMoves g player) :
    ∃ ng, SimulateMove g m true = .ok ng ∧
      ∀ st, StateOK z g.difficulty st →
        ∃ s st',
          (do let r ← minimax evaluate sortSlice mfuel st ng (depth - 1) ⊥ ⊤ false aiPlayer
              pure (r.1, r.2.2) : Except Fault (Score × SearchState)) = .ok (s, st') ∧
          s.IsFinite ∧ StateOK z g.difficulty st' := by
  refine ⟨childOf g m, SimulateMove_child hm, ?_⟩
  intro st hok
  have hcast : (((depth - 1).toNat : Nat) : Int) = depth - 1 := by omega
  obtain ⟨r, st', _, hrun, _, hfin, hok', _⟩ :=
    minimax_spec evaluate sortSlice hperm aiPlayer z g.difficulty [] (distinctFingerprints_nil z)
      (depth - 1).toNat mfuel st (childOf g m) ⊥ ⊤ false (by omega) (by omega)
      (childOf_difficulty g m) (childOf_validBoard hb hv m) (childOf_validTurn g m) hok
  rw [hcast] at hrun
  exact ⟨r, st', by simp only [hrun, bind, Except.bind]; rfl, hfin, hok'⟩

theorem filter_iterationLog_same (d : Int) :
    ∀ (moves : List Move) (scores : List Score),
      (iterationLog d moves scores).filter (fun e => decide (e.depth = d))
        = iterationLog d moves scores := by
  intro moves scores
  apply List.filter_eq_self.mpr
  intro e he
  unfold iterationLog at he
  obtain ⟨i, _, rfl⟩ := List.mem_iff_getElem.mp he
  simp

theorem filter_iterationLog_other {d d' : Int} (hne : d ≠ d') :
    ∀ (moves : List Move) (scores : List Score),
      (iterationLog d moves scores).filter (fun e => decide (e.depth = d')) = [] := by
  intro moves scores
  apply List.filter_eq_nil_iff.mpr
  intro e he
  unfold iterationLog at he
  obtain ⟨i, _, rfl⟩ := List.mem_iff_getElem.mp he
  simpa using hne

theorem mem_iterationLog (d : Int) :
    ∀ (moves : List Move) (scores : List Score), scores.length = moves.length →
      ∀ m ∈ moves, ∃ e ∈ iterationLog d moves scores,
        e.depth = d ∧ e.move = m ∧ e.compared = true := by
  intro moves
  induction moves with
  | nil => intro _ _ m hm; cases hm
  | cons a rest ih =>
    intro scores hlen m hm
    cases scores with
    | nil => simp at hlen
    | cons s srest =>
      rcases List.mem_cons.mp hm with rfl | h
      · exact ⟨⟨d, m, s, true⟩, by simp [iterationLog], rfl, rfl, rfl⟩
      · obtain ⟨e, he, h1, h2, h3⟩ := ih srest (by simpa using hlen) m h
        exact ⟨e, by simp only [iterationLog, List.zipWith_cons_cons] at he ⊢
                     exact List.mem_cons_of_mem _ he, h1, h2, h3⟩

theorem iterationLog_depth {d : Int} {moves : List Move} {scores : List Score} {e : RootSearch}
    (he : e ∈ iterationLog d moves scores) : e.depth = d := by
  unfold iterationLog at he
  obtain ⟨i, _, rfl⟩ := List.mem_iff_getElem.mp he
  simp

/-- The iterative-deepening loop of `AIMove`, started at `depth` with `n`
complete iterations to go before the one at `depth = difficulty`. -/
theorem deepen_spec (evaluate : Game → Int → ℚ) (sortSlice : SortSlice)
    (hperm : SortPermutes sortSlice) (aiPlayer : Int) (z : Zobrist) (g : Game) (mfuel : Nat)
    (hb : ValidBoard g.board) (hv : ValidTurn g) (hmf : g.difficulty ≤ mfuel)
    (hmoves : ValidMoves g g.current ≠ []) :
    ∀ (n : Nat) (depth : Int) (fuel : Nat) (bestMove : Move) (st : SearchState)
      (log : List RootSearch),
      depth + n = g.difficulty → 1 ≤ depth → n < fuel → StateOK z g.difficulty st →
      ∃ (best : Move) (st' : SearchState) (log' : List RootSearch) (scores : List Score),
        deepen evaluate sortSlice mfuel g (ValidMoves g g.current) aiPlayer fuel depth bestMove
          st log = .ok (best, st', log') ∧
        StateOK z g.difficulty st' ∧
        (∀ e ∈ log, e ∈ log') ∧
        (∀ k, depth ≤ k → k < g.difficulty → ∀ m ∈ ValidMoves g g.current,
          ∃ e ∈ log', e.depth = k ∧ e.move = m ∧ e.compared = true) ∧
        (n = 0 → best = bestMove) ∧
        (0 < n → scores.length = (ValidMoves g g.current).length ∧
          (∀ s ∈ scores, s.IsFinite) ∧ FirstMax (ValidMoves g g.current) scores best) ∧
        log'.filter (fun e => decide (e.depth = g.difficulty - 1)) =
          log.filter (fun e => decide (e.depth = g.difficulty - 1)) ++
            (if 0 < n then iterationLog (g.difficulty - 1) (ValidMoves g g.current) scores
             else []) ∧
        (∀ e ∈ log', e ∈ log ∨ (depth ≤ e.depth ∧ e.depth ≤ g.difficulty ∧
          (e.depth = g.difficulty →
            e.compared = false ∧ (ValidMoves g g.current).head? = some e.move))) := by
  intro n
  induction n with
  | zero =>
    intro depth fuel bestMove st log hdn h1 hfuel hok
    obtain ⟨f, rfl⟩ : ∃ f, fuel = f + 1 := ⟨fuel - 1, by omega⟩
    have hlast : depth = g.difficulty := by omega
    obtain ⟨m0, rest, hmv⟩ := List.exists_cons_of_ne_nil hmoves
    have hm0 : m0 ∈ ValidMoves g g.current := by rw [hmv]; exact List.mem_cons_self _ _
    obtain ⟨ng, hsim, hsearch⟩ := root_search_ok evaluate sortSlice hperm aiPlayer z g mfuel hb hv
      hmf depth h1 (by omega) hm0
    obtain ⟨s, st', hs, _, hok'⟩ := hsearch st hok
    have hroot := rootLoop_last
      (fun st newGame => do
        let r ← minimax evaluate sortSlice mfuel st newGame (depth - 1) ⊥ ⊤ false aiPlayer
        pure (r.1, r.2.2))
      g depth hlast m0 rest Move.zero ⊥ st log hsim hs
    refine ⟨bestMove, st', log ++ [⟨depth, m0, s, false⟩], [], ?_, hok',
      fun e he => List.mem_append_left _ he, ?_, fun _ => rfl, fun h => absurd h (lt_irrefl _),
      ?_, ?_⟩
    · rw [deepen, hmv]
      simp only [bind, Except.bind] at hroot ⊢
      rw [hroot]
      simp only [hlast, if_true]
      rfl
    · intro k hk1 hk2; omega
    · rw [List.filter_append]
      have : ¬ depth = g.difficulty - 1 := by omega
      simp [this]
    · intro e he
      rcases List.mem_append.mp he with h | h
      · exact Or.inl h
      · rw [List.mem_singleton] at h
        subst h
        exact Or.inr ⟨le_refl _, le_of_eq hlast, fun _ => ⟨rfl, by rw [hmv]; rfl⟩⟩
  | succ n ih =>
    intro depth fuel bestMove st log hdn h1 hfuel hok
    obtain ⟨f, rfl⟩ : ∃ f, fuel = f + 1 := ⟨fuel - 1, by omega⟩
    have hne : ¬ depth = g.difficulty := by omega
    obtain ⟨res, scores, hroot, hokr, hlen, hfin, hlog, hmax, _, hsel⟩ := rootLoop_full
      (fun st newGame => do
        let r ← minimax evaluate sortSlice mfuel st newGame (depth - 1) ⊥ ⊤ false aiPlayer
        pure (r.1, r.2.2))
      g depth hne z (ValidMoves g g.current)
      (fun m hm => root_search_ok evaluate sortSlice hperm aiPlayer z g mfuel hb hv hmf depth h1
        (by omega) hm)
      Move.zero ⊥ st log hok
    obtain ⟨best, st', log', scores', hrun, hok', hmono, hall, hzero, hpos, hfilter, hlastlog⟩ :=
      ih (depth + 1) f res.currentBestMove res.st res.log (by omega) (by omega) (by omega) hokr
    have hlast' : ∀ e ∈ log', e ∈ log ∨ (depth ≤ e.depth ∧ e.depth ≤ g.difficulty ∧
        (e.depth = g.difficulty →
          e.compared = false ∧ (ValidMoves g g.current).head? = some e.move)) := by
      intro e he
      rcases hlastlog e he with h | ⟨h1, h2, h3⟩
      · rw [hlog] at h
        rcases List.mem_append.mp h with h' | h'
        · exact Or.inl h'
        · have hd := iterationLog_depth h'
          exact Or.inr ⟨le_of_eq hd.symm, by omega, fun h => absurd (hd.symm.trans h) hne⟩
      · exact Or.inr ⟨by omega, h2, h3⟩
    have hstep : deepen evaluate sortSlice mfuel g (ValidMoves g g.current) aiPlayer (f + 1) depth
        bestMove st log = .ok (best, st', log') := by
      rw [deepen]
      simp only [bind, Except.bind] at hroot ⊢
      rw [hroot]
      simp only [hne, if_false]
      exact hrun
    have hfirst : FirstMax (ValidMoves g g.current) scores res.currentBestMove := by
      rcases hsel with ⟨_, hbot⟩ | ⟨_, i, hi1, hi2, hi3⟩
      · exfalso
        obtain ⟨m0, rest, hmv⟩ := List.exists_cons_of_ne_nil hmoves
        cases scores with
        | nil => rw [hmv] at hlen; simp at hlen
        | cons s srest =>
          have h2 := hmax s (List.mem_cons_self _ _)
          rw [hbot] at h2
          exact absurd (lt_of_lt_of_le (hfin s (List.mem_cons_self _ _)).1 h2) (lt_irrefl _)
      · exact ⟨i, res.currentBestScore, hi1, hi2, hmax, hi3⟩
    have hmem_res : ∀ e ∈ res.log, e ∈ log' := hmono
    by_cases hn : n = 0
    · -- this is the last complete iteration
      subst hn
      have hdepth : depth = g.difficulty - 1 := by omega
      refine ⟨best, st', log', scores, hstep, hok', ?_, ?_, fun h => absurd h (by omega),
        fun _ => ⟨hlen, hfin, by rw [hzero rfl]; exact hfirst⟩, ?_, hlast'⟩
      · intro e he
        exact hmem_res e (by rw [hlog]; exact List.mem_append_left _ he)
      · intro k hk1 hk2 m hm
        have hk : k = depth := by omega
        obtain ⟨e, he, h2, h3, h4⟩ :=
          mem_iterationLog depth (ValidMoves g g.current) scores hlen m hm
        exact ⟨e, hmem_res e (by rw [hlog]; exact List.mem_append_right _ he),
          by rw [hk]; exact h2, h3, h4⟩
      · rw [hfilter, hlog, List.filter_append, ← hdepth, filter_iterationLog_same]
        simp
    · have hnpos : 0 < n := Nat.pos_of_ne_zero hn
      obtain ⟨hlen', hfin', hfirst'⟩ := hpos hnpos
      refine ⟨best, st', log', scores', hstep, hok', ?_, ?_, fun h => absurd h (by omega),
        fun _ => ⟨hlen', hfin', hfirst'⟩, ?_, hlast'⟩
      · intro e he
        exact hmem_res e (by rw [hlog]; exact List.mem_append_left _ he)
      · intro k hk1 hk2 m hm
        by_cases hk : k = depth
        · obtain ⟨e, he, h2, h3, h4⟩ :=
            mem_iterationLog depth (ValidMoves g g.current) scores hlen m hm
          exact ⟨e, hmem_res e (by rw [hlog]; exact List.mem_append_right _ he),
            by rw [hk]; exact h2, h3, h4⟩
        · exact hall k (by omega) hk2 m hm
      · rw [hfilter, hlog, List.filter_append,
          filter_iterationLog_other (show depth ≠ g.difficulty - 1 by omega)]
        simp [hnpos]

/-! ## `AIMove`: the heuristic path -/

theorem MakeMove_zero (g : Game) :
    MakeMove g Move.zero true = .ok
      (SwitchTurn { g with board := movedBoard g.board Move.zero g.current,
                           moveCount := g.moveCount + 1 }) := by
  have h := MakeMove_eq g Move.zero true (by decide) (by intro c hc; cases hc)
  rw [if_pos rfl] at h
  exact h

theorem firstMax_mem {moves : List Move} {scores : List Score} {best : Move}
    (h : FirstMax moves scores best) : best ∈ moves := by
  obtain ⟨i, _, hi, _⟩ := h
  exact List.getElem?_mem hi

theorem AIMove_heuristic (evaluate : Game → Int → ℚ) (sortSlice : SortSlice)
    (hperm : SortPermutes sortSlice) (fuel : Nat) (fresh : Zobrist) (g : Game)
    (st : SearchState) (hb : ValidBoard g.board) (hv : ValidTurn g)
    (hmoves : ValidMoves g g.current ≠ []) (hempty : 12 < CountEmptySquares g)
    (hD : 1 ≤ g.difficulty) (hfuel : g.difficulty ≤ fuel) :
    ∃ (r : AIResult) (best : Move) (scores : List Score),
      AIMove evaluate sortSlice fuel fresh g st = .ok r ∧
      MakeMove g best true = .ok r.game ∧
      (∀ k, 1 ≤ k → k < g.difficulty → ∀ m ∈ ValidMoves g g.current,
        ∃ e ∈ r.log, e.depth = k ∧ e.move = m ∧ e.compared = true) ∧
      (g.difficulty = 1 → best = Move.zero) ∧
      (2 ≤ g.difficulty → scores.length = (ValidMoves g g.current).length ∧
        (∀ s ∈ scores, s.IsFinite) ∧ FirstMax (ValidMoves g g.current) scores best ∧
        r.log.filter (fun e => decide (e.depth = g.difficulty - 1)) =
          iterationLog (g.difficulty - 1) (ValidMoves g g.current) scores) ∧
      (∀ e ∈ r.log, 1 ≤ e.depth ∧ e.depth ≤ g.difficulty ∧
        (e.depth = g.difficulty →
          e.compared = false ∧ (ValidMoves g g.current).head? = some e.move)) := by
  obtain ⟨best, st', log', scores, hrun, _, _, hall, hzero, hpos, hfilter, hlastlog⟩ :=
    deepen_spec evaluate sortSlice hperm g.current fresh g fuel hb hv hfuel hmoves
      (g.difficulty - 1).toNat 1 fuel Move.zero (freshState fresh g.difficulty) []
      (by omega) (le_refl _) (by omega) (freshState_ok fresh (by omega))
  have hmk : ∃ g', MakeMove g best true = .ok g' := by
    by_cases h1 : g.difficulty = 1
    · have : (g.difficulty - 1).toNat = 0 := by omega
      rw [hzero this]
      exact ⟨_, MakeMove_zero g⟩
    · have : 0 < (g.difficulty - 1).toNat := by omega
      exact ⟨_, MakeMove_valid (firstMax_mem (hpos this).2.2) true⟩
  obtain ⟨g', hg'⟩ := hmk
  have hlen : ¬ ((ValidMoves g g.current).length = 0) := by
    rw [List.length_eq_zero]; exact hmoves
  refine ⟨⟨g', st', log'⟩, best, scores, ?_, hg', hall, ?_, ?_, ?_⟩
  · unfold AIMove
    simp only [hlen, if_false, not_lt.mpr (show (0 : Int) ≤ g.difficulty by omega),
      not_le.mpr hempty, hrun, bind, Except.bind, hg']
    rfl
  · intro h1
    exact hzero (by omega)
  · intro h2
    have hn : 0 < (g.difficulty - 1).toNat := by omega
    obtain ⟨h3, h4, h5⟩ := hpos hn
    refine ⟨h3, h4, h5, ?_⟩
    rw [hfilter, if_pos hn]
    rfl
  · intro e he
    rcases hlastlog e he with h | h
    · cases h
    · exact h

/-! ## The example position of the transposition table -/

set_option maxRecDepth 1000000 in
theorem transpositionExample_fingerprints :
    ∀ n₁ ∈ treeNodes 5 transpositionExample false,
      ∀ n₂ ∈ treeNodes 5 transpositionExample false,
        zobristHash exampleZobrist n₁.1 = zobristHash exampleZobrist n₂.1 → n₁.1 = n₂.1 := by
  decide!

set_option maxRecDepth 1000000 in
theorem transpositionExample_minimax :
    scoreOf (minimax Evaluate insertionSort 6 (freshState exampleZobrist 7)
      transpositionExample 5 ⊥ ⊤ false Black) = some (Score.ofRat (26241 / 8)) := by
  decide!

set_option maxRecDepth 1000000 in
theorem transpositionExample_plain :
    (plainMinimax Evaluate 5 transpositionExample false Black).toOption
      = some (Score.ofRat (198896 / 63)) := by
  decide!

/-! ## The fingerprint -/

theorem computeZobristHash_congr (z : Zobrist) {g₁ g₂ : Game} (hb : g₁.board = g₂.board)
    (hc : g₁.current = g₂.current) :
    computeZobristHash z g₁ = computeZobristHash z g₂ := by
  unfold computeZobristHash
  simp only [hb, hc]

theorem foldl_xor_shift {α : Type} (f : α → Nat) (l : List α) (h0 k : Nat) :
    l.foldl (fun h c => h ^^^ f c) (h0 ^^^ k) = l.foldl (fun h c => h ^^^ f c) h0 ^^^ k := by
  induction l generalizing h0 with
  | nil => rfl
  | cons a rest ih =>
    simp only [List.foldl_cons]
    rw [← ih]
    congr 1
    rw [Nat.xor_assoc, Nat.xor_comm k, ← Nat.xor_assoc]

theorem foldl_xor_congr {α : Type} (f f' : α → Nat) (l : List α) (h0 : Nat)
    (h : ∀ c ∈ l, f' c = f c) :
    l.foldl (fun h c => h ^^^ f' c) h0 = l.foldl (fun h c => h ^^^ f c) h0 := by
  induction l generalizing h0 with
  | nil => rfl
  | cons a rest ih =>
    simp only [List.foldl_cons]
    rw [h a (List.mem_cons_self _ _)]
    exact ih _ (fun c hc => h c (List.mem_cons_of_mem _ hc))

theorem foldl_xor_update {α : Type} (f f' : α → Nat) (c0 : α)
    (hf : ∀ c, c ≠ c0 → f' c = f c) :
    ∀ (l : List α) (h0 : Nat), l.Nodup → c0 ∈ l →
      l.foldl (fun h c => h ^^^ f' c) h0
        = l.foldl (fun h c => h ^^^ f c) h0 ^^^ f c0 ^^^ f' c0 := by
  intro l
  induction l with
  | nil => intro h0 _ hm; cases hm
  | cons a rest ih =>
    intro h0 hnd hm
    rw [List.nodup_cons] at hnd
    simp only [List.foldl_cons]
    by_cases ha : a = c0
    · subst ha
      rw [foldl_xor_congr f f' rest _ (fun c hc => hf c (fun h => hnd.1 (h ▸ hc)))]
      rw [foldl_xor_shift, foldl_xor_shift]
      rw [Nat.xor_assoc, Nat.xor_assoc, ← Nat.xor_assoc (f a), Nat.xor_self, Nat.zero_xor]
    · rw [hf a ha]
      rcases List.mem_cons.mp hm with h | h
      · exact absurd h.symm ha
      · exact ih _ hnd.2 h

theorem pieceIndex_fin (a : Fin 3) : pieceIndex (((a : Nat) : Int)) = a := by
  fin_cases a <;> rfl

theorem zobristHash_set (z : Zobrist) (g g' : Game) (x y : Fin 8)
    (hrest : ∀ i j, (i, j) ≠ (x, y) → g'.board i j = g.board i j)
    (hc : g'.current = g.current) :
    zobristHash z g' = zobristHash z g ^^^ z.table x y (pieceIndex (g.board x y))
      ^^^ z.table x y (pieceIndex (g'.board x y)) := by
  have h := foldl_xor_update
    (fun c : Fin 8 × Fin 8 => z.table c.1 c.2 (pieceIndex (g.board c.1 c.2)))
    (fun c : Fin 8 × Fin 8 => z.table c.1 c.2 (pieceIndex (g'.board c.1 c.2)))
    (x, y) (fun c hcne => by simp only; rw [hrest c.1 c.2 hcne])
    allCells 0 allCells_nodup (mem_allCells _)
  unfold zobristHash
  simp only at h ⊢
  rw [hc, h]
  split
  · simp only [Nat.xor_assoc, Nat.xor_comm z.turn]
  · rfl

theorem xor_xor_ne {h a b : Nat} (hab : a ≠ b) : h ^^^ a ^^^ b ≠ h := by
  intro heq
  apply hab
  have h1 : h ^^^ (h ^^^ a ^^^ b) = h ^^^ h := by rw [heq]
  rw [Nat.xor_assoc, ← Nat.xor_assoc h h, Nat.xor_self, Nat.zero_xor] at h1
  exact Nat.xor_eq_zero.mp h1

/-! ## The table lookup of `minimax` -/

theorem minimax_hit_hash (evaluate : Game → Int → ℚ) (sortSlice : SortSlice) (fuel : Nat)
    (st : SearchState) (g : Game) (depth : Int) (alpha beta r : Score) (mx : Bool)
    (aiPlayer : Int) (h : Nat) (hne : ¬ depth = g.difficulty)
    (hh : computeZobristHash st.zobrist g = .ok h)
    (hp : probe (st.transpositionTable h) depth alpha beta = Probe.hit r) :
    minimax evaluate sortSlice (fuel + 1) st g depth alpha beta mx aiPlayer = .ok (r, g, st) := by
  rw [minimax]
  simp only [hne, if_false, hh, bind, Except.bind, hp]
  rfl

theorem probe_exact {e : TTEntry} {d : Int} (hd : e.Depth ≥ d) (hf : e.Flag = Exact)
    (alpha beta : Score) : probe (some e) d alpha beta = Probe.hit e.Eval := by
  unfold probe
  simp only [hd, hf, if_true]

theorem probe_some_hit_iff (e : TTEntry) (d : Int) (alpha beta s : Score)
    (hflag : e.Flag = Exact ∨ e.Flag = LowerBound ∨ e.Flag = UpperBound) :
    probe (some e) d alpha beta = Probe.hit s ↔
      e.Depth ≥ d ∧ s = e.Eval ∧
        (e.Flag = Exact ∨ (e.Flag = LowerBound ∧ max alpha e.Eval ≥ beta) ∨
          (e.Flag = UpperBound ∧ alpha ≥ min beta e.Eval)) := by
  unfold probe
  simp only
  by_cases h1 : e.Depth ≥ d
  · rw [if_pos h1]
    rcases hflag with hf | hf | hf
    · rw [if_pos hf]
      constructor
      · intro h; exact ⟨h1, (Probe.hit.inj h).symm, Or.inl hf⟩
      · rintro ⟨_, hs, _⟩; rw [hs]
    · have hne : ¬ e.Flag = Exact := by rw [hf]; exact flags_ne.1.symm
      rw [if_neg hne, (narrow_lower hf alpha beta).1, (narrow_lower hf alpha beta).2]
      by_cases hc : max alpha e.Eval ≥ beta
      · rw [if_pos hc]
        constructor
        · intro h; exact ⟨h1, (Probe.hit.inj h).symm, Or.inr (Or.inl ⟨hf, hc⟩)⟩
        · rintro ⟨_, hs, _⟩; rw [hs]
      · rw [if_neg hc]
        constructor
        · intro h; cases h
        · rintro ⟨_, _, h | ⟨_, h⟩ | ⟨h, _⟩⟩
          · exact absurd h hne
          · exact absurd h hc
          · rw [hf] at h; exact absurd h flags_ne.2.2
    · have hne : ¬ e.Flag = Exact := by rw [hf]; exact flags_ne.2.1.symm
      rw [if_neg hne, (narrow_upper hf alpha beta).1, (narrow_upper hf alpha beta).2]
      by_cases hc : alpha ≥ min beta e.Eval
      · rw [if_pos hc]
        constructor
        · intro h; exact ⟨h1, (Probe.hit.inj h).symm, Or.inr (Or.inr ⟨hf, hc⟩)⟩
        · rintro ⟨_, hs, _⟩; rw [hs]
      · rw [if_neg hc]
        constructor
        · intro h; cases h
        · rintro ⟨_, _, h | ⟨h, _⟩ | ⟨_, h⟩⟩
          · exact absurd h hne
          · rw [hf] at h; exact absurd h.symm flags_ne.2.2
          · exact absurd h hc
  · rw [if_neg h1]
    constructor
    · intro h; cases h
    · rintro ⟨h, _⟩; exact absurd h h1

theorem minimax_at_difficulty (evaluate : Game → Int → ℚ) (sortSlice : SortSlice) (fuel : Nat)
    (st : SearchState) (g : Game) (alpha beta : Score) (mx : Bool) (aiPlayer : Int) :
    minimax evaluate sortSlice (fuel + 1) st g g.difficulty alpha beta mx aiPlayer
      = .ok (Score.ofRat 0, g, st) := by
  rw [minimax]
  simp only [if_true]
  rfl

/-! ## The game handed to a search is handed back -/

theorem minimax_game_eq (evaluate : Game → Int → ℚ) (sortSlice : SortSlice) (aiPlayer : Int) :
    ∀ (fuel : Nat) (st : SearchState) (g : Game) (depth : Int) (alpha beta : Score) (mx : Bool)
      (r : Score) (g' : Game) (st' : SearchState),
      ValidTurn g →
      minimax evaluate sortSlice fuel st g depth alpha beta mx aiPlayer = .ok (r, g', st') →
      g' = g := by
  intro fuel
  induction fuel with
  | zero => intro st g depth alpha beta mx r g' st' _ h; cases h
  | succ fuel ih =>
    intro st g depth alpha beta mx r g' st' hv h
    rw [minimax] at h
    split at h
    · cases h; rfl
    · cases hh : computeZobristHash st.zobrist g with
      | error e => rw [hh] at h; cases h
      | ok hashKey =>
        rw [hh] at h
        simp only [bind, Except.bind] at h
        split at h
        · cases h; rfl
        · split at h
          · cases h; rfl
          · split at h
            · split at h
              · cases h
              · rename_i r0 hr0
                cases h
                have := ih st (SwitchTurn g) (depth - 1) _ _ (!mx) r0.1 r0.2.1 r0.2.2
                  (SwitchTurn_validTurn g) hr0
                rw [this]
                exact SwitchTurn_SwitchTurn hv
            · split at h
              · cases h
              · split at h
                · split at h
                  · cases h
                  · cases h; rfl
                · split at h
                  · cases h
                  · cases h; rfl

theorem minimaxEndgame_game_eq (aiPlayer : Int) :
    ∀ (fuel : Nat) (g : Game) (alpha beta : Score) (mx : Bool) (r : Score) (g' : Game),
      ValidTurn g → minimaxEndgame fuel g alpha beta mx aiPlayer = .ok (r, g') → g' = g := by
  intro fuel
  induction fuel with
  | zero => intro g alpha beta mx r g' _ h; cases h
  | succ fuel ih =>
    intro g alpha beta mx r g' hv h
    rw [minimaxEndgame] at h
    split at h
    · cases h; rfl
    · simp only [bind, Except.bind] at h
      split at h
      · split at h
        · cases h
        · rename_i r0 hr0
          cases h
          have := ih (SwitchTurn g) _ _ (!mx) r0.1 r0.2 (SwitchTurn_validTurn g) hr0
          rw [this]
          exact SwitchTurn_SwitchTurn hv
      · split at h
        · split at h
          · cases h
          · cases h; rfl
        · split at h
          · cases h
          · cases h; rfl

/-! ## The entry stored by an expanded node -/

theorem minLoop_bound_le
    (search : SearchState → Game → Score → Score → Except Fault (Score × SearchState))
    (game : Game) (depth : Int) (alpha : Score) (hne : ¬ depth = game.difficulty) :
    ∀ (moves : List Move) (value : Score) (bestMove : Move) (beta : Score) (st : SearchState)
      (l : LoopResult),
      minLoop search game depth alpha moves value bestMove beta st = .ok l →
      (moves ≠ [] ∨ beta ≤ value) → l.bound ≤ l.value := by
  intro moves
  induction moves with
  | nil =>
    intro value bestMove beta st l h hor
    rw [minLoop] at h
    cases h
    rcases hor with h | h
    · exact absurd rfl h
    · exact h
  | cons m rest ih =>
    intro value bestMove beta st l h _
    rw [minLoop] at h
    rw [if_neg hne] at h
    simp only [bind, Except.bind] at h
    split at h
    · cases h
    · split at h
      · cases h
      · split at h <;>
        · split at h
          · split at h
            · cases h
            · cases h
              exact min_le_right _ _
          · exact ih _ _ _ _ l h (Or.inr (min_le_right _ _))

theorem minimax_node_entry (evaluate : Game → Int → ℚ) (sortSlice : SortSlice)
    (hperm : SortPermutes sortSlice) (aiPlayer : Int) (z : Zobrist) (d fuel : Nat)
    (st : SearchState) (g : Game) (alpha beta a b : Score) (mx : Bool)
    (hfuel : d ≤ fuel) (hd0 : 0 < d) (hdD : (d : Int) < g.difficulty)
    (hb : ValidBoard g.board) (hv : ValidTurn g) (hok : StateOK z g.difficulty st)
    (hp : probe (st.transpositionTable (zobristHash st.zobrist g)) d alpha beta = Probe.miss a b)
    (hover : IsGameOver g = false) (hsome : ValidMoves g g.current ≠ []) :
    ∃ (ordered : List Move) (l : LoopResult),
      orderMoves evaluate sortSlice st g (ValidMoves g g.current) d aiPlayer = .ok ordered ∧
      (if mx then
          maxLoop
            (fun st newGame a b => do
              let r ← minimax evaluate sortSlice fuel st newGame ((d : Int) - 1) a b false aiPlayer
              pure (r.1, r.2.2))
            g d b ordered ⊥ Move.zero a st
        else
          minLoop
            (fun st newGame a b => do
              let r ← minimax evaluate sortSlice fuel st newGame ((d : Int) - 1) a b true aiPlayer
              pure (r.1, r.2.2))
            g d a ordered ⊤ Move.zero b st) = .ok l ∧
      minimax evaluate sortSlice (fuel + 1) st g d alpha beta mx aiPlayer =
        .ok (l.value, g, l.st.store (zobristHash st.zobrist g)
          { Depth := d, Eval := l.value,
            Flag := storeFlag l.value a (if mx then b else l.bound),
            BestMove := l.bestMove }) := by
  have hne : ¬ (d : Int) = g.difficulty := by omega
  have h0 : ¬ (d : Int) = 0 := by omega
  have hlen : ¬ (ValidMoves g g.current).length = 0 := by
    rw [List.length_eq_zero]; exact hsome
  obtain ⟨r, st', _, hrun, _⟩ :=
    minimax_spec evaluate sortSlice hperm aiPlayer z g.difficulty [] (distinctFingerprints_nil z)
      d (fuel + 1) st g alpha beta mx (by omega) hdD rfl hb hv hok
  obtain ⟨ordered, hord, _⟩ := orderMoves_ok evaluate sortSlice hperm st g d aiPlayer
    (by omega) hdD hok.2.1 g.current
  refine ⟨ordered, ?_⟩
  cases mx with
  | true =>
    cases hloop : maxLoop
        (fun st newGame a b => do
          let r ← minimax evaluate sortSlice fuel st newGame ((d : Int) - 1) a b false aiPlayer
          pure (r.1, r.2.2))
        g d b ordered ⊥ Move.zero a st with
    | error e =>
      exfalso
      rw [minimax] at hrun
      simp only [hne, if_false, computeZobristHash_valid st.zobrist g hb, bind, Except.bind, hp,
        h0, hover, false_or, Bool.false_eq_true, hlen, hord, if_true] at hrun
      simp only [bind, Except.bind] at hloop
      rw [hloop] at hrun
      cases hrun
    | ok l =>
      exact ⟨l, hord, rfl, minimax_max_step evaluate sortSlice fuel st g d alpha beta a b
        aiPlayer hb hne hp h0 hover hlen hord hloop⟩
  | false =>
    cases hloop : minLoop
        (fun st newGame a b => do
          let r ← minimax evaluate sortSlice fuel st newGame ((d : Int) - 1) a b true aiPlayer
          pure (r.1, r.2.2))
        g d a ordered ⊤ Move.zero b st with
    | error e =>
      exfalso
      rw [minimax] at hrun
      simp only [hne, if_false, computeZobristHash_valid st.zobrist g hb, bind, Except.bind, hp,
        h0, hover, false_or, Bool.false_eq_true, hlen, hord] at hrun
      simp only [bind, Except.bind] at hloop
      rw [hloop] at hrun
      cases hrun
    | ok l =>
      exact ⟨l, hord, rfl, minimax_min_step evaluate sortSlice fuel st g d alpha beta a b
        aiPlayer hb hne hp h0 hover hlen hord hloop⟩

/-! ## Cutoff bookkeeping -/

theorem recordCutoff_spec {st st' : SearchState} {move : Move} {depth difficulty : Int}
    (h : recordCutoff st move depth difficulty = .ok st') :
    Recorded st st' move depth difficulty := by
  unfold recordCutoff killerIndex at h
  by_cases hD : difficulty = 0
  · rw [if_pos hD] at h; cases h
  · rw [if_neg hD] at h
    simp only [bind, Except.bind, pure, Except.pure] at h
    split at h
    · rename_i hi
      cases h
      exact ⟨rfl, rfl, fun k => rfl, hi.1, hi.2, rfl⟩
    · cases h

theorem maxLoop_bookkeeping
    (search : SearchState → Game → Score → Score → Except Fault (Score × SearchState))
    (game : Game) (depth : Int) (beta : Score) (hne : ¬ depth = game.difficulty) :
    ∀ (moves : List Move) (value : Score) (bestMove : Move) (alpha : Score) (st : SearchState)
      (l : LoopResult),
      maxLoop search game depth beta moves value bestMove alpha st = .ok l →
      (moves = [] ∧ l.st = st ∧ l.bound = alpha) ∨
      ∃ m ∈ moves, ∃ (stIn : SearchState) (ng : Game) (a s : Score) (stOut : SearchState),
        SimulateMove game m true = .ok ng ∧ search stIn ng a beta = .ok (s, stOut) ∧
        ((l.bound < beta ∧ l.st = stOut) ∨
         (l.bound ≥ beta ∧ Recorded stOut l.st m depth game.difficulty)) := by
  intro moves
  induction moves with
  | nil =>
    intro value bestMove alpha st l h
    rw [maxLoop] at h
    cases h
    exact Or.inl ⟨rfl, rfl, rfl⟩
  | cons m rest ih =>
    intro value bestMove alpha st l h
    right
    rw [maxLoop, if_neg hne] at h
    cases hsim : SimulateMove game m true with
    | error e => rw [hsim] at h; cases h
    | ok ng =>
      cases hs : search st ng alpha beta with
      | error e => rw [hsim] at h; simp only [bind, Except.bind, hs] at h; cases h
      | ok r =>
        rw [hsim] at h
        simp only [bind, Except.bind, hs] at h
        split at h <;>
        · split at h
          · rename_i hcut
            split at h
            · cases h
            · rename_i st2 hrec
              cases h
              exact ⟨m, List.mem_cons_self _ _, st, ng, alpha, r.1, r.2, hsim, hs,
                Or.inr ⟨hcut, recordCutoff_spec hrec⟩⟩
          · rename_i hcut
            rcases ih _ _ _ _ l h with ⟨hnil, hst, hbound⟩ | ⟨m', hm', rest'⟩
            · exact ⟨m, List.mem_cons_self _ _, st, ng, alpha, r.1, r.2, hsim, hs,
                Or.inl ⟨by rw [hbound]; exact not_le.mp hcut, hst⟩⟩
            · exact ⟨m', List.mem_cons_of_mem _ hm', rest'⟩

theorem minLoop_bookkeeping
    (search : SearchState → Game → Score → Score → Except Fault (Score × SearchState))
    (game : Game) (depth : Int) (alpha : Score) (hne : ¬ depth = game.difficulty) :
    ∀ (moves : List Move) (value : Score) (bestMove : Move) (beta : Score) (st : SearchState)
      (l : LoopResult),
      minLoop search game depth alpha moves value bestMove beta st = .ok l →
      (moves = [] ∧ l.st = st ∧ l.bound = beta) ∨
      ∃ m ∈ moves, ∃ (stIn : SearchState) (ng : Game) (b s : Score) (stOut : SearchState),
        SimulateMove game m true = .ok ng ∧ search stIn ng alpha b = .ok (s, stOut) ∧
        ((alpha < l.bound ∧ l.st = stOut) ∨
         (alpha ≥ l.bound ∧ Recorded stOut l.st m depth game.difficulty)) := by
  intro moves
  induction moves with
  | nil =>
    intro value bestMove beta st l h
    rw [minLoop] at h
    cases h
    exact Or.inl ⟨rfl, rfl, rfl⟩
  | cons m rest ih =>
    intro value bestMove beta st l h
    right
    rw [minLoop, if_neg hne] at h
    cases hsim : SimulateMove game m true with
    | error e => rw [hsim] at h; cases h
    | ok ng =>
      cases hs : search st ng alpha beta with
      | error e => rw [hsim] at h; simp only [bind, Except.bind, hs] at h; cases h
      | ok r =>
        rw [hsim] at h
        simp only [bind, Except.bind, hs] at h
        split at h <;>
        · split at h
          · rename_i hcut
            split at h
            · cases h
            · rename_i st2 hrec
              cases h
              exact ⟨m, List.mem_cons_self _ _, st, ng, beta, r.1, r.2, hsim, hs,
                Or.inr ⟨hcut, recordCutoff_spec hrec⟩⟩
          · rename_i hcut
            rcases ih _ _ _ _ l h with ⟨hnil, hst, hbound⟩ | ⟨m', hm', rest'⟩
            · exact ⟨m, List.mem_cons_self _ _, st, ng, beta, r.1, r.2, hsim, hs,
                Or.inl ⟨by rw [hbound]; exact not_le.mp hcut, hst⟩⟩
            · exact ⟨m', List.mem_cons_of_mem _ hm', rest'⟩

/-! ## Move ordering -/

theorem bubble_pairwise (less : MoveEval → MoveEval → Bool) (l : List MoveEval)
    (hw : WeakOrderOn less l) (x : MoveEval) (hx : x ∈ l) :
    ∀ R : List MoveEval, (∀ a ∈ R, a ∈ l) → x ∉ R → R.Nodup →
      R.Pairwise (fun a b => less a b = false) →
      (bubble less x R).Pairwise (fun a b => less a b = false) := by
  intro R
  induction R with
  | nil => intro _ _ _ _; simp [bubble]
  | cons y rest ih =>
    intro hmem hnot hnd hpw
    rw [List.pairwise_cons] at hpw
    rw [List.nodup_cons] at hnd
    have hxy : x ≠ y := fun h => hnot (h ▸ List.mem_cons_self _ _)
    have hxrest : x ∉ rest := fun h => hnot (List.mem_cons_of_mem _ h)
    have hy : y ∈ l := hmem y (List.mem_cons_self _ _)
    have hrest : ∀ a ∈ rest, a ∈ l := fun a ha => hmem a (List.mem_cons_of_mem _ ha)
    unfold bubble
    by_cases hl : less x y = true
    · rw [if_pos hl, List.pairwise_cons]
      refine ⟨?_, ih hrest hxrest hnd.2 hpw.2⟩
      intro e he
      rcases List.mem_cons.mp ((bubble_perm less x rest).subset he) with h | h
      · rw [h]; exact hw.1 x hx y hy hxy hl
      · exact hpw.1 e h
    · rw [if_neg hl, List.pairwise_cons]
      have hl' : less x y = false := by simpa using hl
      refine ⟨?_, List.pairwise_cons.mpr hpw⟩
      intro e he
      rcases List.mem_cons.mp he with h | h
      · rw [h]; exact hl'
      · exact hw.2 x hx y hy e (hrest e h) hxy (fun h' => hnd.1 (h' ▸ h))
          (fun h' => hxrest (h' ▸ h)) hl' (hpw.1 e h)

theorem insertionSort_foldl_pairwise (less : MoveEval → MoveEval → Bool) (l : List MoveEval)
    (hw : WeakOrderOn less l) :
    ∀ (xs R : List MoveEval), (∀ a ∈ xs, a ∈ l) → (∀ a ∈ R, a ∈ l) → (xs ++ R).Nodup →
      R.Pairwise (fun a b => less a b = false) →
      (xs.foldl (fun sorted x => bubble less x sorted) R).Pairwise
        (fun a b => less a b = false) := by
  intro xs
  induction xs with
  | nil => intro R _ _ _ h; exact h
  | cons x xs ih =>
    intro R hxs hR hnd hpw
    rw [List.foldl_cons]
    have hx : x ∈ l := hxs x (List.mem_cons_self _ _)
    have hnd' : x ∉ xs ++ R ∧ (xs ++ R).Nodup := List.nodup_cons.mp hnd
    have hxR : x ∉ R := fun h => hnd'.1 (List.mem_append_right _ h)
    have hRnd : R.Nodup := (List.nodup_append.mp hnd'.2).2.1
    have hperm := bubble_perm less x R
    apply ih
    · exact fun a ha => hxs a (List.mem_cons_of_mem _ ha)
    · intro a ha
      rcases List.mem_cons.mp (hperm.subset ha) with h | h
      · rw [h]; exact hx
      · exact hR a h
    · have h1 : (xs ++ bubble less x R).Perm (x :: (xs ++ R)) :=
        (List.Perm.append_left xs hperm).trans List.perm_middle
      exact h1.nodup_iff.mpr hnd
    · exact bubble_pairwise less l hw x hx R hR hxR hRnd hpw

theorem insertionSort_sorts : SortSorts insertionSort := by
  intro less l hnd hw
  unfold insertionSort
  rw [List.pairwise_reverse]
  exact insertionSort_foldl_pairwise less l hw l [] (fun a h => h) (fun a h => by cases h)
    (by simpa using hnd) List.Pairwise.nil

theorem orderLess_eq_false_iff (k : MoveKey) (hist : MoveKey → Int) (a b : MoveEval) :
    orderLess k hist a b = false ↔
      a.moveKey ≠ k ∧ (b.moveKey = k ∨ hist a.moveKey < hist b.moveKey ∨
        (hist a.moveKey = hist b.moveKey ∧ a.eval ≤ b.eval)) := by
  unfold orderLess
  by_cases ha : a.moveKey = k
  · simp [ha]
  · by_cases hb : b.moveKey = k
    · simp [ha, hb]
    · simp only [ha, hb, if_false, ne_eq, not_false_eq_true, true_and, false_or]
      by_cases hh : hist a.moveKey = hist b.moveKey
      · simp [hh]
      · simp only [hh, not_false_eq_true, if_true, false_and, or_false, decide_eq_false_iff_not,
          gt_iff_lt, not_lt]
        omega

theorem orderLess_weakOrder (k : MoveKey) (hist : MoveKey → Int) (l : List MoveEval)
    (hkeys : ∀ a ∈ l, ∀ b ∈ l, a ≠ b → a.moveKey ≠ b.moveKey) :
    WeakOrderOn (orderLess k hist) l := by
  constructor
  · intro a ha b hb hab hlt
    rw [orderLess_eq_false_iff]
    have hne := hkeys a ha b hb hab
    have hnf : ¬ orderLess k hist a b = false := by rw [hlt]; decide
    rw [orderLess_eq_false_iff] at hnf
    by_cases hak : a.moveKey = k
    · exact ⟨fun h => hne (hak.trans h.symm), Or.inl hak⟩
    · have hbk : ¬ b.moveKey = k := fun h => hnf ⟨hak, Or.inl h⟩
      refine ⟨hbk, Or.inr ?_⟩
      by_contra hcon
      apply hnf
      refine ⟨hak, Or.inr ?_⟩
      rcases lt_trichotomy (hist a.moveKey) (hist b.moveKey) with h | h | h
      · exact Or.inl h
      · right
        refine ⟨h, ?_⟩
        by_contra hle
        exact hcon (Or.inr ⟨h.symm, le_of_lt (not_le.mp hle)⟩)
      · exact absurd (Or.inl h) hcon
  · intro a _ b _ c _ _ _ _ hab hbc
    rw [orderLess_eq_false_iff] at hab hbc ⊢
    obtain ⟨hak, hab'⟩ := hab
    obtain ⟨hbk, hbc'⟩ := hbc
    refine ⟨hak, ?_⟩
    rcases hab' with h | h | ⟨h1, h2⟩
    · exact absurd h hbk
    · rcases hbc' with h' | h' | ⟨h1', h2'⟩
      · exact Or.inl h'
      · exact Or.inr (Or.inl (lt_trans h h'))
      · exact Or.inr (Or.inl (h1' ▸ h))
    · rcases hbc' with h' | h' | ⟨h1', h2'⟩
      · exact Or.inl h'
      · exact Or.inr (Or.inl (h1 ▸ h'))
      · exact Or.inr (Or.inr ⟨h1.trans h1', le_trans h2 h2'⟩)

theorem SimulateMove_placed (g : Game) (m : Move) (hm : m.OnBoard) :
    SimulateMove g m false = .ok (placedOf g m) := by
  unfold SimulateMove
  rw [MakeMove_eq g.Copy m false hm.1 hm.2]
  rfl

theorem map_move_mk (evaluate : Game → Int → ℚ) (g : Game) (aiPlayer : Int) :
    ∀ l : List Move,
      (l.map (fun move => MoveEval.mk move ⟨move.X, move.Y⟩
        (evaluate (placedOf g move) aiPlayer))).map (fun me => me.move) = l := by
  intro l
  induction l with
  | nil => rfl
  | cons a rest ih => rw [List.map_cons, List.map_cons, ih]

theorem orderMoves_spec (evaluate : Game → Int → ℚ) (sortSlice : SortSlice)
    (hperm : SortPermutes sortSlice) (hsort : SortSorts sortSlice) (st : SearchState)
    (g : Game) (moves : List Move) (depth : Int) (aiPlayer : Int) (k : MoveKey)
    (hon : ∀ m ∈ moves, m.OnBoard)
    (hcells : (moves.map Move.key).Nodup)
    (hk : killerGet st depth g.difficulty = .ok k) :
    ∃ ordered, orderMoves evaluate sortSlice st g moves depth aiPlayer = .ok ordered ∧
      ordered.Perm moves ∧
      (∀ m ∈ moves, m.key = k → ordered.head? = some m) ∧
      ordered.Pairwise (fun m₁ m₂ => m₁.key ≠ k →
        st.historyTable m₁.key ≥ st.historyTable m₂.key ∧
        (st.historyTable m₁.key = st.historyTable m₂.key →
          evaluate (placedOf g m₁) aiPlayer ≥ evaluate (placedOf g m₂) aiPlayer)) := by
  have hmap := mapM_eq_ok_map
    (fun move => do
      let newGame ← SimulateMove g move false
      pure ({ move := move, moveKey := ⟨move.X, move.Y⟩, eval := evaluate newGame aiPlayer }
        : MoveEval))
    (fun move => MoveEval.mk move ⟨move.X, move.Y⟩ (evaluate (placedOf g move) aiPlayer))
    moves
    (by
      intro m hm
      simp only [SimulateMove_placed g m (hon m hm), bind, Except.bind]
      rfl)
  have hback := map_move_mk evaluate g aiPlayer
  have hinj : ∀ m₁ ∈ moves, ∀ m₂ ∈ moves, m₁.key = m₂.key → m₁ = m₂ :=
    fun m₁ h₁ m₂ h₂ h => List.inj_on_of_nodup_map hcells h₁ h₂ h
  unfold orderMoves
  rw [hmap]
  simp only [bind, Except.bind]
  split
  · rename_i hlen
    rw [List.length_map] at hlen
    refine ⟨_, rfl, by rw [hback], ?_, ?_⟩
    · intro m hm _
      rw [hback]
      match moves, hm, hlen with
      | [m'], hm, _ => rw [List.mem_singleton] at hm; rw [hm]; rfl
    · rw [hback]
      match moves, hlen with
      | [], _ => exact List.Pairwise.nil
      | [m'], _ => exact List.pairwise_singleton _ _
  · rw [hk]
    have hE : ∀ me ∈ moves.map (fun move => MoveEval.mk move ⟨move.X, move.Y⟩
        (evaluate (placedOf g move) aiPlayer)),
        me.move ∈ moves ∧ me.moveKey = me.move.key ∧
          me.eval = evaluate (placedOf g me.move) aiPlayer := by
      intro me hme
      obtain ⟨m, hm, rfl⟩ := List.mem_map.mp hme
      exact ⟨hm, rfl, rfl⟩
    have hEnd : (moves.map (fun move => MoveEval.mk move ⟨move.X, move.Y⟩
        (evaluate (placedOf g move) aiPlayer))).Nodup := by
      apply List.Nodup.of_map (fun me : MoveEval => me.moveKey)
      rw [List.map_map]
      exact hcells
    have hkeys : ∀ a ∈ moves.map (fun move => MoveEval.mk move ⟨move.X, move.Y⟩
        (evaluate (placedOf g move) aiPlayer)),
        ∀ b ∈ moves.map (fun move => MoveEval.mk move ⟨move.X, move.Y⟩
          (evaluate (placedOf g move) aiPlayer)), a ≠ b → a.moveKey ≠ b.moveKey := by
      intro a ha b hb hab hkk
      obtain ⟨m₁, h₁, rfl⟩ := List.mem_map.mp ha
      obtain ⟨m₂, h₂, rfl⟩ := List.mem_map.mp hb
      exact hab (by rw [hinj m₁ h₁ m₂ h₂ hkk])
    have hP := hperm (orderLess k st.historyTable)
      (moves.map (fun move => MoveEval.mk move ⟨move.X, move.Y⟩
        (evaluate (placedOf g move) aiPlayer)))
    have hS := hsort (orderLess k st.historyTable) _ hEnd
      (orderLess_weakOrder k st.historyTable _ hkeys)
    have hSE : ∀ me ∈ sortSlice (orderLess k st.historyTable)
        (moves.map (fun move => MoveEval.mk move ⟨move.X, move.Y⟩
          (evaluate (placedOf g move) aiPlayer))),
        me.move ∈ moves ∧ me.moveKey = me.move.key ∧
          me.eval = evaluate (placedOf g me.move) aiPlayer :=
      fun me hme => hE me (hP.subset hme)
    refine ⟨_, rfl, ?_, ?_, ?_⟩
    · have := hP.map (fun me : MoveEval => me.move)
      rw [hback] at this
      exact this
    · intro m hm hmk
      have hme : MoveEval.mk m ⟨m.X, m.Y⟩ (evaluate (placedOf g m) aiPlayer) ∈
          sortSlice (orderLess k st.historyTable)
            (moves.map (fun move => MoveEval.mk move ⟨move.X, move.Y⟩
              (evaluate (placedOf g move) aiPlayer))) :=
        hP.symm.subset (List.mem_map.mpr ⟨m, hm, rfl⟩)
      generalize sortSlice (orderLess k st.historyTable)
        (moves.map (fun move => MoveEval.mk move ⟨move.X, move.Y⟩
          (evaluate (placedOf g move) aiPlayer))) = S at hS hme
      cases S with
      | nil => cases hme
      | cons s0 rest =>
        rw [List.map_cons, List.head?_cons]
        rcases List.mem_cons.mp hme with h | h
        · rw [← h]
        · exfalso
          have h1 := (List.pairwise_cons.mp hS).1 _ h
          rw [orderLess_eq_false_iff] at h1
          exact h1.1 hmk
    · rw [List.pairwise_map]
      refine hS.imp_of_mem ?_
      intro a b ha hb hba hak
      rw [orderLess_eq_false_iff] at hba
      obtain ⟨_, ha2, ha3⟩ := hSE a ha
      obtain ⟨_, hb2, hb3⟩ := hSE b hb
      rw [← ha2, ← hb2, ← ha3, ← hb3]
      rw [← ha2] at hak
      rcases hba.2 with h | h | ⟨h1, h2⟩
      · exact absurd h hak
      · exact ⟨le_of_lt h, fun he => absurd he (ne_of_gt h)⟩
      · exact ⟨le_of_eq h1, fun _ => h2⟩

/-! ## `GetWinner` and `EvaluateEndgame` -/

theorem foldl_discCounts (b : Board) (l : List (Fin 8 × Fin 8)) (n : Int × Int) :
    l.foldl
      (fun acc c =>
        if b c.1 c.2 = Black then (acc.1 + 1, acc.2)
        else if b c.1 c.2 = White then (acc.1, acc.2 + 1)
        else acc)
      n
    = (n.1 + (l.countP (fun c => decide (b c.1 c.2 = Black)) : Nat),
       n.2 + (l.countP (fun c => decide (b c.1 c.2 = White)) : Nat)) := by
  induction l generalizing n with
  | nil => simp
  | cons a rest ih =>
    rw [List.foldl_cons, ih, List.countP_cons, List.countP_cons]
    by_cases h1 : b a.1 a.2 = Black
    · have h2 : ¬ b a.1 a.2 = White := by rw [h1]; decide
      have e1 : decide (b a.1 a.2 = Black) = true := decide_eq_true h1
      have e2 : decide (b a.1 a.2 = White) = false := decide_eq_false h2
      rw [if_pos h1, e1, e2]
      simp only [if_true, Bool.false_eq_true, if_false, Nat.cast_add, Nat.cast_one, Nat.add_zero]
      ext
      · simp only; ring
      · rfl
    · have e1 : decide (b a.1 a.2 = Black) = false := decide_eq_false h1
      by_cases h2 : b a.1 a.2 = White
      · have e2 : decide (b a.1 a.2 = White) = true := decide_eq_true h2
        rw [if_neg h1, if_pos h2, e1, e2]
        simp only [if_true, Bool.false_eq_true, if_false, Nat.cast_add, Nat.cast_one,
          Nat.add_zero]
        ext
        · rfl
        · simp only; ring
      · have e2 : decide (b a.1 a.2 = White) = false := decide_eq_false h2
        rw [if_neg h1, if_neg h2, e1, e2]
        simp only [Bool.false_eq_true, if_false, Nat.add_zero]

theorem discCounts_eq (b : Board) :
    discCounts b = ((discsOf b Black : Int), (discsOf b White : Int)) := by
  unfold discCounts discsOf
  rw [foldl_discCounts]
  simp

theorem GetWinner_eq (g : Game) :
    GetWinner g =
      if discsOf g.board Black > discsOf g.board White then Black
      else if discsOf g.board White > discsOf g.board Black then White
      else Blank := by
  unfold GetWinner
  rw [discCounts_eq]
  simp only [gt_iff_lt, Nat.cast_lt]

theorem EvaluateEndgame_eq (g : Game) (aiPlayer : Int)
    (hai : aiPlayer = Black ∨ aiPlayer = White) :
    EvaluateEndgame g aiPlayer =
      if discsOf g.board aiPlayer > discsOf g.board (Opponent aiPlayer) then Score.ofRat 100
      else if discsOf g.board aiPlayer < discsOf g.board (Opponent aiPlayer) then
        Score.ofRat (-100)
      else Score.ofRat 0 := by
  unfold EvaluateEndgame
  simp only
  rw [GetWinner_eq]
  rcases hai with h | h <;> subst h
  · have ho : Opponent Black = White := rfl
    rw [ho]
    by_cases h1 : discsOf g.board Black > discsOf g.board White
    · simp [h1]
    · by_cases h2 : discsOf g.board White > discsOf g.board Black
      · have : ¬ White = Black := by decide
        simp [h1, h2, this]
      · have h3 : ¬ Blank = Black := by decide
        have h4 : ¬ Blank = White := by decide
        have h5 : ¬ discsOf g.board Black < discsOf g.board White := h2
        simp [h1, h2, h3, h4, h5]
  · have ho : Opponent White = Black := rfl
    rw [ho]
    by_cases h1 : discsOf g.board Black > discsOf g.board White
    · have : ¬ Black = White := by decide
      have h5 : ¬ discsOf g.board White > discsOf g.board Black := by omega
      simp [h1, this, h5]
    · by_cases h2 : discsOf g.board White > discsOf g.board Black
      · simp [h1, h2]
      · have h3 : ¬ Blank = Black := by decide
        have h4 : ¬ Blank = White := by decide
        have h5 : ¬ discsOf g.board White < discsOf g.board Black := h1
        simp [h1, h2, h3, h4, h5]

/-! ## `SimulateMove` leaves the receiver alone -/

theorem MakeMove_fields {g g' : Game} {m : Move} {sw : Bool} (h : MakeMove g m sw = .ok g') :
    g'.blackAI = g.blackAI ∧ g'.whiteAI = g.whiteAI ∧ g'.difficulty = g.difficulty ∧
      g'.moveCount = g.moveCount + 1 := by
  unfold MakeMove at h
  simp only [bind, Except.bind, pure, Except.pure] at h
  split at h
  · cases h
  · split at h
    · cases h
    · cases h
      split
      · unfold SwitchTurn
        split <;> exact ⟨rfl, rfl, rfl, rfl⟩
      · exact ⟨rfl, rfl, rfl, rfl⟩

theorem MakeMove_Copy (g : Game) (m : Move) (sw : Bool) :
    MakeMove g.Copy m sw = (MakeMove g m sw).map Game.Copy := by
  unfold MakeMove
  simp only [bind, Except.bind, pure, Except.pure, Game.Copy]
  cases g.board.set? m.X m.Y g.current with
  | error e => rfl
  | ok b =>
    simp only
    cases List.foldlM (fun b flip => b.set? flip.1 flip.2 g.current) b m.Flips with
    | error e => rfl
    | ok b' =>
      simp only [Except.map]
      cases sw
      · rfl
      · simp only [if_true, SwitchTurn]
        split <;> rfl

theorem SimulateMove_eq_map (g : Game) (m : Move) (sw : Bool) :
    SimulateMove g m sw = (MakeMove g m sw).map Game.Copy :=
  MakeMove_Copy g m sw

theorem heap_load_ok {h : Heap} {p : Nat} {g : Game} (hl : h.load p = .ok g) :
    ∃ o b, h.games[p]? = some o ∧ h.boards[o.board]? = some b ∧
      g = { board := b, current := o.current, blackAI := o.blackAI, whiteAI := o.whiteAI,
            moveCount := o.moveCount, difficulty := o.difficulty } := by
  unfold Heap.load at hl
  split at hl
  · cases hl
  · rename_i o ho
    split at hl
    · cases hl
    · rename_i b hb
      cases hl
      exact ⟨o, b, ho, hb, rfl⟩

theorem heap_load_of {h : Heap} {p : Nat} {o : GameObj} {b : Board}
    (ho : h.games[p]? = some o) (hb : h.boards[o.board]? = some b) :
    h.load p = .ok { board := b, current := o.current, blackAI := o.blackAI,
                     whiteAI := o.whiteAI, moveCount := o.moveCount,
                     difficulty := o.difficulty } := by
  unfold Heap.load
  rw [ho]
  simp only
  rw [hb]

theorem heap_SimulateMove_spec (h : Heap) (p : Nat) (move : Move) (sw : Bool) (g gm : Game)
    (hl : h.load p = .ok g) (hm : MakeMove g move sw = .ok gm) :
    ∃ h', h.SimulateMove p move sw = .ok (h', h.games.length) ∧
      (∀ p' g', h.load p' = .ok g' → h'.load p' = .ok g') ∧
      h'.load h.games.length = .ok gm.Copy := by
  obtain ⟨o, b, ho, hb, hg⟩ := heap_load_ok hl
  have hp : p < h.games.length := (List.getElem?_eq_some_iff.mp ho).1
  have hbl : o.board < h.boards.length := (List.getElem?_eq_some_iff.mp hb).1
  have hcopy : h.GameCopy p = .ok
      ({ boards := h.boards ++ [b],
         games := h.games ++ [{ board := h.boards.length, current := o.current,
                                blackAI := false, whiteAI := false,
                                moveCount := o.moveCount, difficulty := o.difficulty }] },
       h.games.length) := by
    unfold Heap.GameCopy Heap.BoardCopy
    rw [ho]
    simp only
    rw [hb]
    rfl
  have hq : (h.games ++ [({ board := h.boards.length, current := o.current,
                            blackAI := false, whiteAI := false,
                            moveCount := o.moveCount, difficulty := o.difficulty }
                          : GameObj)])[h.games.length]?
      = some { board := h.boards.length, current := o.current, blackAI := false,
               whiteAI := false, moveCount := o.moveCount, difficulty := o.difficulty } := by
    simp
  have hbq : (h.boards ++ [b])[h.boards.length]? = some b := by simp
  have hloadq : Heap.load
      { boards := h.boards ++ [b],
        games := h.games ++ [{ board := h.boards.length, current := o.current,
                               blackAI := false, whiteAI := false,
                               moveCount := o.moveCount, difficulty := o.difficulty }] }
      h.games.length = .ok g.Copy := by
    rw [heap_load_of hq hbq, hg]
    rfl
  have hmc : MakeMove g.Copy move sw = .ok gm.Copy := by
    rw [MakeMove_Copy, hm]; rfl
  obtain ⟨hf1, hf2, hf3, hf4⟩ := MakeMove_fields hmc
  refine ⟨{ boards := (h.boards ++ [b]).set h.boards.length gm.Copy.board,
            games := (h.games ++ [({ board := h.boards.length, current := o.current,
                                     blackAI := false, whiteAI := false,
                                     moveCount := o.moveCount, difficulty := o.difficulty }
                                   : GameObj)]).set
              h.games.length
              { board := h.boards.length, current := gm.Copy.current, blackAI := false,
                whiteAI := false, moveCount := gm.Copy.moveCount,
                difficulty := o.difficulty } }, ?_, ?_, ?_⟩
  · unfold Heap.SimulateMove
    rw [hcopy]
    simp only [bind, Except.bind]
    unfold Heap.MakeMove
    simp only
    rw [hq]
    simp only [bind, Except.bind]
    rw [hloadq]
    simp only
    rw [hmc]
    rfl
  · intro p' g' hl'
    obtain ⟨o', b', ho', hb', hg'⟩ := heap_load_ok hl'
    have hp' : p' < h.games.length := (List.getElem?_eq_some_iff.mp ho').1
    have hbl' : o'.board < h.boards.length := (List.getElem?_eq_some_iff.mp hb').1
    rw [hg']
    apply heap_load_of
    · simp only
      rw [List.getElem?_set_ne (by omega), List.getElem?_append_left hp']
      exact ho'
    · simp only
      rw [List.getElem?_set_ne (by omega), List.getElem?_append_left hbl']
      exact hb'
  · have h1 : ((h.games ++ [({ board := h.boards.length, current := o.current,
                                blackAI := false, whiteAI := false,
                                moveCount := o.moveCount, difficulty := o.difficulty }
                              : GameObj)]).set h.games.length
              { board := h.boards.length, current := gm.Copy.current, blackAI := false,
                whiteAI := false, moveCount := gm.Copy.moveCount,
                difficulty := o.difficulty })[h.games.length]?
        = some { board := h.boards.length, current := gm.Copy.current, blackAI := false,
                 whiteAI := false, moveCount := gm.Copy.moveCount,
                 difficulty := o.difficulty } := by
      rw [List.getElem?_set_self (by simp)]
    have h2 : ((h.boards ++ [b]).set h.boards.length gm.Copy.board)[h.boards.length]?
        = some gm.Copy.board := by
      rw [List.getElem?_set_self (by simp)]
    rw [heap_load_of h1 h2]
    have hd : gm.Copy.difficulty = o.difficulty := by rw [hf3, hg]; rfl
    rw [← hd]
    rfl

/-! ## `AIMove` starts from a fresh search state -/

theorem AIMove_state_irrelevant (evaluate : Game → Int → ℚ) (sortSlice : SortSlice) (fuel : Nat)
    (fresh : Zobrist) (g : Game) (st₁ st₂ : SearchState)
    (hmoves : ValidMoves g g.current ≠ []) :
    AIMove evaluate sortSlice fuel fresh g st₁ = AIMove evaluate sortSlice fuel fresh g st₂ := by
  have hlen : ¬ (ValidMoves g g.current).length = 0 := by
    rw [List.length_eq_zero]; exact hmoves
  unfold AIMove
  simp only [hlen, if_false]

/-! ## Termination of the exact endgame search -/

theorem emptyCount_le (b : Board) : emptyCount b ≤ 64 := by
  unfold emptyCount
  refine (Finset.card_filter_le _ _).trans ?_
  rw [Finset.card_univ]
  simp

theorem endgameMaxLoop_total (search : Game → Score → Score → Except Fault Score) (game : Game)
    (beta : Score) :
    ∀ moves : List Move,
      (∀ m ∈ moves, ∃ ng, SimulateMove game m true = .ok ng ∧
        ∀ a b, ∃ s, search ng a b = .ok s) →
      ∀ value alpha, ∃ v, endgameMaxLoop search game beta moves value alpha = .ok v := by
  intro moves
  induction moves with
  | nil => intro _ value alpha; exact ⟨value, rfl⟩
  | cons m rest ih =>
    intro h value alpha
    obtain ⟨ng, hsim, hs⟩ := h m (List.mem_cons_self _ _)
    obtain ⟨s, hs⟩ := hs alpha beta
    rw [endgameMaxLoop]
    simp only [hsim, hs, bind, Except.bind]
    split
    · exact ⟨_, rfl⟩
    · exact ih (fun m' hm' => h m' (List.mem_cons_of_mem _ hm')) _ _

theorem endgameMinLoop_total (search : Game → Score → Score → Except Fault Score) (game : Game)
    (alpha : Score) :
    ∀ moves : List Move,
      (∀ m ∈ moves, ∃ ng, SimulateMove game m true = .ok ng ∧
        ∀ a b, ∃ s, search ng a b = .ok s) →
      ∀ value beta, ∃ v, endgameMinLoop search game alpha moves value beta = .ok v := by
  intro moves
  induction moves with
  | nil => intro _ value beta; exact ⟨value, rfl⟩
  | cons m rest ih =>
    intro h value beta
    obtain ⟨ng, hsim, hs⟩ := h m (List.mem_cons_self _ _)
    obtain ⟨s, hs⟩ := hs alpha beta
    rw [endgameMinLoop]
    simp only [hsim, hs, bind, Except.bind]
    split
    · exact ⟨_, rfl⟩
    · exact ih (fun m' hm' => h m' (List.mem_cons_of_mem _ hm')) _ _

theorem minimaxEndgame_total :
    ∀ (fuel : Nat) (g : Game) (alpha beta : Score) (maximizing : Bool) (aiPlayer : Int),
      ValidTurn g →
      2 * emptyCount g.board + (if ValidMoves g g.current = [] then 2 else 1) ≤ fuel →
      ∃ r, minimaxEndgame fuel g alpha beta maximizing aiPlayer = .ok (r, g) := by
  intro fuel
  induction fuel with
  | zero => intro g _ _ _ _ _ hf; exfalso; split at hf <;> omega
  | succ fuel ih =>
    intro g alpha beta mx ai hv hf
    by_cases hover : IsGameOver g = true
    · refine ⟨EvaluateEndgame g ai, ?_⟩
      simp only [minimaxEndgame, hover, if_true]; rfl
    · have hover' : IsGameOver g = false := by simpa using hover
      by_cases hnone : ValidMoves g g.current = []
      · have hmv := pass_has_move hv hover' hnone
        rw [if_pos hnone] at hf
        have hf' : 2 * emptyCount (SwitchTurn g).board +
            (if ValidMoves (SwitchTurn g) (SwitchTurn g).current = [] then 2 else 1) ≤ fuel := by
          rw [if_neg hmv, SwitchTurn_board]; omega
        obtain ⟨r, hr⟩ := ih (SwitchTurn g) alpha beta (!mx) ai (SwitchTurn_validTurn g) hf'
        refine ⟨r, ?_⟩
        simp only [minimaxEndgame, hover', hnone, List.length_nil, if_true, hr, bind,
          Except.bind, pure, Except.pure, SwitchTurn_SwitchTurn hv]
        rfl
      · rw [if_neg hnone] at hf
        have hlen : ¬ ((ValidMoves g g.current).length = 0) := by
          rw [List.length_eq_zero]; exact hnone
        have hchild : ∀ (mx' : Bool), ∀ m ∈ ValidMoves g g.current, ∃ ng,
            SimulateMove g m true = .ok ng ∧
            ∀ a b, ∃ s, (do
              let r ← minimaxEndgame fuel ng a b mx' ai
              pure r.1 : Except Fault Score) = .ok s := by
          intro mx' m hm
          have hlt := emptyCount_movedBoard_lt hm (ValidTurn_ne_blank hv)
          have hf' : 2 * emptyCount (childOf g m).board +
              (if ValidMoves (childOf g m) (childOf g m).current = [] then 2 else 1) ≤ fuel := by
            rw [childOf_board]
            split <;> omega
          refine ⟨childOf g m, SimulateMove_child hm, ?_⟩
          intro a b
          obtain ⟨r, hr⟩ := ih (childOf g m) a b mx' ai (childOf_validTurn g m) hf'
          exact ⟨r, by simp only [hr, bind, Except.bind]; rfl⟩
        cases mx with
        | true =>
          obtain ⟨v, hv'⟩ := endgameMaxLoop_total
            (fun newGame a b => do
              let r ← minimaxEndgame fuel newGame a b false ai
              pure r.1)
            g beta (ValidMoves g g.current) (hchild false) ⊥ alpha
          refine ⟨v, ?_⟩
          simp only [minimaxEndgame, hover', hlen, if_false, Bool.false_eq_true, if_true]
          rw [hv']; rfl
        | false =>
          obtain ⟨v, hv'⟩ := endgameMinLoop_total
            (fun newGame a b => do
              let r ← minimaxEndgame fuel newGame a b true ai
              pure r.1)
            g alpha (ValidMoves g g.current) (hchild true) ⊤ beta
          refine ⟨v, ?_⟩
          simp only [minimaxEndgame, hover', hlen, if_false, Bool.false_eq_true]
          rw [hv']; rfl

theorem solverLoop_total (search : Game → Except Fault Score) (g : Game) :
    ∀ moves : List Move,
      (∀ m ∈ moves, ∃ ng s, SimulateMove g m true = .ok ng ∧ search ng = .ok s) →
      ∀ bm bs, ∃ r, solverLoop search g moves bm bs = .ok r := by
  intro moves
  induction moves with
  | nil => intro _ bm bs; exact ⟨_, rfl⟩
  | cons m rest ih =>
    intro h bm bs
    obtain ⟨ng, s, hsim, hs⟩ := h m (List.mem_cons_self _ _)
    rw [solverLoop]
    simp only [hsim, hs, bind, Except.bind]
    split
    · exact ih (fun m' hm' => h m' (List.mem_cons_of_mem _ hm')) _ _
    · exact ih (fun m' hm' => h m' (List.mem_cons_of_mem _ hm')) _ _

theorem EndgameSolver_total_of_moves (g : Game) (aiPlayer : Int) (fuel : Nat)
    (hmoves : ValidMoves g g.current ≠ []) (hfuel : 130 ≤ fuel) :
    ∃ best, EndgameSolver (fuel + 1) g aiPlayer = .ok (best, g) := by
  have hlen : ¬ ((ValidMoves g g.current).length = 0) := by
    rw [List.length_eq_zero]; exact hmoves
  obtain ⟨r, hr⟩ := solverLoop_total
    (fun newGame => do
      let r ← minimaxEndgame fuel newGame ⊥ ⊤ false aiPlayer
      pure r.1)
    g (ValidMoves g g.current)
    (by
      intro m hm
      have hle := emptyCount_le (childOf g m).board
      obtain ⟨s, hs⟩ := minimaxEndgame_total fuel (childOf g m) ⊥ ⊤ false aiPlayer
        (childOf_validTurn g m) (by split <;> omega)
      exact ⟨childOf g m, s, SimulateMove_child hm, by simp only [hs, bind, Except.bind]; rfl⟩)
    Move.zero ⊥
  refine ⟨r.1, ?_⟩
  rw [EndgameSolver]
  simp only [hlen, if_false]
  rw [hr]
  rfl

theorem EndgameSolver_total (g : Game) (aiPlayer : Int) (fuel : Nat)
    (hside : ValidMoves g Black ≠ [] ∨ ValidMoves g White ≠ []) (hfuel : 133 ≤ fuel) :
    ∃ best g', EndgameSolver fuel g aiPlayer = .ok (best, g') := by
  obtain ⟨f, rfl⟩ : ∃ f, fuel = f + 3 := ⟨fuel - 3, by omega⟩
  by_cases h0 : ValidMoves g g.current = []
  · have e0 : EndgameSolver (f + 3) g aiPlayer = EndgameSolver (f + 2) (SwitchTurn g) aiPlayer := by
      rw [EndgameSolver]
      simp only [h0, List.length_nil, if_true]
    rw [e0]
    by_cases h1 : ValidMoves (SwitchTurn g) (SwitchTurn g).current = []
    · have e1 : EndgameSolver (f + 2) (SwitchTurn g) aiPlayer
          = EndgameSolver (f + 1) (SwitchTurn (SwitchTurn g)) aiPlayer := by
        rw [EndgameSolver]
        simp only [h1, List.length_nil, if_true]
      rw [e1]
      have h2 : ValidMoves (SwitchTurn (SwitchTurn g)) (SwitchTurn (SwitchTurn g)).current
          ≠ [] := by
        rw [ValidMoves_congr (SwitchTurn_board (SwitchTurn g)),
          ValidMoves_congr (SwitchTurn_board g), SwitchTurn_current]
        rw [ValidMoves_congr (SwitchTurn_board g)] at h1
        rcases SwitchTurn_validTurn g with hc | hc
        · rw [hc] at h1
          rw [if_pos hc]
          rcases hside with h | h
          · exact absurd h1 h
          · exact h
        · rw [hc] at h1
          rw [if_neg (by rw [hc]; decide)]
          rcases hside with h | h
          · exact h
          · exact absurd h1 h
      obtain ⟨best, hb⟩ := EndgameSolver_total_of_moves _ aiPlayer f h2 (by omega)
      exact ⟨best, _, hb⟩
    · obtain ⟨best, hb⟩ := EndgameSolver_total_of_moves _ aiPlayer (f + 1) h1 (by omega)
      exact ⟨best, _, hb⟩
  · obtain ⟨best, hb⟩ := EndgameSolver_total_of_moves g aiPlayer (f + 2) h0 (by omega)
    exact ⟨best, _, hb⟩

/-! ## The depths of the calls of `minimax` -/

theorem SimulateMove_difficulty {g g' : Game} {m : Move} {sw : Bool}
    (h : SimulateMove g m sw = .ok g') : g'.difficulty = g.difficulty :=
  (MakeMove_fields h).2.2.1

theorem SearchCall_bounds {g₀ : Game} {d₀ : Int} (h0 : 0 ≤ d₀)
    {g : Game} {d : Int} (h : SearchCall g₀ d₀ g d) :
    g.difficulty = g₀.difficulty ∧ 0 ≤ d ∧ d ≤ d₀ := by
  induction h with
  | start => exact ⟨rfl, h0, le_refl _⟩
  | pass game depth _ _ hleaf _ ih =>
    obtain ⟨h1, h2, h3⟩ := ih
    refine ⟨by rw [SwitchTurn_difficulty]; exact h1, ?_, by omega⟩
    have : depth ≠ 0 := fun h => hleaf (Or.inl h)
    omega
  | child game depth move newGame _ _ hleaf _ hsim ih =>
    obtain ⟨h1, h2, h3⟩ := ih
    refine ⟨by rw [SimulateMove_difficulty hsim]; exact h1, ?_, by omega⟩
    have : depth ≠ 0 := fun h => hleaf (Or.inl h)
    omega

/-! ## Reachable game states -/

theorem countP_three {α : Type} (p q r : α → Bool) (l : List α)
    (h : ∀ a ∈ l, (p a = true ∧ q a = false ∧ r a = false) ∨
      (p a = false ∧ q a = true ∧ r a = false) ∨ (p a = false ∧ q a = false ∧ r a = true)) :
    l.countP p + l.countP q + l.countP r = l.length := by
  induction l with
  | nil => rfl
  | cons a rest ih =>
    have ih' := ih (fun b hb => h b (List.mem_cons_of_mem _ hb))
    rw [List.countP_cons, List.countP_cons, List.countP_cons, List.length_cons]
    rcases h a (List.mem_cons_self _ _) with ⟨h1, h2, h3⟩ | ⟨h1, h2, h3⟩ | ⟨h1, h2, h3⟩ <;>
      simp only [h1, h2, h3, if_true, Bool.false_eq_true, if_false] <;> omega

theorem emptyCount_eq_countP (b : Board) :
    emptyCount b = allCells.countP (fun c => decide (b c.1 c.2 = Blank)) := by
  unfold emptyCount
  rw [countP_allCells (fun c : Fin 8 × Fin 8 => b c.1 c.2 = Blank)]

theorem discs_add_empty {b : Board} (hb : ValidBoard b) :
    discsOf b Black + discsOf b White + emptyCount b = 64 := by
  rw [emptyCount_eq_countP]
  unfold discsOf
  rw [countP_three]
  · rfl
  · intro c _
    rcases hb c.1 c.2 with h | h | h <;> rw [h] <;> decide

theorem emptyCount_movedBoard {g : Game} {player : Int} {m : Move}
    (hm : m ∈ ValidMoves g player) {v : Int} (hv : v ≠ Blank) :
    emptyCount (movedBoard g.board m v) + 1 = emptyCount g.board := by
  obtain ⟨x, y, hb, _, rfl⟩ := mem_ValidMoves.mp hm
  unfold emptyCount
  have hset : (Finset.univ.filter fun c : Fin 8 × Fin 8 =>
        movedBoard g.board ⟨x, y, Flips g x y player⟩ v c.1 c.2 = Blank)
      = (Finset.univ.filter fun c : Fin 8 × Fin 8 => g.board c.1 c.2 = Blank).erase (x, y) := by
    ext c
    simp only [Finset.mem_filter, Finset.mem_univ, true_and, Finset.mem_erase]
    unfold movedBoard
    simp only
    constructor
    · intro h
      split at h
      · exact absurd h hv
      · rename_i hcond
        refine ⟨?_, h⟩
        intro hc
        apply hcond
        left
        rw [hc]
    · rintro ⟨hne, hblank⟩
      have h1 : ¬ (((c.1 : Nat) : Int), ((c.2 : Nat) : Int)) = (((x : Nat) : Int), ((y : Nat) : Int)) := by
        intro h
        apply hne
        have h1 := (Prod.mk.inj h).1
        have h2 := (Prod.mk.inj h).2
        ext
        · exact Int.ofNat.inj h1
        · exact Int.ofNat.inj h2
      have h2 : ¬ (((c.1 : Nat) : Int), ((c.2 : Nat) : Int)) ∈ Flips g x y player := by
        intro h
        have := Flips_cell g x y player h
        rw [cell?_coe] at this
        have h3 : g.board c.1 c.2 = Opponent player := Option.some.inj this
        rw [hblank] at h3
        unfold Opponent at h3
        split at h3 <;> exact absurd h3 (by decide)
      rw [if_neg (by
        intro h
        rcases h with h | h
        · exact h1 h
        · exact h2 h)]
      exact hblank
  rw [hset, Finset.card_erase_of_mem (by simp [hb])]
  have hpos : 0 < (Finset.univ.filter fun c : Fin 8 × Fin 8 => g.board c.1 c.2 = Blank).card :=
    Finset.card_pos.mpr ⟨(x, y), by simp [hb]⟩
  omega

theorem MakeMove_validBoard {g g' : Game} {m : Move} {sw : Bool}
    (hb : ValidBoard g.board) (hv : ValidTurn g) (hm : m ∈ ValidMoves g g.current)
    (h : MakeMove g m sw = .ok g') :
    g'.board = movedBoard g.board m g.current ∧ ValidBoard g'.board ∧ ValidTurn g' ∧
      g'.moveCount = g.moveCount + 1 := by
  rw [MakeMove_valid hm sw] at h
  have hvb : ValidBoard (movedBoard g.board m g.current) := by
    intro i j
    unfold movedBoard
    split
    · rcases hv with h | h
      · exact Or.inr (Or.inl h)
      · exact Or.inr (Or.inr h)
    · exact hb i j
  cases sw with
  | true =>
    rw [if_pos rfl] at h
    cases h
    refine ⟨by rw [SwitchTurn_board], by rw [SwitchTurn_board]; exact hvb,
      SwitchTurn_validTurn _, by rw [SwitchTurn_moveCount]⟩
  | false =>
    rw [if_neg (by decide)] at h
    cases h
    exact ⟨rfl, hvb, hv, rfl⟩

theorem Reachable_invariant {g : Game} (h : Reachable g) :
    ValidBoard g.board ∧ ValidTurn g ∧
      g.moveCount = ((discsOf g.board Black + discsOf g.board White : Nat) : Int) := by
  induction h with
  | newGame => exact ⟨by decide, by decide, by decide⟩
  | reset g =>
    have h1 : ValidBoard NewBoard := by decide
    have h2 : (4 : Int) = ((discsOf NewBoard Black + discsOf NewBoard White : Nat) : Int) := by
      decide
    exact ⟨h1, Or.inl rfl, h2⟩
  | switchTurn g _ ih =>
    obtain ⟨h1, _, h3⟩ := ih
    exact ⟨SwitchTurn_validBoard h1, SwitchTurn_validTurn g,
      by rw [SwitchTurn_moveCount, SwitchTurn_board]; exact h3⟩
  | makeMove g move sw g' _ hm hmk ih =>
    obtain ⟨h1, h2, h3⟩ := ih
    obtain ⟨e1, e2, e3, e4⟩ := MakeMove_validBoard h1 h2 hm hmk
    refine ⟨e2, e3, ?_⟩
    have hc := emptyCount_movedBoard hm (ValidTurn_ne_blank h2)
    have hd := discs_add_empty h1
    have hd' := discs_add_empty e2
    rw [e1] at hd'
    rw [e4, h3, e1]
    omega

/-! ## The example position with a choice -/

theorem choiceExample_moves :
    (ValidMoves choiceExample choiceExample.current).map (fun m => (m.X, m.Y))
      = [(0, 1), (6, 5), (6, 7)] := by
  decide

set_option maxRecDepth 1000000 in
theorem choiceExample_values :
    (ValidMoves choiceExample choiceExample.current).map
        (moveValue (endgameFuel choiceExample) choiceExample Black)
      = [some (Score.ofRat (-100)), some (Score.ofRat 100), some (Score.ofRat (-100))] := by
  decide!

set_option maxRecDepth 1000000 in
theorem choiceExample_choice :
    (EndgameSolver (endgameFuel choiceExample) choiceExample Black).toOption.map
        (fun r => (r.1.X, r.1.Y)) = some (6, 5) := by
  decide!

/-! # The claims -/

/-- C10: `Flips(x, y, player)` lists exactly the cells that lie in one of the
eight directions from `(x, y)` in a contiguous run of opponent discs starting
next to `(x, y)` and immediately followed by a disc of `player` on the board;
every listed cell holds an opponent disc, and no cell is listed twice. -/
theorem Flips_exact (g : Game) (x y player : Int) :
    (∀ c : Int × Int, c ∈ Flips g x y player ↔ Bracketed g.board x y player c) ∧
    (∀ c ∈ Flips g x y player, g.board.cell? c.1 c.2 = some (Opponent player)) ∧
    (Flips g x y player).Nodup :=
  ⟨mem_Flips g x y player, fun _ hc => Flips_cell g x y player hc, Flips_nodup g x y player⟩

/-- C9: every move returned by `ValidMoves(player)` targets an empty cell and
carries a non-empty flip list (the list `Flips` computes for that cell), and
every empty cell whose `Flips` list is non-empty appears in the result exactly
once. -/
theorem ValidMoves_sound_complete (g : Game) (player : Int) :
    (∀ m ∈ ValidMoves g player,
      g.board.cell? m.X m.Y = some Blank ∧ m.Flips ≠ [] ∧ m.Flips = Flips g m.X m.Y player) ∧
    (∀ x y : Fin 8, g.board x y = Blank → Flips g x y player ≠ [] →
      (ValidMoves g player).countP
        (fun m => decide (m.X = ((x : Nat) : Int) ∧ m.Y = ((y : Nat) : Int))) = 1) :=
  ⟨fun _ hm => ValidMoves_target hm, ValidMoves_count g player⟩

/-- C1: endgame optimality.  In every position in which the side to move is
`aiPlayer` (Black or White) and has a legal move, `EndgameSolver(aiPlayer)`
returns (given the fuel `endgameFuel`), leaves the game as it was, and the move
it returns is a member of `ValidMoves(current)` whose resulting position has an
exact game value (the unpruned minimax `exactValue`) at least as high as the
value of the position after every legal move. -/
theorem EndgameSolver_optimal (g : Game) (aiPlayer : Int) (fuel : Nat)
    (hturn : g.current = aiPlayer) (hai : aiPlayer = Black ∨ aiPlayer = White)
    (hmoves : ValidMoves g g.current ≠ []) (hfuel : endgameFuel g ≤ fuel) :
    ∃ best gb vb, EndgameSolver fuel g aiPlayer = .ok (best, g) ∧
      best ∈ ValidMoves g g.current ∧
      SimulateMove g best true = .ok gb ∧ exactValue fuel gb false aiPlayer = .ok vb ∧
      ∀ m ∈ ValidMoves g g.current, ∃ gm vm,
        SimulateMove g m true = .ok gm ∧ exactValue fuel gm false aiPlayer = .ok vm ∧
        vm ≤ vb := by
  have hv : ValidTurn g := by rw [← hturn] at hai; exact hai
  obtain ⟨f, rfl⟩ : ∃ f, fuel = f + 1 := ⟨fuel - 1, by unfold endgameFuel at hfuel; omega⟩
  obtain ⟨best, gb, vb, h1, h2, h3, h4, h5⟩ := EndgameSolver_best g aiPlayer f hv hmoves hfuel
  refine ⟨best, gb, vb, h1, h2, h3, exactValue_mono (Nat.le_succ f) h4, ?_⟩
  intro m hm
  obtain ⟨gm, vm, h6, h7, h8⟩ := h5 m hm
  exact ⟨gm, vm, h6, exactValue_mono (Nat.le_succ f) h7, h8⟩

/-- C1 at the example position with a choice.  Black to move has the three
legal moves `(0,1)`, `(6,5)` and `(6,7)`; the positions after them have the
exact values `-100`, `100` and `-100` for Black; `EndgameSolver` returns the
move on `(6,5)`, the only winning one, which is not the first in generation
order. -/
theorem EndgameSolver_optimal_witness :
    (ValidMoves choiceExample choiceExample.current).map (fun m => (m.X, m.Y))
      = [(0, 1), (6, 5), (6, 7)] ∧
    (ValidMoves choiceExample choiceExample.current).map
        (moveValue (endgameFuel choiceExample) choiceExample Black)
      = [some (Score.ofRat (-100)), some (Score.ofRat 100), some (Score.ofRat (-100))] ∧
    (EndgameSolver (endgameFuel choiceExample) choiceExample Black).toOption.map
        (fun r => (r.1.X, r.1.Y)) = some (6, 5) ∧
    ∃ best gb vb,
      EndgameSolver (endgameFuel choiceExample) choiceExample Black
        = .ok (best, choiceExample) ∧
      best ∈ ValidMoves choiceExample choiceExample.current ∧
      SimulateMove choiceExample best true = .ok gb ∧
      exactValue (endgameFuel choiceExample) gb false Black = .ok vb ∧
      ∀ m ∈ ValidMoves choiceExample choiceExample.current, ∃ gm vm,
        SimulateMove choiceExample m true = .ok gm ∧
        exactValue (endgameFuel choiceExample) gm false Black = .ok vm ∧ vm ≤ vb :=
  ⟨choiceExample_moves, choiceExample_values, choiceExample_choice,
    EndgameSolver_optimal choiceExample Black (endgameFuel choiceExample) rfl (Or.inl rfl)
      (by decide) (le_refl _)⟩

/-- C8: pass without search.  When the side to move has no legal move,
`AIMove` only hands the turn to the other side: the board and `moveCount` are
unchanged, no root search is made, and the search state (transposition table,
history table, killer slots, hash constants) is the one it was called with. -/
theorem AIMove_pass_frame (evaluate : Game → Int → ℚ) (sortSlice : SortSlice) (fuel : Nat)
    (fresh : Zobrist) (g : Game) (st : SearchState) (h : ValidMoves g g.current = []) :
    ∃ r, AIMove evaluate sortSlice fuel fresh g st = .ok r ∧
      r.game = SwitchTurn g ∧ r.game.board = g.board ∧ r.game.moveCount = g.moveCount ∧
      r.game.current = (if g.current = Black then White else Black) ∧
      r.st = st ∧ r.log = [] :=
  ⟨⟨SwitchTurn g, st, []⟩, AIMove_of_no_moves evaluate sortSlice fuel fresh g st h, rfl,
    SwitchTurn_board g, SwitchTurn_moveCount g, SwitchTurn_current g, rfl, rfl⟩

/-- C8 at the example board with White (who has no move) to move. -/
theorem AIMove_pass_frame_witness :
    ∃ r, AIMove Evaluate insertionSort 0 exampleZobrist passExample
        (freshState exampleZobrist 5) = .ok r ∧
      r.game = SwitchTurn passExample ∧ r.game.board = passExample.board ∧
      r.game.moveCount = passExample.moveCount ∧
      r.game.current = (if passExample.current = Black then White else Black) ∧
      r.st = freshState exampleZobrist 5 ∧ r.log = [] :=
  AIMove_pass_frame Evaluate insertionSort 0 exampleZobrist passExample
    (freshState exampleZobrist 5) (by decide)

/-- C7: endgame routing.  In every position whose side to move has a legal
move and which has at most 12 empty cells, whatever the (non-negative)
difficulty, the evaluator and the sorting routine, `AIMove` commits exactly
the move `EndgameSolver` returns for the position: it makes no root search,
and the search state it leaves is the freshly initialised one, untouched by
`minimax`. -/
theorem AIMove_routes_to_endgame (evaluate : Game → Int → ℚ) (sortSlice : SortSlice)
    (fuel : Nat) (fresh : Zobrist) (g : Game) (st : SearchState)
    (hv : ValidTurn g) (hmoves : ValidMoves g g.current ≠ [])
    (hempty : CountEmptySquares g ≤ 12) (hd : 0 ≤ g.difficulty) (hfuel : 26 ≤ fuel) :
    ∃ best g', EndgameSolver fuel g g.current = .ok (best, g) ∧
      best ∈ ValidMoves g g.current ∧
      MakeMove g best true = .ok g' ∧
      AIMove evaluate sortSlice fuel fresh g st
        = .ok ⟨g', freshState fresh g.difficulty, []⟩ :=
  AIMove_endgame evaluate sortSlice fuel fresh g st hv hmoves hempty hd hfuel

/-- C7 at the example endgame position (three empty cells, Black to move). -/
theorem AIMove_routes_to_endgame_witness :
    ∃ best g', EndgameSolver 26 endgameExample endgameExample.current
        = .ok (best, endgameExample) ∧
      best ∈ ValidMoves endgameExample endgameExample.current ∧
      MakeMove endgameExample best true = .ok g' ∧
      AIMove Evaluate insertionSort 26 exampleZobrist endgameExample
          (freshState exampleZobrist 5)
        = .ok ⟨g', freshState exampleZobrist endgameExample.difficulty, []⟩ :=
  AIMove_routes_to_endgame Evaluate insertionSort 26 exampleZobrist endgameExample
    (freshState exampleZobrist 5) (Or.inl rfl) (by decide) (by decide) (by decide)
    (by decide)

/-- C3, as the code has it: a forced pass costs one ply.  In a position (valid
board) whose side to move has no legal move while the opponent has one, at a
depth `1 ≤ d < difficulty` with no usable table entry, `minimax` at depth `d`
is the search of the same grid with the opponent to move at depth `d - 1` with
the same window and the flipped `maximizing` flag: the same score and search
state, and the game is handed back with the turn switched back. -/
theorem minimax_forced_pass (evaluate : Game → Int → ℚ) (sortSlice : SortSlice) (fuel : Nat)
    (st : SearchState) (g : Game) (depth : Int) (alpha beta : Score) (maximizing : Bool)
    (aiPlayer : Int)
    (hb : ValidBoard g.board) (hnone : ValidMoves g g.current = [])
    (hopp : ValidMoves g (Opponent g.current) ≠ [])
    (hd1 : 1 ≤ depth) (hdiff : depth < g.difficulty)
    (hmiss : ∀ e, st.transpositionTable (zobristHash st.zobrist g) = some e → e.Depth < depth) :
    minimax evaluate sortSlice (fuel + 1) st g depth alpha beta maximizing aiPlayer =
      (minimax evaluate sortSlice fuel st (SwitchTurn g) (depth - 1) alpha beta (!maximizing)
        aiPlayer).map (fun r => (r.1, SwitchTurn r.2.1, r.2.2)) :=
  minimax_pass_eq evaluate sortSlice fuel st g depth alpha beta maximizing aiPlayer hb hnone hopp
    hd1 hdiff hmiss

/-- C3 (amended) at the example board with White, who has no move, to move. -/
theorem minimax_forced_pass_witness :
    minimax Evaluate insertionSort (2 + 1) (freshState exampleZobrist 5) passExample 1 ⊥ ⊤ false
        Black =
      (minimax Evaluate insertionSort 2 (freshState exampleZobrist 5) (SwitchTurn passExample)
        (1 - 1) ⊥ ⊤ (!false) Black).map (fun r => (r.1, SwitchTurn r.2.1, r.2.2)) :=
  minimax_forced_pass Evaluate insertionSort 2 (freshState exampleZobrist 5) passExample 1 ⊥ ⊤
    false Black (by decide) (by decide) (by decide) (by decide) (by decide)
    (fun e h => by simp [freshState] at h)

set_option maxRecDepth 100000 in
/-- C3 as stated fails.  On the example board with White to move (White has no
move, Black has one), depth 1, empty table: `minimax` returns `2655610/549`,
the depth-0 score of the grid with Black to move, while the search of that
grid with Black to move at the same depth 1 returns `588010/93`. -/
theorem minimax_pass_same_depth_fails :
    ValidMoves passExample passExample.current = [] ∧
    ValidMoves passExample (Opponent passExample.current) ≠ [] ∧
    scoreOf (minimax Evaluate insertionSort 3 (freshState exampleZobrist 5) passExample 1 ⊥ ⊤
      false Black) = some (Score.ofRat (2655610 / 549)) ∧
    scoreOf (minimax Evaluate insertionSort 3 (freshState exampleZobrist 5)
      (SwitchTurn passExample) 0 ⊥ ⊤ true Black) = some (Score.ofRat (2655610 / 549)) ∧
    scoreOf (minimax Evaluate insertionSort 3 (freshState exampleZobrist 5)
      (SwitchTurn passExample) 1 ⊥ ⊤ true Black) = some (Score.ofRat (588010 / 93)) ∧
    scoreOf (minimax Evaluate insertionSort 3 (freshState exampleZobrist 5) passExample 1 ⊥ ⊤
      false Black) ≠
    scoreOf (minimax Evaluate insertionSort 3 (freshState exampleZobrist 5)
      (SwitchTurn passExample) 1 ⊥ ⊤ true Black) := by
  decide!

/-- C2 (amended): alpha-beta equivalence when no position of the tree is met at
two remaining depths.  For every position (valid board, Black or White to
move), every depth `d` below the position's `difficulty`, a sorting routine
that permutes its input, and the fresh search state, if any two nodes of the
depth-`d` search tree with equal fingerprints are the same position at the same
remaining depth, then `minimax` with the full window returns a score, and it is
the score of the unpruned depth-`d` traversal `plainMinimax`. -/
theorem minimax_equals_plainMinimax (evaluate : Game → Int → ℚ) (sortSlice : SortSlice)
    (hperm : SortPermutes sortSlice) (aiPlayer : Int) (z : Zobrist) (g : Game) (d fuel : Nat)
    (maximizing : Bool) (hfuel : d < fuel) (hd : (d : Int) < g.difficulty)
    (hb : ValidBoard g.board) (hv : ValidTurn g)
    (hinj : DistinctFingerprints z (treeNodes d g maximizing)) :
    ∃ v, plainMinimax evaluate d g maximizing aiPlayer = .ok v ∧
      scoreOf (minimax evaluate sortSlice fuel (freshState z g.difficulty) g d ⊥ ⊤ maximizing
        aiPlayer) = some v :=
  minimax_fresh_eq_plain evaluate sortSlice hperm aiPlayer z g d fuel maximizing hfuel hd hb hv
    hinj

set_option maxRecDepth 1000000 in
/-- C2 (amended) at the starting position, depth 1, Black maximizing. -/
theorem minimax_equals_plainMinimax_witness :
    ∃ v, plainMinimax Evaluate 1 NewGame true Black = .ok v ∧
      scoreOf (minimax Evaluate insertionSort 2 (freshState exampleZobrist NewGame.difficulty)
        NewGame 1 ⊥ ⊤ true Black) = some v :=
  minimax_equals_plainMinimax Evaluate insertionSort insertionSort_permutes Black exampleZobrist
    NewGame 1 2 true (by decide) (by decide) (by decide) (by decide) (by decide!)

/-- C2 as stated fails.  In the example position (White to move, `difficulty`
7, 4 empty cells) no two distinct positions of the depth-5 tree share a
fingerprint, yet `minimax` at depth 5 from the fresh state with the full window
returns `26241/8` while the unpruned depth-5 traversal gives `198896/63`: a
position first searched at a larger remaining depth is met again through a
forced pass at a smaller one, and the stored entry is used. -/
theorem minimax_differs_from_plain :
    ValidBoard transpositionExample.board ∧
    (∀ n₁ ∈ treeNodes 5 transpositionExample false,
      ∀ n₂ ∈ treeNodes 5 transpositionExample false,
        zobristHash exampleZobrist n₁.1 = zobristHash exampleZobrist n₂.1 → n₁.1 = n₂.1) ∧
    scoreOf (minimax Evaluate insertionSort 6 (freshState exampleZobrist 7)
      transpositionExample 5 ⊥ ⊤ false Black) = some (Score.ofRat (26241 / 8)) ∧
    (plainMinimax Evaluate 5 transpositionExample false Black).toOption
      = some (Score.ofRat (198896 / 63)) ∧
    Score.ofRat (26241 / 8) ≠ Score.ofRat (198896 / 63) :=
  ⟨by decide, transpositionExample_fingerprints, transpositionExample_minimax,
    transpositionExample_plain, by decide!⟩

/-- C4: with `difficulty = 1` the search of `AIMove` at the starting position
ends in its first iteration before any score is compared, and the move
committed is the zero value of `Move`: Black's disc goes to the corner `(0,0)`,
no disc is flipped, every other cell is as before and White is to move.  The
cell `(0,0)` is none of the four legal opening moves. -/
theorem AIMove_opening_depth_one :
    (ValidMoves (openingWith 1) (openingWith 1).current).map (fun m => (m.X, m.Y))
      = [(2, 3), (3, 2), (4, 5), (5, 4)] ∧
    ∃ r : AIResult,
      AIMove Evaluate insertionSort 1 exampleZobrist (openingWith 1)
        (freshState exampleZobrist 1) = .ok r ∧
      r.game.board 0 0 = Black ∧
      (∀ x y : Fin 8, (x, y) ≠ (0, 0) → r.game.board x y = NewBoard x y) ∧
      r.game.current = White ∧ r.game.moveCount = 5 := by
  refine ⟨by decide, ?_⟩
  obtain ⟨r, best, _, hrun, hmove, _, hzero, _, _⟩ :=
    AIMove_heuristic Evaluate insertionSort insertionSort_permutes 1 exampleZobrist
      (openingWith 1) (freshState exampleZobrist 1) (by decide) (by decide) (by decide)
      (by decide) (by decide) (by decide)
  rw [hzero rfl, MakeMove_zero] at hmove
  injection hmove with hgame
  refine ⟨r, hrun, ?_⟩
  rw [← hgame]
  decide

/-- C5: for every position (valid board, Black or White to move) with more than
12 empty cells whose side to move has a legal move, and every `difficulty` at
least 2, `AIMove` returns, the move it commits is a member of
`ValidMoves(current)`, and it is the first move in generation order with the
highest root score of iteration `difficulty - 1`, the last iteration in which
every root move is searched and compared: the log holds iterations
`1 .. difficulty` only, and the entries of iteration `difficulty` are not
compared. -/
theorem AIMove_commits_best_of_last_complete (evaluate : Game → Int → ℚ)
    (sortSlice : SortSlice) (hperm : SortPermutes sortSlice) (fuel : Nat) (fresh : Zobrist)
    (g : Game) (st : SearchState)
    (hb : ValidBoard g.board) (hv : ValidTurn g) (hmoves : ValidMoves g g.current ≠ [])
    (hempty : 12 < CountEmptySquares g) (hD : 2 ≤ g.difficulty) (hfuel : g.difficulty ≤ fuel) :
    ∃ (r : AIResult) (best : Move) (scores : List Score),
      AIMove evaluate sortSlice fuel fresh g st = .ok r ∧
      MakeMove g best true = .ok r.game ∧
      best ∈ ValidMoves g g.current ∧
      r.log.filter (fun e => decide (e.depth = g.difficulty - 1)) =
        iterationLog (g.difficulty - 1) (ValidMoves g g.current) scores ∧
      scores.length = (ValidMoves g g.current).length ∧
      FirstMax (ValidMoves g g.current) scores best ∧
      (∀ e ∈ r.log, e.depth ≤ g.difficulty ∧ (e.depth = g.difficulty → e.compared = false)) := by
  obtain ⟨r, best, scores, hrun, hmove, _, _, hpos, hlast⟩ :=
    AIMove_heuristic evaluate sortSlice hperm fuel fresh g st hb hv hmoves hempty (by omega) hfuel
  obtain ⟨hlen, _, hfirst, hlog⟩ := hpos hD
  exact ⟨r, best, scores, hrun, hmove, firstMax_mem hfirst, hlog, hlen, hfirst,
    fun e he => ⟨(hlast e he).2.1, fun h => ((hlast e he).2.2 h).1⟩⟩

/-- C5 at the starting position with its default `difficulty` 5. -/
theorem AIMove_commits_best_of_last_complete_witness :
    ∃ (r : AIResult) (best : Move) (scores : List Score),
      AIMove Evaluate insertionSort 5 exampleZobrist NewGame (freshState exampleZobrist 5)
        = .ok r ∧
      MakeMove NewGame best true = .ok r.game ∧
      best ∈ ValidMoves NewGame NewGame.current ∧
      r.log.filter (fun e => decide (e.depth = NewGame.difficulty - 1)) =
        iterationLog (NewGame.difficulty - 1) (ValidMoves NewGame NewGame.current) scores ∧
      scores.length = (ValidMoves NewGame NewGame.current).length ∧
      FirstMax (ValidMoves NewGame NewGame.current) scores best ∧
      (∀ e ∈ r.log, e.depth ≤ NewGame.difficulty ∧
        (e.depth = NewGame.difficulty → e.compared = false)) :=
  AIMove_commits_best_of_last_complete Evaluate insertionSort insertionSort_permutes 5
    exampleZobrist NewGame (freshState exampleZobrist 5) (by decide) (by decide) (by decide)
    (by decide) (by decide) (by decide)

/-- Every iteration below the maximum depth is complete: in the heuristic path
of `AIMove` (valid board, Black or White to move, a legal move, more than 12
empty cells, `difficulty` at least 1), for every iteration depth from 1 up to
but not including `difficulty`, every legal root move is searched at that depth
and its score is compared with the best of the iteration. -/
theorem AIMove_complete_below_difficulty (evaluate : Game → Int → ℚ) (sortSlice : SortSlice)
    (hperm : SortPermutes sortSlice) (fuel : Nat) (fresh : Zobrist) (g : Game)
    (st : SearchState)
    (hb : ValidBoard g.board) (hv : ValidTurn g) (hmoves : ValidMoves g g.current ≠ [])
    (hempty : 12 < CountEmptySquares g) (hD : 1 ≤ g.difficulty) (hfuel : g.difficulty ≤ fuel) :
    ∃ r : AIResult,
      AIMove evaluate sortSlice fuel fresh g st = .ok r ∧
      ∀ k, 1 ≤ k → k < g.difficulty → ∀ m ∈ ValidMoves g g.current,
        ∃ e ∈ r.log, e.depth = k ∧ e.move = m ∧ e.compared = true := by
  obtain ⟨r, _, _, hrun, _, hall, _⟩ :=
    AIMove_heuristic evaluate sortSlice hperm fuel fresh g st hb hv hmoves hempty hD hfuel
  exact ⟨r, hrun, hall⟩

/-- The iterations below the maximum depth at the starting position with its
default `difficulty` 5. -/
theorem AIMove_complete_below_difficulty_witness :
    ∃ r : AIResult,
      AIMove Evaluate insertionSort 5 exampleZobrist NewGame (freshState exampleZobrist 5)
        = .ok r ∧
      ∀ k, 1 ≤ k → k < NewGame.difficulty → ∀ m ∈ ValidMoves NewGame NewGame.current,
        ∃ e ∈ r.log, e.depth = k ∧ e.move = m ∧ e.compared = true :=
  AIMove_complete_below_difficulty Evaluate insertionSort insertionSort_permutes 5
    exampleZobrist NewGame (freshState exampleZobrist 5) (by decide) (by decide) (by decide)
    (by decide) (by decide) (by decide)

/-- C6: the iteration at the maximum depth is cut short.  At the starting
position with its default `difficulty = 5` the legal root moves are `(2,3)`,
`(3,2)`, `(4,5)` and `(5,4)`.  `AIMove` returns; at each of the depths 1 to 4
every root move is searched and its score compared; but every root search made
at depth 5 is of the first move `(2,3)`, and its score is not compared: the
moves `(3,2)`, `(4,5)` and `(5,4)` are never searched at depth 5, and the
search of `(2,3)` at depth 5 has no effect on the move chosen. -/
theorem AIMove_last_iteration_incomplete :
    (ValidMoves NewGame NewGame.current).map (fun m => (m.X, m.Y))
      = [(2, 3), (3, 2), (4, 5), (5, 4)] ∧
    ∃ r : AIResult,
      AIMove Evaluate insertionSort 5 exampleZobrist NewGame (freshState exampleZobrist 5)
        = .ok r ∧
      (∀ k, 1 ≤ k → k < 5 → ∀ m ∈ ValidMoves NewGame NewGame.current,
        ∃ e ∈ r.log, e.depth = k ∧ e.move = m ∧ e.compared = true) ∧
      ∀ e ∈ r.log, e.depth = 5 → (e.move.X, e.move.Y) = (2, 3) ∧ e.compared = false := by
  refine ⟨by decide, ?_⟩
  obtain ⟨r, _, _, hrun, _, hall, _, _, hlast⟩ :=
    AIMove_heuristic Evaluate insertionSort insertionSort_permutes 5 exampleZobrist NewGame
      (freshState exampleZobrist 5) (by decide) (by decide) (by decide) (by decide) (by decide)
      (by decide)
  refine ⟨r, hrun, hall, fun e he hd => ?_⟩
  obtain ⟨hcmp, hhead⟩ := (hlast e he).2.2 hd
  have hfirst : (ValidMoves NewGame NewGame.current).head?.map (fun m => (m.X, m.Y))
      = some (2, 3) := by decide
  rw [hhead] at hfirst
  exact ⟨Option.some.inj hfirst, hcmp⟩

/-- C11: for fixed hash constants, two games with the same grid and the same
side to move have the same `computeZobristHash` result, whatever their
`moveCount`, `difficulty` and AI flags. -/
theorem computeZobristHash_same_position (z : Zobrist) (g₁ g₂ : Game)
    (hb : g₁.board = g₂.board) (hc : g₁.current = g₂.current) :
    computeZobristHash z g₁ = computeZobristHash z g₂ :=
  computeZobristHash_congr z hb hc

/-- C11 at the starting position against a copy with other counters and flags. -/
theorem computeZobristHash_same_position_witness :
    computeZobristHash exampleZobrist NewGame =
      computeZobristHash exampleZobrist
        { NewGame with blackAI := true, whiteAI := true, moveCount := 17, difficulty := 9 } :=
  computeZobristHash_same_position exampleZobrist NewGame
    { NewGame with blackAI := true, whiteAI := true, moveCount := 17, difficulty := 9 } rfl rfl

/-- C12: for fixed hash constants `T`, if `g'` differs from `g` (a valid board)
only in the cell `(x, y)`, which holds the state `a` in `g` and `b` in `g'`,
with the same side to move, then both hashes are computed and
`hash(g') = hash(g) xor T[x][y][a] xor T[x][y][b]`; hence the two hashes differ
whenever `T[x][y][a] ≠ T[x][y][b]`. -/
theorem computeZobristHash_one_cell (z : Zobrist) (g g' : Game) (x y : Fin 8) (a b : Fin 3)
    (hb : ValidBoard g.board) (ha : g.board x y = ((a : Nat) : Int))
    (hb' : g'.board x y = ((b : Nat) : Int))
    (hrest : ∀ i j, (i, j) ≠ (x, y) → g'.board i j = g.board i j)
    (hc : g'.current = g.current) :
    ∃ h, computeZobristHash z g = .ok h ∧
      computeZobristHash z g' = .ok (h ^^^ z.table x y a ^^^ z.table x y b) ∧
      (z.table x y a ≠ z.table x y b → computeZobristHash z g' ≠ computeZobristHash z g) := by
  have hvb' : ValidBoard g'.board := by
    intro i j
    by_cases hij : (i, j) = (x, y)
    · obtain ⟨rfl, rfl⟩ := Prod.mk.inj hij
      rw [hb']
      fin_cases b
      · exact Or.inl rfl
      · exact Or.inr (Or.inl rfl)
      · exact Or.inr (Or.inr rfl)
    · rw [hrest i j hij]; exact hb i j
  have hset := zobristHash_set z g g' x y hrest hc
  rw [ha, hb', pieceIndex_fin, pieceIndex_fin] at hset
  refine ⟨zobristHash z g, computeZobristHash_valid z g hb, ?_, ?_⟩
  · rw [computeZobristHash_valid z g' hvb', hset]
  · intro hne heq
    rw [computeZobristHash_valid z g' hvb', computeZobristHash_valid z g hb, hset] at heq
    exact xor_xor_ne hne (Except.ok.inj heq)

/-- C12 at the starting position: Black's disc put on the empty cell `(2,3)`. -/
theorem computeZobristHash_one_cell_witness :
    ∃ h, computeZobristHash exampleZobrist NewGame = .ok h ∧
      computeZobristHash exampleZobrist { NewGame with board := NewBoard.set 2 3 Black }
        = .ok (h ^^^ exampleZobrist.table 2 3 0 ^^^ exampleZobrist.table 2 3 1) ∧
      (exampleZobrist.table 2 3 0 ≠ exampleZobrist.table 2 3 1 →
        computeZobristHash exampleZobrist { NewGame with board := NewBoard.set 2 3 Black }
          ≠ computeZobristHash exampleZobrist NewGame) :=
  computeZobristHash_one_cell exampleZobrist NewGame
    { NewGame with board := NewBoard.set 2 3 Black } 2 3 0 1 (by decide) (by decide)
    (by decide) (by decide) rfl

/-- C13: for every position and depth `d < difficulty`, a table that holds an
`Exact` entry `{Depth: d, Eval: s}` under the position's fingerprint makes
`minimax(position, d, -inf, +inf)` return `s`, with the search state untouched.
This holds for every `s`, so in particular for the score minimax returns for
the same arguments from an empty table. -/
theorem minimax_exact_entry (evaluate : Game → Int → ℚ) (sortSlice : SortSlice) (fuel : Nat)
    (st : SearchState) (g : Game) (d : Int) (maximizing : Bool) (aiPlayer : Int) (s : Score)
    (h : Nat) (e : TTEntry)
    (hd : d < g.difficulty) (hh : computeZobristHash st.zobrist g = .ok h)
    (he : st.transpositionTable h = some e) (hD : e.Depth = d) (hE : e.Eval = s)
    (hF : e.Flag = Exact) :
    minimax evaluate sortSlice (fuel + 1) st g d ⊥ ⊤ maximizing aiPlayer = .ok (s, g, st) := by
  apply minimax_hit_hash evaluate sortSlice fuel st g d ⊥ ⊤ s maximizing aiPlayer h
    (by omega) hh
  rw [he, ← hE]
  exact probe_exact (by omega) hF ⊥ ⊤

/-- C13 at the starting position, depth 1: the score `s` returned from the empty
table is returned again when the table holds the entry `{1, s, Exact}`. -/
theorem minimax_exact_entry_witness :
    ∃ s, scoreOf (minimax Evaluate insertionSort 2 (freshState exampleZobrist 5) NewGame 1 ⊥ ⊤
        true Black) = some s ∧
      minimax Evaluate insertionSort 1
        ((freshState exampleZobrist 5).store (zobristHash exampleZobrist NewGame)
          { Depth := 1, Eval := s, Flag := Exact, BestMove := Move.zero })
        NewGame 1 ⊥ ⊤ true Black
      = .ok (s, NewGame,
          (freshState exampleZobrist 5).store (zobristHash exampleZobrist NewGame)
            { Depth := 1, Eval := s, Flag := Exact, BestMove := Move.zero }) := by
  obtain ⟨r, st', _, hrun, _⟩ :=
    minimax_spec Evaluate insertionSort insertionSort_permutes Black exampleZobrist 5 []
      (distinctFingerprints_nil exampleZobrist) 1 2 (freshState exampleZobrist 5) NewGame ⊥ ⊤
      true (by decide) (by decide) rfl (by decide) (by decide)
      (freshState_ok exampleZobrist (by decide))
  refine ⟨r, congrArg scoreOf hrun, ?_⟩
  exact minimax_exact_entry Evaluate insertionSort 0 _ NewGame 1 true Black r
    (zobristHash exampleZobrist NewGame)
    { Depth := 1, Eval := r, Flag := Exact, BestMove := Move.zero } (by decide)
    (computeZobristHash_valid exampleZobrist NewGame (by decide))
    (by simp [SearchState.store]) rfl rfl rfl
/-- C14: for every position, depth `d ≠ difficulty` and window, with a table
whose entry for the position's fingerprint (if any) is flagged `Exact`,
`LowerBound` or `UpperBound`: the table lookup of `minimax` ends the call with
the score `s` exactly when the table holds an entry with stored depth `≥ d`
and score `s` that is `Exact`, or `LowerBound` with `max(alpha, Eval) ≥ beta`,
or `UpperBound` with `alpha ≥ min(beta, Eval)`; in that case `minimax` returns
the stored score, for every evaluator and sorting routine and with the search
state untouched.  An entry with stored depth `< d` gives no early return and
leaves the window as it is. -/
theorem minimax_table_cutoff (evaluate : Game → Int → ℚ) (sortSlice : SortSlice) (fuel : Nat)
    (st : SearchState) (g : Game) (d : Int) (alpha beta : Score) (maximizing : Bool)
    (aiPlayer : Int) (h : Nat)
    (hd : d ≠ g.difficulty) (hh : computeZobristHash st.zobrist g = .ok h)
    (hflag : ∀ e, st.transpositionTable h = some e →
      e.Flag = Exact ∨ e.Flag = LowerBound ∨ e.Flag = UpperBound) :
    (∀ s, probe (st.transpositionTable h) d alpha beta = Probe.hit s ↔
      ∃ e, st.transpositionTable h = some e ∧ e.Depth ≥ d ∧ s = e.Eval ∧
        (e.Flag = Exact ∨ (e.Flag = LowerBound ∧ max alpha e.Eval ≥ beta) ∨
          (e.Flag = UpperBound ∧ alpha ≥ min beta e.Eval))) ∧
    (∀ s, probe (st.transpositionTable h) d alpha beta = Probe.hit s →
      minimax evaluate sortSlice (fuel + 1) st g d alpha beta maximizing aiPlayer
        = .ok (s, g, st)) ∧
    (∀ e, st.transpositionTable h = some e → e.Depth < d →
      probe (st.transpositionTable h) d alpha beta = Probe.miss alpha beta) := by
  refine ⟨?_, ?_, ?_⟩
  · intro s
    cases he : st.transpositionTable h with
    | none =>
      constructor
      · intro hp; cases hp
      · rintro ⟨e, he', _⟩; cases he'
    | some e =>
      rw [probe_some_hit_iff e d alpha beta s (hflag e he)]
      constructor
      · intro hc; exact ⟨e, rfl, hc⟩
      · rintro ⟨e', he', hc⟩
        rw [← Option.some.inj he'] at hc
        exact hc
  · intro s hp
    exact minimax_hit_hash evaluate sortSlice fuel st g d alpha beta s maximizing aiPlayer h hd
      hh hp
  · intro e he hlt
    exact probe_of_shallow alpha beta (fun e' he' => by
      rw [he] at he'
      rw [← Option.some.inj he']
      exact hlt)

/-- C14 at the starting position: the table holds a lower bound 7 found at depth
3, the call is at depth 2 with the window `(-inf, 5)`, and `minimax` returns 7
from the lookup. -/
theorem minimax_table_cutoff_witness :
    minimax Evaluate insertionSort 1 lowerBoundExample NewGame 2 ⊥ (Score.ofRat 5) true Black
      = .ok (Score.ofRat 7, NewGame, lowerBoundExample) := by
  have hentry : lowerBoundExample.transpositionTable (zobristHash exampleZobrist NewGame)
      = some { Depth := 3, Eval := Score.ofRat 7, Flag := LowerBound, BestMove := Move.zero } := by
    simp only [lowerBoundExample, SearchState.store, if_true]
  have T := minimax_table_cutoff Evaluate insertionSort 0 lowerBoundExample NewGame 2 ⊥
    (Score.ofRat 5) true Black (zobristHash exampleZobrist NewGame) (by decide)
    (computeZobristHash_valid exampleZobrist NewGame (by decide))
    (fun e he => by
      rw [hentry] at he
      rw [← Option.some.inj he]
      exact Or.inr (Or.inl rfl))
  exact T.2.1 (Score.ofRat 7)
    ((T.1 (Score.ofRat 7)).mpr
      ⟨_, hentry, by decide, rfl, Or.inr (Or.inl ⟨rfl, by decide!⟩)⟩)

/-- C15: whenever `minimax` expands a node (valid board, Black or White to
move, `0 < depth < difficulty`, game not over, the side to move has a legal
move, the lookup gives no early return and leaves the window `(a, b)`), the
call returns the value of its move loop, and the entry stored under the node's
fingerprint has `Depth = depth`, `Eval` the returned value and the flag
`UpperBound` if `value ≤ a`, otherwise `LowerBound` if `value ≥` the beta in
force after the move loop (`b` in a maximizing node, the loop's lowered beta in
a minimizing one), otherwise `Exact`. -/
theorem minimax_stored_entry (evaluate : Game → Int → ℚ) (sortSlice : SortSlice)
    (hperm : SortPermutes sortSlice) (aiPlayer : Int) (z : Zobrist) (d fuel : Nat)
    (st : SearchState) (g : Game) (alpha beta a b : Score) (maximizing : Bool)
    (hfuel : d ≤ fuel) (hd0 : 0 < d) (hdD : (d : Int) < g.difficulty)
    (hb : ValidBoard g.board) (hv : ValidTurn g) (hok : StateOK z g.difficulty st)
    (hp : probe (st.transpositionTable (zobristHash st.zobrist g)) d alpha beta = Probe.miss a b)
    (hover : IsGameOver g = false) (hsome : ValidMoves g g.current ≠ []) :
    ∃ (ordered : List Move) (l : LoopResult) (st' : SearchState),
      orderMoves evaluate sortSlice st g (ValidMoves g g.current) d aiPlayer = .ok ordered ∧
      (if maximizing then
          maxLoop
            (fun st newGame a b => do
              let r ← minimax evaluate sortSlice fuel st newGame ((d : Int) - 1) a b false aiPlayer
              pure (r.1, r.2.2))
            g d b ordered ⊥ Move.zero a st
        else
          minLoop
            (fun st newGame a b => do
              let r ← minimax evaluate sortSlice fuel st newGame ((d : Int) - 1) a b true aiPlayer
              pure (r.1, r.2.2))
            g d a ordered ⊤ Move.zero b st) = .ok l ∧
      minimax evaluate sortSlice (fuel + 1) st g d alpha beta maximizing aiPlayer
        = .ok (l.value, g, st') ∧
      st'.transpositionTable (zobristHash st.zobrist g) = some
        { Depth := d, Eval := l.value,
          Flag := if l.value ≤ a then UpperBound
                  else if l.value ≥ (if maximizing then b else l.bound) then LowerBound
                  else Exact,
          BestMove := l.bestMove } := by
  obtain ⟨ordered, l, hord, hloop, hrun⟩ :=
    minimax_node_entry evaluate sortSlice hperm aiPlayer z d fuel st g alpha beta a b maximizing
      hfuel hd0 hdD hb hv hok hp hover hsome
  refine ⟨ordered, l, _, hord, hloop, hrun, ?_⟩
  simp only [SearchState.store, if_true]
  rfl

/-- C15 at the starting position: depth 1, Black maximizing, empty table. -/
theorem minimax_stored_entry_witness :
    ∃ (ordered : List Move) (l : LoopResult) (st' : SearchState),
      orderMoves Evaluate insertionSort (freshState exampleZobrist 5) NewGame
        (ValidMoves NewGame NewGame.current) ((1 : Nat) : Int) Black = .ok ordered ∧
      (if true = true then
          maxLoop
            (fun st newGame a b => do
              let r ← minimax Evaluate insertionSort 1 st newGame (((1 : Nat) : Int) - 1) a b
                false Black
              pure (r.1, r.2.2))
            NewGame ((1 : Nat) : Int) ⊤ ordered ⊥ Move.zero ⊥ (freshState exampleZobrist 5)
        else
          minLoop
            (fun st newGame a b => do
              let r ← minimax Evaluate insertionSort 1 st newGame (((1 : Nat) : Int) - 1) a b
                true Black
              pure (r.1, r.2.2))
            NewGame ((1 : Nat) : Int) ⊥ ordered ⊤ Move.zero ⊤ (freshState exampleZobrist 5))
        = .ok l ∧
      minimax Evaluate insertionSort (1 + 1) (freshState exampleZobrist 5) NewGame
        ((1 : Nat) : Int) ⊥ ⊤ true Black = .ok (l.value, NewGame, st') ∧
      st'.transpositionTable (zobristHash (freshState exampleZobrist 5).zobrist NewGame) = some
        { Depth := ((1 : Nat) : Int), Eval := l.value,
          Flag := if l.value ≤ ⊥ then UpperBound
                  else if l.value ≥ (if true = true then ⊤ else l.bound) then LowerBound
                  else Exact,
          BestMove := l.bestMove } :=
  minimax_stored_entry Evaluate insertionSort insertionSort_permutes Black exampleZobrist 1 1
    (freshState exampleZobrist 5) NewGame ⊥ ⊤ ⊥ ⊤ true (by decide) (by decide) (by decide)
    (by decide) (by decide) (freshState_ok exampleZobrist (by decide)) rfl (by decide)
    (by decide)

/-- C23: a minimizing `minimax` node that searches at least one move (valid
board, Black or White to move, `0 < depth < difficulty`, game not over, a legal
move, no early return from the lookup, window `(a, b)` after the lookup) never
stores an `Exact` entry: the stored flag is `UpperBound` when `value ≤ a` and
`LowerBound` otherwise, whatever the value. -/
theorem minimax_min_node_flag (evaluate : Game → Int → ℚ) (sortSlice : SortSlice)
    (hperm : SortPermutes sortSlice) (aiPlayer : Int) (z : Zobrist) (d fuel : Nat)
    (st : SearchState) (g : Game) (alpha beta a b : Score)
    (hfuel : d ≤ fuel) (hd0 : 0 < d) (hdD : (d : Int) < g.difficulty)
    (hb : ValidBoard g.board) (hv : ValidTurn g) (hok : StateOK z g.difficulty st)
    (hp : probe (st.transpositionTable (zobristHash st.zobrist g)) d alpha beta = Probe.miss a b)
    (hover : IsGameOver g = false) (hsome : ValidMoves g g.current ≠ []) :
    ∃ (value : Score) (bestMove : Move) (st' : SearchState),
      minimax evaluate sortSlice (fuel + 1) st g d alpha beta false aiPlayer
        = .ok (value, g, st') ∧
      st'.transpositionTable (zobristHash st.zobrist g) = some
        { Depth := d, Eval := value,
          Flag := if value ≤ a then UpperBound else LowerBound,
          BestMove := bestMove } := by
  obtain ⟨ordered, l, hord, hloop, hrun⟩ :=
    minimax_node_entry evaluate sortSlice hperm aiPlayer z d fuel st g alpha beta a b false
      hfuel hd0 hdD hb hv hok hp hover hsome
  have hne : ¬ (d : Int) = g.difficulty := by omega
  have hordne : ordered ≠ [] := by
    intro h
    obtain ⟨o', ho', hperm'⟩ := orderMoves_ok evaluate sortSlice hperm st g d aiPlayer
      (by omega) hdD hok.2.1 g.current
    rw [hord] at ho'
    rw [← Except.ok.inj ho', h] at hperm'
    exact hsome hperm'.symm.eq_nil
  have hbound := minLoop_bound_le _ g d a hne ordered ⊤ Move.zero b st l hloop (Or.inl hordne)
  refine ⟨l.value, l.bestMove, _, hrun, ?_⟩
  simp only [SearchState.store, if_true, storeFlag, Bool.false_eq_true, if_false]
  by_cases h1 : l.value ≤ a
  · rw [if_pos h1, if_pos h1]
  · rw [if_neg h1, if_neg h1, if_pos hbound]

/-- C23 at the starting position: depth 1, minimizing, empty table. -/
theorem minimax_min_node_flag_witness :
    ∃ (value : Score) (bestMove : Move) (st' : SearchState),
      minimax Evaluate insertionSort (1 + 1) (freshState exampleZobrist 5) NewGame
        ((1 : Nat) : Int) ⊥ ⊤ false Black = .ok (value, NewGame, st') ∧
      st'.transpositionTable (zobristHash (freshState exampleZobrist 5).zobrist NewGame) = some
        { Depth := ((1 : Nat) : Int), Eval := value,
          Flag := if value ≤ ⊥ then UpperBound else LowerBound,
          BestMove := bestMove } :=
  minimax_min_node_flag Evaluate insertionSort insertionSort_permutes Black exampleZobrist 1 1
    (freshState exampleZobrist 5) NewGame ⊥ ⊤ ⊥ ⊤ (by decide) (by decide) (by decide)
    (by decide) (by decide) (freshState_ok exampleZobrist (by decide)) rfl (by decide)
    (by decide)
/-- C16: for every position, list of moves on the board with pairwise distinct
target cells, and depth whose killer slot `depth % difficulty` exists and holds
the cell `k`, with a `sort.Slice` that permutes and sorts: `orderMoves` returns
a permutation of its input in which a move on the cell `k`, if there is one,
comes first, and for every two later moves at positions `i < j` the history
weight of `i` is `≥` that of `j`, and when the two weights are equal the
one-ply static evaluation of `i` (`Evaluate(aiPlayer)` after
`SimulateMove(move, false)`) is `≥` that of `j`. -/
theorem orderMoves_ordering (evaluate : Game → Int → ℚ) (sortSlice : SortSlice)
    (hperm : SortPermutes sortSlice) (hsort : SortSorts sortSlice) (st : SearchState)
    (g : Game) (moves : List Move) (depth : Int) (aiPlayer : Int) (k : MoveKey)
    (hon : ∀ m ∈ moves, m.OnBoard) (hcells : (moves.map Move.key).Nodup)
    (hk : killerGet st depth g.difficulty = .ok k) :
    ∃ ordered, orderMoves evaluate sortSlice st g moves depth aiPlayer = .ok ordered ∧
      ordered.Perm moves ∧
      (∀ m ∈ moves, m.key = k → ordered.head? = some m) ∧
      ordered.Pairwise (fun m₁ m₂ => m₁.key ≠ k →
        st.historyTable m₁.key ≥ st.historyTable m₂.key ∧
        (st.historyTable m₁.key = st.historyTable m₂.key →
          evaluate (placedOf g m₁) aiPlayer ≥ evaluate (placedOf g m₂) aiPlayer)) :=
  orderMoves_spec evaluate sortSlice hperm hsort st g moves depth aiPlayer k hon hcells hk

/-- C16 at the starting position: the four opening moves, depth 1, fresh state
(every killer slot holds the cell `(0,0)`), insertion sort. -/
theorem orderMoves_ordering_witness :
    ∃ ordered, orderMoves Evaluate insertionSort (freshState exampleZobrist 5) NewGame
        (ValidMoves NewGame Black) 1 Black = .ok ordered ∧
      ordered.Perm (ValidMoves NewGame Black) ∧
      (∀ m ∈ ValidMoves NewGame Black, m.key = ⟨0, 0⟩ → ordered.head? = some m) ∧
      ordered.Pairwise (fun m₁ m₂ => m₁.key ≠ ⟨0, 0⟩ →
        (freshState exampleZobrist 5).historyTable m₁.key
          ≥ (freshState exampleZobrist 5).historyTable m₂.key ∧
        ((freshState exampleZobrist 5).historyTable m₁.key
            = (freshState exampleZobrist 5).historyTable m₂.key →
          Evaluate (placedOf NewGame m₁) Black ≥ Evaluate (placedOf NewGame m₂) Black)) :=
  orderMoves_ordering Evaluate insertionSort insertionSort_permutes insertionSort_sorts
    (freshState exampleZobrist 5) NewGame (ValidMoves NewGame Black) 1 Black ⟨0, 0⟩
    (fun _ hm => ValidMoves_bounds hm) (by decide) rfl

/-- C17: in a move loop of `minimax` at a depth other than `difficulty`, for
every child search: if the loop searched a move, then with `m` the last move
searched and `stOut` the search state its search returned, either the loop
ended without `alpha ≥ beta` and leaves exactly `stOut` (no change of its own),
or it stopped because `alpha ≥ beta` after searching `m` and leaves `stOut`
with the history weight of `m`'s cell increased by exactly `depth * depth` and
the killer slot `depth % difficulty` set to `m`'s cell, nothing else changed.
A loop over no move leaves the state as it is.  The first part is the
maximizing loop, the second the minimizing one. -/
theorem minimax_cutoff_bookkeeping
    (search : SearchState → Game → Score → Score → Except Fault (Score × SearchState))
    (game : Game) (depth : Int) (hne : ¬ depth = game.difficulty) :
    (∀ (beta : Score) (moves : List Move) (value : Score) (bestMove : Move) (alpha : Score)
      (st : SearchState) (l : LoopResult),
      maxLoop search game depth beta moves value bestMove alpha st = .ok l →
      (moves = [] ∧ l.st = st ∧ l.bound = alpha) ∨
      ∃ m ∈ moves, ∃ (stIn : SearchState) (ng : Game) (a s : Score) (stOut : SearchState),
        SimulateMove game m true = .ok ng ∧ search stIn ng a beta = .ok (s, stOut) ∧
        ((l.bound < beta ∧ l.st = stOut) ∨
         (l.bound ≥ beta ∧ Recorded stOut l.st m depth game.difficulty))) ∧
    (∀ (alpha : Score) (moves : List Move) (value : Score) (bestMove : Move) (beta : Score)
      (st : SearchState) (l : LoopResult),
      minLoop search game depth alpha moves value bestMove beta st = .ok l →
      (moves = [] ∧ l.st = st ∧ l.bound = beta) ∨
      ∃ m ∈ moves, ∃ (stIn : SearchState) (ng : Game) (b s : Score) (stOut : SearchState),
        SimulateMove game m true = .ok ng ∧ search stIn ng alpha b = .ok (s, stOut) ∧
        ((alpha < l.bound ∧ l.st = stOut) ∨
         (alpha ≥ l.bound ∧ Recorded stOut l.st m depth game.difficulty))) :=
  ⟨fun beta => maxLoop_bookkeeping search game depth beta hne,
   fun alpha => minLoop_bookkeeping search game depth alpha hne⟩

/-- C18: for every board and `aiPlayer` Black or White, `EvaluateEndgame` is
`+100` if `aiPlayer` has strictly more discs on the board than the opponent,
`-100` if it has strictly fewer and `0` if the counts are equal; `GetWinner`
is the side with strictly more discs, and `Blank` on a tie. -/
theorem EvaluateEndgame_by_discs (g : Game) (aiPlayer : Int)
    (hai : aiPlayer = Black ∨ aiPlayer = White) :
    EvaluateEndgame g aiPlayer =
      (if discsOf g.board aiPlayer > discsOf g.board (Opponent aiPlayer) then Score.ofRat 100
       else if discsOf g.board aiPlayer < discsOf g.board (Opponent aiPlayer) then
         Score.ofRat (-100)
       else Score.ofRat 0) ∧
    GetWinner g =
      (if discsOf g.board Black > discsOf g.board White then Black
       else if discsOf g.board White > discsOf g.board Black then White
       else Blank) :=
  ⟨EvaluateEndgame_eq g aiPlayer hai, GetWinner_eq g⟩

/-- C18 at the example endgame board, for White. -/
theorem EvaluateEndgame_by_discs_witness :
    EvaluateEndgame endgameExample White =
      (if discsOf endgameExample.board White > discsOf endgameExample.board (Opponent White)
        then Score.ofRat 100
       else if discsOf endgameExample.board White
          < discsOf endgameExample.board (Opponent White) then
         Score.ofRat (-100)
       else Score.ofRat 0) ∧
    GetWinner endgameExample =
      (if discsOf endgameExample.board Black > discsOf endgameExample.board White then Black
       else if discsOf endgameExample.board White > discsOf endgameExample.board Black
        then White
       else Blank) :=
  EvaluateEndgame_by_discs endgameExample White (Or.inr rfl)

/-- C19: `SimulateMove` is pure.  On the heap, for a receiver `p` that holds
the game `g` and a move that `MakeMove` can apply to `g` (giving `gm`),
`SimulateMove` returns a new pointer `q`; afterwards `p` holds `g` as before
(board cells, side to move and `moveCount` unchanged), as does every other
game of the heap, and `q` holds the result of the value-level `SimulateMove`,
whose board, side to move, `moveCount` and `difficulty` are those of `gm`. -/
theorem SimulateMove_pure (h : Heap) (p : Nat) (move : Move) (switchTurn : Bool) (g gm : Game)
    (hl : h.load p = .ok g) (hm : MakeMove g move switchTurn = .ok gm) :
    ∃ (h' : Heap) (q : Nat) (g' : Game),
      h.SimulateMove p move switchTurn = .ok (h', q) ∧
      h'.load p = .ok g ∧ (∀ p' v, h.load p' = .ok v → h'.load p' = .ok v) ∧
      h'.load q = .ok g' ∧ SimulateMove g move switchTurn = .ok g' ∧
      g'.board = gm.board ∧ g'.current = gm.current ∧ g'.moveCount = gm.moveCount ∧
      g'.difficulty = gm.difficulty := by
  obtain ⟨h', hrun, hframe, hq⟩ := heap_SimulateMove_spec h p move switchTurn g gm hl hm
  refine ⟨h', h.games.length, gm.Copy, hrun, hframe p g hl, hframe, hq, ?_, rfl, rfl, rfl, rfl⟩
  rw [SimulateMove_eq_map, hm]
  rfl

/-- C19 on a heap holding the starting position, for Black's opening move on `(2,3)`. -/
theorem SimulateMove_pure_witness :
    ∃ (h' : Heap) (q : Nat) (g' : Game),
      heapExample.SimulateMove 0 openingMove true = .ok (h', q) ∧
      h'.load 0 = .ok NewGame ∧
      (∀ p' v, heapExample.load p' = .ok v → h'.load p' = .ok v) ∧
      h'.load q = .ok g' ∧ SimulateMove NewGame openingMove true = .ok g' ∧
      g'.board = (childOf NewGame openingMove).board ∧
      g'.current = (childOf NewGame openingMove).current ∧
      g'.moveCount = (childOf NewGame openingMove).moveCount ∧
      g'.difficulty = (childOf NewGame openingMove).difficulty :=
  SimulateMove_pure heapExample 0 openingMove true NewGame (childOf NewGame openingMove) rfl
    (by
      have h := MakeMove_eq NewGame openingMove true (by decide) (by decide)
      rw [if_pos rfl] at h
      exact h)

/-- C20: for every game state in which the side to move has a legal move, the
result of `AIMove` (the game with the committed move, the search state left
behind and the root searches made) does not depend on the search state before
the call: two runs from the same game that draw the same hash constants give
the same result. -/
theorem AIMove_fresh_state (evaluate : Game → Int → ℚ) (sortSlice : SortSlice) (fuel : Nat)
    (fresh : Zobrist) (g : Game) (st₁ st₂ : SearchState)
    (hmoves : ValidMoves g g.current ≠ []) :
    AIMove evaluate sortSlice fuel fresh g st₁ = AIMove evaluate sortSlice fuel fresh g st₂ :=
  AIMove_state_irrelevant evaluate sortSlice fuel fresh g st₁ st₂ hmoves

/-- C20 at the starting position: an empty state against one with a table entry. -/
theorem AIMove_fresh_state_witness :
    AIMove Evaluate insertionSort 5 exampleZobrist NewGame (freshState exampleZobrist 5)
      = AIMove Evaluate insertionSort 5 exampleZobrist NewGame lowerBoundExample :=
  AIMove_fresh_state Evaluate insertionSort 5 exampleZobrist NewGame
    (freshState exampleZobrist 5) lowerBoundExample (by decide)

/-- C21: for every game whose side to move is Black or White, a call of
`minimax` or of `minimaxEndgame` that returns leaves the game it was handed
exactly as on entry (board cells, side to move, `moveCount` and the other
fields), also when the forced-pass branch switched the turn for the recursive
call. -/
theorem search_leaves_game (g : Game) (hv : ValidTurn g) :
    (∀ (evaluate : Game → Int → ℚ) (sortSlice : SortSlice) (fuel : Nat) (st : SearchState)
      (depth : Int) (alpha beta : Score) (maximizing : Bool) (aiPlayer : Int) (r : Score)
      (g' : Game) (st' : SearchState),
      minimax evaluate sortSlice fuel st g depth alpha beta maximizing aiPlayer
        = .ok (r, g', st') → g' = g) ∧
    (∀ (fuel : Nat) (alpha beta : Score) (maximizing : Bool) (aiPlayer : Int) (r : Score)
      (g' : Game),
      minimaxEndgame fuel g alpha beta maximizing aiPlayer = .ok (r, g') → g' = g) :=
  ⟨fun evaluate sortSlice fuel st depth alpha beta maximizing aiPlayer r g' st' h =>
    minimax_game_eq evaluate sortSlice aiPlayer fuel st g depth alpha beta maximizing r g' st'
      hv h,
   fun fuel alpha beta maximizing aiPlayer r g' h =>
    minimaxEndgame_game_eq aiPlayer fuel g alpha beta maximizing r g' hv h⟩

/-- C22: for every position, window, maximizing flag and perspective, `minimax`
called with `depth = difficulty` returns 0, for every evaluator, sorting routine
and search state, and hands back the search state it was given. -/
theorem minimax_max_depth_neutral (evaluate : Game → Int → ℚ) (sortSlice : SortSlice)
    (fuel : Nat) (st : SearchState) (g : Game) (alpha beta : Score) (maximizing : Bool)
    (aiPlayer : Int) :
    minimax evaluate sortSlice (fuel + 1) st g g.difficulty alpha beta maximizing aiPlayer
      = .ok (Score.ofRat 0, g, st) :=
  minimax_at_difficulty evaluate sortSlice fuel st g alpha beta maximizing aiPlayer
/-- C17 for the maximizing loop over the four opening moves at depth 1 with
`beta = 0` and a child search that returns 1: the loop stops after the first
move. -/
theorem minimax_cutoff_bookkeeping_witness :
    ∃ l, maxLoop (constantSearch (Score.ofRat 1)) NewGame 1 (Score.ofRat 0)
        (ValidMoves NewGame Black) ⊥ Move.zero ⊥ (freshState exampleZobrist 5) = .ok l ∧
      ((ValidMoves NewGame Black = [] ∧ l.st = freshState exampleZobrist 5 ∧ l.bound = ⊥) ∨
      ∃ m ∈ ValidMoves NewGame Black,
        ∃ (stIn : SearchState) (ng : Game) (a s : Score) (stOut : SearchState),
        SimulateMove NewGame m true = .ok ng ∧
        constantSearch (Score.ofRat 1) stIn ng a (Score.ofRat 0) = .ok (s, stOut) ∧
        ((l.bound < Score.ofRat 0 ∧ l.st = stOut) ∨
         (l.bound ≥ Score.ofRat 0 ∧ Recorded stOut l.st m 1 NewGame.difficulty))) :=
  ⟨_, rfl, (minimax_cutoff_bookkeeping (constantSearch (Score.ofRat 1)) NewGame 1
    (by decide)).1 (Score.ofRat 0) (ValidMoves NewGame Black) ⊥ Move.zero ⊥
    (freshState exampleZobrist 5) _ rfl⟩

/-- C21 at the example board with White, who has to pass, to move. -/
theorem search_leaves_game_witness :
    (∀ (evaluate : Game → Int → ℚ) (sortSlice : SortSlice) (fuel : Nat) (st : SearchState)
      (depth : Int) (alpha beta : Score) (maximizing : Bool) (aiPlayer : Int) (r : Score)
      (g' : Game) (st' : SearchState),
      minimax evaluate sortSlice fuel st passExample depth alpha beta maximizing aiPlayer
        = .ok (r, g', st') → g' = passExample) ∧
    (∀ (fuel : Nat) (alpha beta : Score) (maximizing : Bool) (aiPlayer : Int) (r : Score)
      (g' : Game),
      minimaxEndgame fuel passExample alpha beta maximizing aiPlayer = .ok (r, g') →
        g' = passExample) :=
  search_leaves_game passExample (by decide)
/-- C24: the exact endgame search terminates.  On every position whose side to
move is Black or White, `minimaxEndgame` returns for every fuel from
`2 * 64 + 2` on, whatever the window: a recursive call on a simulated move has
strictly fewer empty cells, and a forced pass goes to a side that has a legal
move.  `EndgameSolver` returns, for every fuel from 133 on, on every position
in which Black or White has a legal move. -/
theorem endgame_search_terminates (g : Game) :
    (ValidTurn g → ∀ fuel, 130 ≤ fuel →
      ∀ (alpha beta : Score) (maximizing : Bool) (aiPlayer : Int),
        ∃ r, minimaxEndgame fuel g alpha beta maximizing aiPlayer = .ok (r, g)) ∧
    (ValidTurn g → ∀ m ∈ ValidMoves g g.current,
      SimulateMove g m true = .ok (childOf g m) ∧
        emptyCount (childOf g m).board < emptyCount g.board) ∧
    (ValidTurn g → IsGameOver g = false → ValidMoves g g.current = [] →
      ValidMoves (SwitchTurn g) (SwitchTurn g).current ≠ []) ∧
    ((ValidMoves g Black ≠ [] ∨ ValidMoves g White ≠ []) → ∀ fuel, 133 ≤ fuel →
      ∀ aiPlayer, ∃ best g', EndgameSolver fuel g aiPlayer = .ok (best, g')) := by
  refine ⟨?_, ?_, ?_, ?_⟩
  · intro hv fuel hf alpha beta mx ai
    have hle := emptyCount_le g.board
    exact minimaxEndgame_total fuel g alpha beta mx ai hv (by split <;> omega)
  · intro hv m hm
    refine ⟨SimulateMove_child hm, ?_⟩
    rw [childOf_board]
    exact emptyCount_movedBoard_lt hm (ValidTurn_ne_blank hv)
  · intro hv hover hnone
    exact pass_has_move hv hover hnone
  · intro hside fuel hf ai
    exact EndgameSolver_total g ai fuel hside hf

/-- C24 at the example endgame board, Black to move. -/
theorem endgame_search_terminates_witness :
    (∃ r, minimaxEndgame 130 endgameExample ⊥ ⊤ true Black = .ok (r, endgameExample)) ∧
    (∃ best g', EndgameSolver 133 endgameExample Black = .ok (best, g')) :=
  ⟨(endgame_search_terminates endgameExample).1 (by decide) 130 (le_refl _) ⊥ ⊤ true Black,
   (endgame_search_terminates endgameExample).2.2.2 (Or.inl (by decide)) 133 (le_refl _) Black⟩

/-- C25: depth stays in range.  In the heuristic path of `AIMove` (valid board,
Black or White to move, a legal move, more than 12 empty cells) with
`difficulty ≥ 1`, `AIMove` returns without a fault, and for every root search
it made (iteration `e.depth`, root move `e.move`, the call
`minimax(newGame, e.depth - 1, ..)`), every call of `minimax` in the call tree
has `0 ≤ depth ≤ difficulty - 1`, so `depth ≠ difficulty` there, and on a killer
array of `difficulty` slots the read `killerMoves[depth % difficulty]` and the
cutoff bookkeeping succeed and keep the array at `difficulty` slots. -/
theorem minimax_depth_in_range (evaluate : Game → Int → ℚ) (sortSlice : SortSlice)
    (hperm : SortPermutes sortSlice) (fuel : Nat) (fresh : Zobrist) (g : Game)
    (st : SearchState) (hb : ValidBoard g.board) (hv : ValidTurn g)
    (hmoves : ValidMoves g g.current ≠ []) (hempty : 12 < CountEmptySquares g)
    (hD : 1 ≤ g.difficulty) (hfuel : g.difficulty ≤ fuel) :
    ∃ r : AIResult, AIMove evaluate sortSlice fuel fresh g st = .ok r ∧
      ∀ e ∈ r.log, ∀ ng, SimulateMove g e.move true = .ok ng →
        ∀ g' d, SearchCall ng (e.depth - 1) g' d →
          0 ≤ d ∧ d ≤ g.difficulty - 1 ∧ d ≠ g'.difficulty ∧
          ∀ st' : SearchState, (st'.killerMoves.length : Int) = g.difficulty →
            (∃ k, killerGet st' d g'.difficulty = .ok k) ∧
            ∀ m, ∃ st'', recordCutoff st' m d g'.difficulty = .ok st'' ∧
              (st''.killerMoves.length : Int) = g.difficulty := by
  obtain ⟨r, _, _, hrun, _, _, _, _, hlog⟩ :=
    AIMove_heuristic evaluate sortSlice hperm fuel fresh g st hb hv hmoves hempty hD hfuel
  refine ⟨r, hrun, ?_⟩
  intro e he ng hsim g' d hcall
  obtain ⟨h1, h2, _⟩ := hlog e he
  obtain ⟨hdiff, hd0, hdle⟩ := SearchCall_bounds (by omega) hcall
  have hng := SimulateMove_difficulty hsim
  have hg' : g'.difficulty = g.difficulty := hdiff.trans hng
  refine ⟨hd0, by omega, by omega, ?_⟩
  intro st' hlen
  refine ⟨killerGet_ok st' hd0 (by omega) (by rw [hg']; exact hlen), ?_⟩
  intro m
  obtain ⟨st'', hrec, _, _, hl⟩ :=
    recordCutoff_ok st' m hd0 (show d < g'.difficulty by omega) (by rw [hg']; exact hlen)
  exact ⟨st'', hrec, by rw [hl]; exact hlen⟩

/-- C25 at the starting position with its default `difficulty` 5. -/
theorem minimax_depth_in_range_witness :
    ∃ r : AIResult,
      AIMove Evaluate insertionSort 5 exampleZobrist NewGame (freshState exampleZobrist 5)
        = .ok r ∧
      ∀ e ∈ r.log, ∀ ng, SimulateMove NewGame e.move true = .ok ng →
        ∀ g' d, SearchCall ng (e.depth - 1) g' d →
          0 ≤ d ∧ d ≤ NewGame.difficulty - 1 ∧ d ≠ g'.difficulty ∧
          ∀ st' : SearchState, (st'.killerMoves.length : Int) = NewGame.difficulty →
            (∃ k, killerGet st' d g'.difficulty = .ok k) ∧
            ∀ m, ∃ st'', recordCutoff st' m d g'.difficulty = .ok st'' ∧
              (st''.killerMoves.length : Int) = NewGame.difficulty :=
  minimax_depth_in_range Evaluate insertionSort insertionSort_permutes 5 exampleZobrist NewGame
    (freshState exampleZobrist 5) (by decide) (by decide) (by decide) (by decide) (by decide)
    (by decide)

/-- C26: in every game state reachable from `NewGame()` or `Reset()` by
`SwitchTurn` and by `MakeMove` of a move taken from `ValidMoves(current)`,
every cell is `Blank`, `Black` or `White`, the side to move is Black or White,
`moveCount` is the number of discs on the board, `CountEmptySquares()` is
`64 - moveCount`, and `MakeMove` of each move of `ValidMoves(current)` succeeds
and reduces the empty-cell count by exactly one. -/
theorem reachable_moveCount (g : Game) (h : Reachable g) :
    ValidBoard g.board ∧ ValidTurn g ∧
    g.moveCount = ((discsOf g.board Black + discsOf g.board White : Nat) : Int) ∧
    CountEmptySquares g = 64 - g.moveCount ∧
    ∀ m ∈ ValidMoves g g.current, ∀ switchTurn : Bool,
      ∃ g', MakeMove g m switchTurn = .ok g' ∧
        CountEmptySquares g' = CountEmptySquares g - 1 := by
  obtain ⟨h1, h2, h3⟩ := Reachable_invariant h
  have hd := discs_add_empty h1
  refine ⟨h1, h2, h3, ?_, ?_⟩
  · rw [CountEmptySquares_eq, h3]
    omega
  · intro m hm sw
    cases hmk : MakeMove g m sw with
    | error e =>
      rw [MakeMove_valid hm sw] at hmk
      cases hmk
    | ok g' =>
      obtain ⟨e1, _, _, _⟩ := MakeMove_validBoard h1 h2 hm hmk
      have hc := emptyCount_movedBoard hm (ValidTurn_ne_blank h2)
      refine ⟨g', rfl, ?_⟩
      rw [CountEmptySquares_eq, CountEmptySquares_eq, e1]
      omega

/-- C26 at the state after Black's opening move on `(2,3)`. -/
theorem reachable_moveCount_witness :
    ValidBoard (childOf NewGame openingMove).board ∧ ValidTurn (childOf NewGame openingMove) ∧
    (childOf NewGame openingMove).moveCount =
      ((discsOf (childOf NewGame openingMove).board Black +
        discsOf (childOf NewGame openingMove).board White : Nat) : Int) ∧
    CountEmptySquares (childOf NewGame openingMove)
      = 64 - (childOf NewGame openingMove).moveCount ∧
    ∀ m ∈ ValidMoves (childOf NewGame openingMove) (childOf NewGame openingMove).current,
      ∀ switchTurn : Bool,
        ∃ g', MakeMove (childOf NewGame openingMove) m switchTurn = .ok g' ∧
          CountEmptySquares g' = CountEmptySquares (childOf NewGame openingMove) - 1 :=
  reachable_moveCount (childOf NewGame openingMove)
    (Reachable.makeMove NewGame openingMove true (childOf NewGame openingMove)
      Reachable.newGame (by decide)
      (by
        have h := MakeMove_eq NewGame openingMove true (by decide) (by decide)
        rw [if_pos rfl] at h
        exact h))

end Reversi
